import Mathlib

/-!
# myrient-browser: download engine, extraction and progress model

A shallow embedding of `download.go`, `extract.go`, `update.go`, `view.go`
and `model.go`.  The file system, the HTTP server, the cancellation context
and the clock are explicit arguments: every call the Go code makes to the
outside world is answered by a field of an environment record, so that each
failure branch of the source is reachable in the model.
-/

namespace MyrientBrowser

/-! ## Data model (`types.go`) -/

/-- File contents and response bodies; the code never inspects a byte's value. -/
abbrev Bytes := List Nat

/-- The constant `baseURL` of `types.go`. -/
def baseURL : String := "https://myrient.erista.me/files/"

/-- The constant `numWorkers` of `types.go`. -/
def numWorkers : Nat := 10

/-- The type `fileEntry` of `types.go`. -/
structure fileEntry where
  Name : String
  Path : String
deriving DecidableEq, Repr

/-- The type `fileInfo` of `types.go`; `size` is an `int64` (`-1` or `0` when unknown). -/
structure fileInfo where
  url : String
  filename : String
  path : String
  size : Int
  resumable : Bool
deriving DecidableEq, Repr

/-- The type `downloadStats` of `types.go`.  Times are nanoseconds on the monotonic
clock, the zero `time.Time` is `0`.  The `float64` field `currentSpeed` is
only read and written by the speed display and is left out.  Counters are
unbounded integers: the `int32` ones count files of one batch. -/
structure downloadStats where
  completed : Int := 0
  bytesDownload : Int := 0
  bytesTotal : Int := 0
  total : Int := 0
  scanning : Bool := false
  scanProgress : Int := 0
  lastBytes : Int := 0
  lastTime : Int := 0
  extracting : Bool := false
  extracted : Int := 0
  paused : Int := 0
deriving DecidableEq, Repr

/-! ## The download directory -/

/-- The regular files of the download tree: a path maps to the contents of
the file stored there, `none` when `os.Stat` reports an error. -/
abbrev FS := String → Option Bytes

/-- Point update of the file system. -/
def FS.set (fs : FS) (p : String) (v : Option Bytes) : FS :=
  fun q => if q = p then v else fs q

/-- Go `os.OpenFile(p, O_CREATE|O_WRONLY[|O_APPEND], 0o644)`: the file is created
empty when missing and is never truncated. -/
def FS.openCreate (fs : FS) (p : String) : FS :=
  fs.set p (some ((fs p).getD []))

/-- Go `os.Rename(old, new)`: fails, changing nothing, when `old` is missing;
otherwise `new` is replaced and `old` disappears. -/
def FS.rename (fs : FS) (old new : String) : FS :=
  match fs old with
  | none => fs
  | some b => (fs.set old none).set new (some b)

/-- Contents of a file that held `old` when it was opened, after `w` bytes
went through `Write`: with `O_APPEND` they follow `old`, without it they
overwrite `old` from offset zero. -/
def fileAfterWrites (append : Bool) (old w : Bytes) : Bytes :=
  if append then old ++ w else w ++ old.drop w.length

/-! ## HTTP -/

/-- The part of an `http.Request` the code sets. -/
structure Request where
  method : String
  url : String
  Range : Option String
deriving DecidableEq, Repr

/-- A response body as a stream: `chunks` are the results of the successive
`Read` calls, `err` tells whether the stream ends with an error (connection
drop, context cancelled) instead of `io.EOF`. -/
structure Body where
  chunks : List Bytes
  err : Bool
deriving DecidableEq, Repr

/-- The part of an `http.Response` the transfer looks at. -/
structure Response where
  StatusCode : Nat
  Body : Body
deriving DecidableEq, Repr

/-- Everything `downloadFileWithResume` asks of the outside world. -/
structure Env where
  /-- Whether `http.NewRequestWithContext` returns an error for this URL. -/
  badURL : String → Bool
  /-- The answer of `http.DefaultClient.Do`; `none` is a transport error. -/
  Do : Request → Option Response
  /-- Whether `os.OpenFile` on the `.part` file fails. -/
  openErr : Bool
  /-- The `.part` file accepts only this many bytes (disk full); `none`: no limit. -/
  writeCap : Option Nat
  /-- Whether `os.Rename` fails. -/
  renameErr : Bool
  /-- Whether `ctx.Done()` is closed when the code selects on it after the copy. -/
  cancelled : Bool

/-! ## `io.Copy` through `progressReader` -/

/-- Result of `io.Copy(out, reader)`. -/
structure CopyResult where
  /-- Bytes accepted by `out`; the returned count is their number. -/
  written : Bytes
  /-- Bytes handed out by `progressReader.Read`, each added to `bytesDownload`. -/
  read : Nat
  /-- The copy ended with a read or write error. -/
  err : Bool
  /-- Bytes accepted so far, after each `Write` call. -/
  steps : List Bytes
deriving DecidableEq, Repr

/-- The copy loop of `io.Copy`: read a chunk, write it, stop at the first
short write, report the reader's error once the chunks are exhausted.
`w` and `r` are the bytes written and the count read so far. -/
def ioCopy (cap : Option Nat) (bodyErr : Bool) : List Bytes → Bytes → Nat → CopyResult
  | [], w, r => ⟨w, r, bodyErr, []⟩
  | c :: cs, w, r =>
    let r1 := r + c.length
    if c.length = 0 then ioCopy cap bodyErr cs w r1
    else
      let room := match cap with
        | none => c.length
        | some m => min c.length (m - w.length)
      let w1 := w ++ c.take room
      if room < c.length then ⟨w1, r1, true, [w1]⟩
      else
        let res := ioCopy cap bodyErr cs w1 r1
        { res with steps := w1 :: res.steps }

/-! ## `downloadFileWithResume` (`download.go`) -/

/-- The return statement through which `downloadFileWithResume` leaves. -/
inductive Exit
  | skipped
  | requestError
  | transportError
  | openError
  | cancelled
  | renamed
deriving DecidableEq, Repr

/-- What a call of `downloadFileWithResume` leaves behind. -/
structure Outcome where
  /-- The returned byte count. -/
  n : Int
  /-- The file system when the call returns. -/
  fs : FS
  /-- The shared counters when the call returns. -/
  stats : downloadStats
  /-- The requests handed to `http.DefaultClient.Do`. -/
  requests : List Request
  /-- The file system at the start, after each call that changes it, and at the end. -/
  trace : List FS
  /-- The return statement taken. -/
  exit : Exit
  /-- The status code of the response, when one arrived. -/
  status : Option Nat
  /-- The error result of `io.Copy`, which the code discards. -/
  copyErr : Bool

/-- The test guarding the early `return 0`: the final artifact exists and
has the known expected size. -/
def alreadyComplete (fs : FS) (file : fileInfo) : Bool :=
  match fs file.path with
  | some b => decide (file.size > 0) && decide ((b.length : Int) = file.size)
  | none => false

/-- The value of the `Range` header: `fmt.Sprintf("bytes=%d-", existingSize)`. -/
def rangeHeader (existingSize : Nat) : String :=
  "bytes=" ++ toString existingSize ++ "-"

/-- The function `downloadFileWithResume(ctx, file, stats)` of `download.go`. -/
def downloadFileWithResume (env : Env) (fs : FS) (file : fileInfo)
    (stats : downloadStats) : Outcome :=
  let partFile := file.path ++ ".part"
  if alreadyComplete fs file then
    ⟨0, fs, stats, [], [fs], Exit.skipped, none, false⟩
  else
    let existingSize : Nat := match fs partFile with
      | some b => b.length
      | none => 0
    if env.badURL file.url then
      ⟨0, fs, stats, [], [fs], Exit.requestError, none, false⟩
    else
      let req : Request :=
        { method := "GET", url := file.url,
          Range := if existingSize > 0 && file.resumable
                   then some (rangeHeader existingSize) else none }
      match env.Do req with
      | none => ⟨0, fs, stats, [req], [fs], Exit.transportError, none, false⟩
      | some resp =>
        let append : Bool :=
          decide (existingSize > 0) && (resp.StatusCode == 206 || resp.StatusCode == 200)
        if env.openErr then
          ⟨0, fs, stats, [req], [fs], Exit.openError, some resp.StatusCode, false⟩
        else
          let fs1 := fs.openCreate partFile
          let old := (fs partFile).getD []
          let cp := ioCopy env.writeCap resp.Body.err resp.Body.chunks [] 0
          let during := cp.steps.map
            (fun w => fs1.set partFile (some (fileAfterWrites append old w)))
          let fs2 := fs1.set partFile (some (fileAfterWrites append old cp.written))
          let stats2 := { stats with bytesDownload := stats.bytesDownload + cp.read }
          let n : Int := cp.written.length
          if env.cancelled then
            ⟨n, fs2, stats2, [req], fs :: fs1 :: (during ++ [fs2]), Exit.cancelled,
              some resp.StatusCode, cp.err⟩
          else
            let fs3 := if env.renameErr then fs2 else fs2.rename partFile file.path
            ⟨n, fs3, stats2, [req], fs :: fs1 :: (during ++ [fs3]), Exit.renamed,
              some resp.StatusCode, cp.err⟩

/-- The status codes the specification accepts for a transfer: `2xx`
(which includes `206`). -/
def statusOK (code : Nat) : Bool := decide (200 ≤ code) && decide (code < 300)

/-- A transfer failure in the sense of the specification: the request could
not be built or sent, the `.part` file could not be opened, the status is
neither `2xx` nor `206`, or the copy stopped with a read or write error. -/
def Outcome.transferFailed (o : Outcome) : Bool :=
  match o.exit with
  | Exit.skipped => false
  | Exit.requestError => true
  | Exit.transportError => true
  | Exit.openError => true
  | _ => o.copyErr || (match o.status with
      | some c => !statusOK c
      | none => true)

/-! ## Paths (`path/filepath`, `strings`) -/

/-- Split a path at every slash; the result is never empty. -/
def splitSlash : List Char → List (List Char)
  | [] => [[]]
  | c :: cs =>
    match splitSlash cs with
    | [] => [[c]]
    | x :: xs => if c = '/' then [] :: x :: xs else (c :: x) :: xs

/-- One element of a path processed by `filepath.Clean`; `stack` holds the
elements kept so far, last one first.  Empty elements and `.` are dropped,
`..` removes the element before it unless that one is `..` too (then it is
kept) or there is none (then it is dropped on a rooted path, kept otherwise). -/
def cleanStep (rooted : Bool) (stack : List (List Char)) (comp : List Char) :
    List (List Char) :=
  if comp = [] ∨ comp = ['.'] then stack
  else if comp = ['.', '.'] then
    match stack with
    | [] => if rooted then [] else [comp]
    | top :: rest => if top = ['.', '.'] then comp :: stack else rest
  else comp :: stack

/-- The elements of the cleaned path, first one first. -/
def cleanComps (p : List Char) : List (List Char) :=
  ((splitSlash p).foldl (cleanStep (p.head? = some '/')) []).reverse

/-- The elements of a path joined with slashes. -/
def joinSlash : List (List Char) → List Char
  | [] => []
  | [c] => c
  | c :: c2 :: rest => c ++ '/' :: joinSlash (c2 :: rest)

/-- Go `filepath.Clean` on Unix, on character lists: the shortest path
equivalent to `p` by purely lexical processing. -/
def cleanChars (p : List Char) : List Char :=
  let body := joinSlash (cleanComps p)
  if p.head? = some '/' then '/' :: body
  else if body = [] then ['.'] else body

/-- Go `filepath.Clean`. -/
def filepathClean (p : String) : String := ⟨cleanChars p.data⟩

/-- Go `filepath.Join` of two elements: empty elements are ignored, the
rest is joined with a slash and cleaned; all empty gives the empty string. -/
def filepathJoin (a b : String) : String :=
  if a = "" then (if b = "" then "" else filepathClean b)
  else filepathClean (a ++ "/" ++ b)

/-- The characters up to and including the last slash. -/
def uptoLastSlash (p : List Char) : List Char :=
  (p.reverse.dropWhile (fun c => c != '/')).reverse

/-- Go `filepath.Dir`: all but the last element of the path, cleaned. -/
def filepathDir (p : String) : String := ⟨cleanChars (uptoLastSlash p.data)⟩

/-- The last element of the path, without trimming: what follows the last slash. -/
def lastElem (p : List Char) : List Char :=
  (p.reverse.takeWhile (fun c => c != '/')).reverse

/-- Go `filepath.Ext`: the suffix starting at the last dot of the last
element, empty when that element has no dot. -/
def filepathExt (p : String) : String :=
  let e := lastElem p.data
  if e.contains '.' then
    ⟨'.' :: (e.reverse.takeWhile (fun c => c != '.')).reverse⟩
  else ""

/-- Go `strings.HasPrefix`. -/
def hasPrefixStr (s pre : String) : Bool := pre.data.isPrefixOf s.data

/-- Go `strings.HasSuffix`. -/
def hasSuffixStr (s suf : String) : Bool := suf.data.isSuffixOf s.data

/-- Go `strings.TrimSuffix`. -/
def trimSuffixStr (s suf : String) : String :=
  if hasSuffixStr s suf then ⟨s.data.take (s.data.length - suf.data.length)⟩ else s

/-- Go `strings.ToLower`, on the ASCII letters.  Go also lowers capitals
outside ASCII (so that `İ`, U+0130, becomes `i`); those are left as they are
here, and the results about `isZipPath` and the filter are about names whose
capitals are ASCII. -/
def toLowerStr (s : String) : String := ⟨s.data.map Char.toLower⟩

/-- The test selecting extraction candidates:
`strings.HasSuffix(strings.ToLower(path), ".zip")`. -/
def isZipPath (p : String) : Bool := hasSuffixStr (toLowerStr p) ".zip"

/-- Whether the cleaned path `p` lies inside the directory `root`: going from
the cleaned `root` to `p` only descends, it never takes a `..` step. -/
def insideRoot (root p : String) : Bool :=
  let r := cleanComps root.data
  let q := cleanComps p.data
  (root.data.head? = some '/') == (p.data.head? = some '/') &&
    r.isPrefixOf q && (q.drop r.length).all (fun c => c != ['.', '.'])

/-! ## `unzipFile` (`extract.go`) -/

/-- One `*zip.File` of an opened archive. -/
structure ZipEntry where
  /-- The entry name as stored in the archive. -/
  Name : String
  /-- The result of `f.FileInfo().IsDir()`. -/
  isDir : Bool
  /-- The permission bits `f.Mode()`. -/
  mode : Nat
  /-- The decompressed contents. -/
  data : Bytes
  /-- Whether `f.Open()` fails. -/
  openErr : Bool
  /-- When set, `io.Copy` fails after this many bytes (bad checksum, disk full). -/
  copyStop : Option Nat
deriving DecidableEq, Repr

/-- Everything `unzipFile` asks of the outside world. -/
structure ZipEnv where
  /-- The entries read by `zip.OpenReader`; `none` when it fails. -/
  OpenReader : String → Option (List ZipEntry)
  /-- Whether `os.MkdirAll` fails on this path. -/
  mkdirAllErr : String → Bool
  /-- Whether `os.OpenFile` fails on this path. -/
  openFileErr : String → Bool
  /-- Whether `os.Remove` fails on this path. -/
  removeErr : String → Bool

/-- A file-system call of `unzipFile` that succeeded. -/
inductive FsOp
  | mkdirAll (path : String)
  | create (path : String) (mode : Nat)
  | write (path : String) (data : Bytes)
  | remove (path : String)
deriving DecidableEq, Repr

/-- The error returned by `unzipFile`, by the statement that produced it. -/
inductive UnzipError
  | openReader
  | mkdirDest
  | invalidPath (fpath : String)
  | mkdirEntry (fpath : String)
  | mkdirParent (fpath : String)
  | openFile (fpath : String)
  | entryOpen (fpath : String)
  | copy (fpath : String)
  | remove
deriving DecidableEq, Repr

/-- The body of `for _, f := range r.File`, with the changes made so far. -/
def unzipEntries (env : ZipEnv) (dest : String) :
    List ZipEntry → List FsOp → Option UnzipError × List FsOp
  | [], log => (none, log)
  | f :: fs, log =>
    let fpath := filepathJoin dest f.Name
    if !hasPrefixStr fpath (filepathClean dest ++ "/") then
      (some (UnzipError.invalidPath fpath), log)
    else if f.isDir then
      if env.mkdirAllErr fpath then (some (UnzipError.mkdirEntry fpath), log)
      else unzipEntries env dest fs (log ++ [FsOp.mkdirAll fpath])
    else if env.mkdirAllErr (filepathDir fpath) then
      (some (UnzipError.mkdirParent fpath), log)
    else
      let log1 := log ++ [FsOp.mkdirAll (filepathDir fpath)]
      if env.openFileErr fpath then (some (UnzipError.openFile fpath), log1)
      else
        let log2 := log1 ++ [FsOp.create fpath f.mode]
        if f.openErr then (some (UnzipError.entryOpen fpath), log2)
        else
          match f.copyStop with
          | some k => (some (UnzipError.copy fpath), log2 ++ [FsOp.write fpath (f.data.take k)])
          | none => unzipEntries env dest fs (log2 ++ [FsOp.write fpath f.data])

/-- The function `unzipFile(src, dest, deleteAfter)` of `extract.go`: the
returned error (`none` for `nil`) and the changes made, in order. -/
def unzipFile (env : ZipEnv) (src dest : String) (deleteAfter : Bool) :
    Option UnzipError × List FsOp :=
  match env.OpenReader src with
  | none => (some UnzipError.openReader, [])
  | some files =>
    if env.mkdirAllErr dest then (some UnzipError.mkdirDest, [])
    else
      match unzipEntries env dest files [FsOp.mkdirAll dest] with
      | (some e, log) => (some e, log)
      | (none, log) =>
        if deleteAfter then
          if env.removeErr src then (some UnzipError.remove, log)
          else (none, log ++ [FsOp.remove src])
        else (none, log)

/-- The path an operation acts on. -/
def FsOp.path : FsOp → String
  | FsOp.mkdirAll p => p
  | FsOp.create p _ => p
  | FsOp.write p _ => p
  | FsOp.remove p => p

/-! ## The transfer worker pool (`startDownloadWithFiles`, `downloadAllFiles`) -/

/-- Where a worker goroutine stands in its loop
`for job := range jobs { select ...; for paused ...; download; ... }`. -/
inductive Worker
  /-- At `range jobs`, about to receive. -/
  | idle
  /-- Holding a job, before the first `select` on `ctx.Done()`. -/
  | dequeued (job : fileInfo)
  /-- Before the test `atomic.LoadInt32(&stats.paused) == 1`. -/
  | pauseCheck (job : fileInfo)
  /-- After `time.Sleep`, before the `select` inside the pause loop. -/
  | slept (job : fileInfo)
  /-- Returned; `wg.Done()` has run. -/
  | exited
deriving DecidableEq, Repr

/-- The job a worker holds, if any. -/
def Worker.holding : Worker → Bool
  | Worker.dequeued _ => true
  | Worker.pauseCheck _ => true
  | Worker.slept _ => true
  | _ => false

/-- The state shared by the goroutines of one batch. -/
structure Pool where
  /-- The closed, pre-filled channel `jobs`. -/
  jobs : List fileInfo
  /-- The `numWorkers` goroutines. -/
  workers : List Worker
  /-- Whether the context has been cancelled. -/
  cancelled : Bool
  /-- The download directory. -/
  fs : FS
  /-- The shared counters. -/
  stats : downloadStats
  /-- The slice `extractFiles`. -/
  extractFiles : List String
  /-- Record of the calls of `downloadFileWithResume`, oldest first. -/
  outcomes : List (fileInfo × Outcome)
  /-- Record of the jobs a worker dropped at a cancellation check. -/
  abandoned : List fileInfo

/-- What can happen next in a batch. -/
inductive Event
  /-- Worker `w` runs up to its next test; `env` answers the transfer when it starts one. -/
  | step (w : Nat) (env : Env)
  /-- The UI calls `m.cancel()`. -/
  | cancel
  /-- The UI stores `1` in `stats.paused`. -/
  | pause
  /-- The UI stores `0` in `stats.paused`. -/
  | resume

/-- The pool just after the jobs were queued and the channel closed. -/
def Pool.init (files : List fileInfo) (fs : FS) (stats : downloadStats)
    (cancelled : Bool) : Pool :=
  { jobs := files, workers := List.replicate numWorkers Worker.idle,
    cancelled := cancelled, fs := fs, stats := stats, extractFiles := [],
    outcomes := [], abandoned := [] }

/-- One step of worker `w`.  The transfer itself is one step: it runs with
the context cancelled if it already was or if `env` cancels it under way. -/
def Pool.stepWorker (autoExtract : Bool) (p : Pool) (w : Nat) (env : Env) : Pool :=
  match p.workers.get? w with
  | none => p
  | some Worker.exited => p
  | some Worker.idle =>
    match p.jobs with
    | [] => { p with workers := p.workers.set w Worker.exited }
    | job :: rest => { p with jobs := rest, workers := p.workers.set w (Worker.dequeued job) }
  | some (Worker.dequeued job) =>
    if p.cancelled then
      { p with workers := p.workers.set w Worker.exited, abandoned := p.abandoned ++ [job] }
    else { p with workers := p.workers.set w (Worker.pauseCheck job) }
  | some (Worker.pauseCheck job) =>
    if p.stats.paused = 1 then { p with workers := p.workers.set w (Worker.slept job) }
    else
      let o := downloadFileWithResume { env with cancelled := env.cancelled || p.cancelled }
        p.fs job p.stats
      { p with
        workers := p.workers.set w Worker.idle
        cancelled := p.cancelled || env.cancelled
        fs := o.fs
        stats := { o.stats with completed := o.stats.completed + 1 }
        extractFiles :=
          if autoExtract && isZipPath job.path then p.extractFiles ++ [job.path]
          else p.extractFiles
        outcomes := p.outcomes ++ [(job, o)] }
  | some (Worker.slept job) =>
    if p.cancelled then
      { p with workers := p.workers.set w Worker.exited, abandoned := p.abandoned ++ [job] }
    else { p with workers := p.workers.set w (Worker.pauseCheck job) }

/-- One event of a batch. -/
def Pool.step (autoExtract : Bool) (p : Pool) : Event → Pool
  | Event.step w env => p.stepWorker autoExtract w env
  | Event.cancel => { p with cancelled := true }
  | Event.pause => { p with stats := { p.stats with paused := 1 } }
  | Event.resume => { p with stats := { p.stats with paused := 0 } }

/-- The pool after a sequence of events. -/
def Pool.run (autoExtract : Bool) (p : Pool) (sched : List Event) : Pool :=
  sched.foldl (Pool.step autoExtract) p

/-- The condition under which `wg.Wait()` returns: every worker has returned. -/
def Pool.drained (p : Pool) : Bool := p.workers.all (fun w => w == Worker.exited)

/-- The messages a batch command can return. -/
inductive BatchMsg
  | downloadCompleteMsg
  /-- The message `errMsg` naming the archive that failed to extract. -/
  | extractFailed (zipPath : String) (err : UnzipError)
  /-- The message `errMsg` for a directory that could not be created. -/
  | mkdirFailed
deriving DecidableEq, Repr

/-- The extraction loop that follows `wg.Wait()`.  The context is cancelled
from the start when `cancelled` holds; otherwise the list `cancelAt` tells, for
each archive in turn, whether it is cancelled when the loop reaches it, a
missing answer meaning not cancelled. -/
def extractAll (zenv : ZipEnv) (extractToFolder deleteZip cancelled : Bool) :
    List String → List Bool → Int → List FsOp → BatchMsg × Int × List FsOp
  | [], _, extracted, log => (BatchMsg.downloadCompleteMsg, extracted, log)
  | zipPath :: rest, cancelAt, extracted, log =>
    if cancelled || cancelAt.headD false then (BatchMsg.downloadCompleteMsg, extracted, log)
    else
      let extractDir :=
        if extractToFolder then trimSuffixStr zipPath (filepathExt zipPath)
        else filepathDir zipPath
      match unzipFile zenv zipPath extractDir deleteZip with
      | (some e, l) => (BatchMsg.extractFailed zipPath e, extracted, log ++ l)
      | (none, l) =>
        extractAll zenv extractToFolder deleteZip cancelled rest cancelAt.tail (extracted + 1)
          (log ++ l)

/-- What a batch command leaves behind. -/
structure BatchResult where
  /-- The message returned to the UI. -/
  msg : BatchMsg
  /-- The pool when `wg.Wait()` returned. -/
  pool : Pool
  /-- The counter `stats.extracted` at the end. -/
  extracted : Int
  /-- The file-system calls of the extraction phase. -/
  extractLog : List FsOp

/-- The function `startDownloadWithFiles` of `download.go`, run under the
schedule `sched`.  The result is `none` when the schedule ends before every
worker has returned. -/
def startDownloadWithFiles (files : List fileInfo) (stats : downloadStats) (cancelled : Bool)
    (autoExtract extractToFolder deleteZip : Bool) (fs : FS) (sched : List Event)
    (zenv : ZipEnv) (cancelAt : List Bool) : Option BatchResult :=
  let p := (Pool.init files fs stats cancelled).run autoExtract sched
  if p.drained then
    if autoExtract && decide (p.extractFiles.length > 0) then
      let r := extractAll zenv extractToFolder deleteZip p.cancelled p.extractFiles cancelAt
        p.stats.extracted []
      some ⟨r.1, p, r.2.1, r.2.2⟩
    else some ⟨BatchMsg.downloadCompleteMsg, p, p.stats.extracted, []⟩
  else none

/-- Go `url.QueryUnescape`, as far as the code depends on it: some decoding
function that may fail. -/
abbrev Unescape := String → Option String

/-- The `fileInfo` that `downloadAllFiles` builds for an entry. -/
def unscannedInfo (unescape : Unescape) (basePath outputDir : String)
    (file : fileEntry) : fileInfo :=
  let decodedFilename := (unescape file.Path).getD file.Path
  { url := baseURL ++ basePath ++ file.Path
    filename := decodedFilename
    path := filepathJoin outputDir decodedFilename
    size := 0
    resumable := true }

/-- The directory a batch downloads into: `filepath.Join("./downloads", decodedBasePath)`. -/
def outputDirOf (unescape : Unescape) (basePath : String) : String :=
  filepathJoin "./downloads" ((unescape basePath).getD basePath)

/-- The function `downloadAllFiles` of `download.go`, run under the schedule
`sched`; `mkdirErr` tells whether creating the output directory fails.  Its
worker loop and extraction phase repeat those of `startDownloadWithFiles`
statement for statement. -/
def downloadAllFiles (unescape : Unescape) (mkdirErr : Bool) (basePath : String)
    (files : List fileEntry) (stats : downloadStats) (cancelled : Bool)
    (autoExtract extractToFolder deleteZip : Bool) (fs : FS) (sched : List Event)
    (zenv : ZipEnv) (cancelAt : List Bool) : Option BatchResult :=
  if mkdirErr then
    some ⟨BatchMsg.mkdirFailed, Pool.init [] fs stats cancelled, stats.extracted, []⟩
  else
    startDownloadWithFiles
      (files.map (unscannedInfo unescape basePath (outputDirOf unescape basePath)))
      stats cancelled autoExtract extractToFolder deleteZip fs sched zenv cancelAt

/-! ## The probe (`getFileInfo`) and the scan (`scanAndDownload`) -/

/-- The part of the response to the `HEAD` request the probe looks at. -/
structure HeadResponse where
  /-- The field `resp.ContentLength` (`-1` when the server sent none). -/
  ContentLength : Int
  /-- The value of `resp.Header.Get("Accept-Ranges")`. -/
  AcceptRanges : String
  /-- Whether `resp.Body.Close()` returns an error. -/
  closeErr : Bool
deriving DecidableEq, Repr

/-- Everything `getFileInfo` asks of the outside world. -/
structure ProbeEnv where
  /-- Whether `http.NewRequest` returns an error for this URL. -/
  badURL : String → Bool
  /-- The answer of `http.DefaultClient.Do` to `HEAD url`; `none` is a transport error. -/
  Do : String → Option HeadResponse

/-- The error value returned by `getFileInfo`, by its origin. -/
inductive ProbeError
  | request
  | transport
  | close
deriving DecidableEq, Repr

/-- The function `getFileInfo(fileURL)` of `download.go`.  The results are
named, so the `return size, resumable, nil` assigns all three and the deferred
function then replaces a `nil` error by the error of `resp.Body.Close()`. -/
def getFileInfo (env : ProbeEnv) (fileURL : String) : Int × Bool × Option ProbeError :=
  if env.badURL fileURL then (0, false, some ProbeError.request)
  else
    match env.Do fileURL with
    | none => (0, false, some ProbeError.transport)
    | some resp =>
      let size := resp.ContentLength
      let resumable := resp.AcceptRanges == "bytes"
      let err : Option ProbeError := none
      let err := if resp.closeErr && err.isNone then some ProbeError.close else err
      (size, resumable, err)

/-- What one pass of the scan worker's loop body produces. -/
structure ScanStep where
  /-- The value sent on `results`. -/
  info : fileInfo
  /-- The variable `totalBytes` afterwards. -/
  totalBytes : Int
  /-- The counter `stats.scanProgress` afterwards. -/
  scanProgress : Int
  /-- The error returned by the probe. -/
  err : Option ProbeError
deriving DecidableEq, Repr

/-- The body of the scan worker's loop for one job, after the cancellation
check: probe, look at the disk, build the `fileInfo`, add to the total. -/
def scanJob (env : ProbeEnv) (unescape : Unescape) (fs : FS) (basePath outputDir : String)
    (file : fileEntry) (totalBytes scanProgress : Int) : ScanStep :=
  let decodedFilename := (unescape file.Path).getD file.Path
  let fileURL := baseURL ++ basePath ++ file.Path
  let outputPath := filepathJoin outputDir decodedFilename
  let r := getFileInfo env fileURL
  let size := r.1
  let resumable := r.2.1
  let err := r.2.2
  let existingSize : Int :=
    match fs outputPath with
    | some b => b.length
    | none =>
      match fs (outputPath ++ ".part") with
      | some b => b.length
      | none => 0
  let info : fileInfo :=
    { url := fileURL, filename := decodedFilename, path := outputPath,
      size := size, resumable := resumable }
  let totalBytes :=
    if err.isNone && decide (size > 0) then totalBytes + (size - existingSize) else totalBytes
  ⟨info, totalBytes, scanProgress + 1, err⟩

/-- The message `scanCompleteMsg`, or the `errMsg` of a failed `os.MkdirAll`. -/
structure ScanResult where
  /-- Whether the command returned `errMsg` instead of `scanCompleteMsg`. -/
  mkdirFailed : Bool
  /-- The field `totalBytes`. -/
  totalBytes : Int
  /-- The field `files`. -/
  files : List fileInfo
  /-- The counter `stats.scanProgress` at the end. -/
  scanProgress : Int
deriving DecidableEq, Repr

/-- The jobs of a scan in the order the workers take them.  The context is
cancelled from the start when `cancelled` holds; otherwise the list `cancelAt`
tells, for each job in turn, whether the worker that received it found the
context cancelled, a missing answer meaning not cancelled.  A worker that
finds it cancelled returns without probing, and the job is lost. -/
def scanJobs (env : ProbeEnv) (unescape : Unescape) (fs : FS) (basePath outputDir : String)
    (cancelled : Bool) : List fileEntry → List Bool → ScanResult → ScanResult
  | [], _, acc => acc
  | file :: rest, cancelAt, acc =>
    if cancelled || cancelAt.headD false then
      scanJobs env unescape fs basePath outputDir cancelled rest cancelAt.tail acc
    else
      let s := scanJob env unescape fs basePath outputDir file acc.totalBytes acc.scanProgress
      scanJobs env unescape fs basePath outputDir cancelled rest cancelAt.tail
        { acc with totalBytes := s.totalBytes, files := acc.files ++ [s.info],
                   scanProgress := s.scanProgress }

/-- The function `scanAndDownload` of `download.go`; `mkdirErr` tells whether
creating the output directory fails, `cancelled` whether the context is
already cancelled when the scan starts.  The scan changes no file and each
job is probed independently, so the workers are taken in the order of the
queue; the order of `files` in the result is that order. -/
def scanAndDownload (env : ProbeEnv) (unescape : Unescape) (mkdirErr : Bool) (fs : FS)
    (basePath : String) (files : List fileEntry) (stats : downloadStats)
    (cancelled : Bool) (cancelAt : List Bool) : ScanResult :=
  if mkdirErr then ⟨true, 0, [], stats.scanProgress⟩
  else
    scanJobs env unescape fs basePath (outputDirOf unescape basePath) cancelled files cancelAt
      ⟨false, 0, [], stats.scanProgress⟩

/-! ## The UI model (`model.go`, `update.go`, `view.go`) -/

/-- The anonymous struct `viewport` of `Model`. -/
structure Viewport where
  offset : Int
  height : Int
deriving DecidableEq, Repr

/-- The status line.  Literal messages are kept as text; the messages built
with `fmt.Sprintf` keep their arguments (durations in nanoseconds, printed
rounded to the second; the average speed is printed from the byte count and
the duration). -/
inductive Status
  | text (s : String)
  /-- The message "Starting download of %d files...". -/
  | startingDownload (n : Nat)
  /-- The message "Scanning %d files...". -/
  | scanning (n : Nat)
  /-- The message "Downloading %s...". -/
  | downloadingFile (name : String)
  /-- The message "✓ Downloaded %d files in %s (avg %.2f MB/s)". -/
  | downloaded (total : Int) (elapsed : Int) (bytesDownload : Int)
  /-- The message "✓ Downloaded and extracted %d files in %s". -/
  | downloadedExtracted (total : Int) (elapsed : Int)
deriving DecidableEq, Repr

/-- The type `Model` of `types.go`.  The text input is its value, the
progress bar has no state the code reads, and the pair `ctx`, `cancel` is
the flag `cancelled`.  Times are nanoseconds on the monotonic clock. -/
structure Model where
  entries : List fileEntry
  filtered : List Nat
  cursor : Int
  currentPath : String
  pathStack : List String
  downloading : Bool
  paused : Bool
  status : Status
  downloadStats : Option downloadStats
  startTime : Int
  pausedTime : Int
  pauseStart : Int
  viewport : Viewport
  filterInput : String
  filtering : Bool
  skipScan : Bool
  autoExtract : Bool
  extractToFolder : Bool
  deleteZip : Bool
  cancelled : Bool
  lastError : String
deriving DecidableEq, Repr

/-- The messages `Update` distinguishes; a key is given by `msg.String()`. -/
inductive Msg
  | WindowSizeMsg (Width Height : Int)
  | errMsg (err : String)
  | dirLoadedMsg (entries : List fileEntry)
  | scanCompleteMsg (totalBytes : Int) (files : List fileInfo)
  | tickMsg
  | downloadCompleteMsg
  | KeyMsg (key : String)
  | other
deriving DecidableEq, Repr

/-- The commands `Update` returns. -/
inductive Cmd
  | nil
  | Quit
  | Blink
  | tick
  /-- The command returned by the text input. -/
  | input
  | loadDirectory (path : String)
  | startDownloadWithFiles (files : List fileInfo) (autoExtract extractToFolder deleteZip : Bool)
  | downloadAllFiles (basePath : String) (files : List fileEntry)
      (autoExtract extractToFolder deleteZip : Bool)
  | scanAndDownload (basePath : String) (files : List fileEntry)
  | Batch (a b : Cmd)
deriving DecidableEq, Repr

/-- The function `InitialModel` of `model.go`. -/
def InitialModel : Model :=
  { entries := [], filtered := [], cursor := 0, currentPath := "", pathStack := [],
    downloading := false, paused := false, status := Status.text "", downloadStats := none,
    startTime := 0, pausedTime := 0, pauseStart := 0, viewport := ⟨0, 0⟩,
    filterInput := "", filtering := false, skipScan := false, autoExtract := false,
    extractToFolder := false, deleteZip := false, cancelled := false, lastError := "" }

/-- Go `strings.Contains`. -/
def containsStr (s sub : String) : Bool :=
  s.data.tails.any (fun t => sub.data.isPrefixOf t)

/-- The method `updateFilter` of `model.go`. -/
def Model.updateFilter (m : Model) : Model :=
  let filterText := toLowerStr m.filterInput
  let filtered :=
    if filterText = "" then List.range m.entries.length
    else (List.range m.entries.length).filter (fun i =>
      match m.entries.get? i with
      | some entry => containsStr (toLowerStr entry.Name) filterText
      | none => false)
  if filtered.length > 0 then
    { m with filtered := filtered, cursor := 0, viewport := { m.viewport with offset := 0 } }
  else { m with filtered := filtered }

/-- The elapsed time of the completion messages: `m.pausedTime + time.Since(m.startTime)`. -/
def Model.elapsedNow (m : Model) (now : Int) : Int := m.pausedTime + (now - m.startTime)

/-- Go slice indexing `xs[i]` with an `int` index; `none` is the run-time panic. -/
def index? {α : Type} (xs : List α) (i : Int) : Option α :=
  if i < 0 then none else xs.get? i.toNat

/-- The test that keeps an entry as a file to download. -/
def isFileEntry (entry : fileEntry) : Bool :=
  !hasSuffixStr entry.Path "/" && entry.Path != "../"

/-- The start of a batch in the handlers of `d` and of `enter` on a file. -/
def Model.startBatch (m : Model) (now : Int) (files : List fileEntry) (status : Status) :
    Model × Cmd :=
  let m1 := { m with
    downloading := true, paused := false, pausedTime := 0,
    downloadStats := some { total := files.length, scanning := !m.skipScan },
    startTime := now, status := status }
  if m.skipScan then
    (m1, Cmd.Batch (Cmd.downloadAllFiles m.currentPath files m.autoExtract
      m.extractToFolder m.deleteZip) Cmd.tick)
  else (m1, Cmd.Batch (Cmd.scanAndDownload m.currentPath files) Cmd.tick)

/-- The handler of a key while `m.downloading` holds. -/
def Model.keyDownloading (m : Model) (now : Int) (key : String) : Option (Model × Cmd) :=
  if (match m.downloadStats with
      | some st => st.scanning
      | none => false) then
    if key = "ctrl+c" then some ({ m with cancelled := true }, Cmd.Quit)
    else if key = "esc" then
      some ({ m with cancelled := true, downloading := false,
                     status := Status.text "Scan cancelled" }, Cmd.nil)
    else some (m, Cmd.nil)
  else if key = "ctrl+c" then some ({ m with cancelled := true }, Cmd.Quit)
  else if key = "p" then
    if !m.paused then
      match m.downloadStats with
      | none => none
      | some st =>
        some ({ m with
          paused := true, downloadStats := some { st with paused := 1 }, pauseStart := now,
          status := Status.text "Paused - Press [r] to resume or [Esc] to cancel" }, Cmd.nil)
    else some (m, Cmd.nil)
  else if key = "r" then
    if m.paused then
      match m.downloadStats with
      | none => none
      | some st =>
        some ({ m with
          paused := false, downloadStats := some { st with paused := 0, lastTime := 0 },
          pausedTime := m.pausedTime + (now - m.pauseStart), startTime := now,
          status := Status.text "Resumed downloading..." }, Cmd.nil)
    else some (m, Cmd.nil)
  else if key = "esc" then
    if m.paused then
      some ({ m with cancelled := true, downloading := false, paused := false,
                     status := Status.text "Download cancelled" }, Cmd.nil)
    else some (m, Cmd.nil)
  else some (m, Cmd.nil)

/-- The handler of `tickMsg`. -/
def Model.tick (m : Model) (now : Int) : Model × Cmd :=
  match m.downloadStats with
  | none => (m, Cmd.nil)
  | some st =>
    if !m.downloading then (m, Cmd.nil)
    else if m.paused then (m, Cmd.tick)
    else if st.extracting then
      if st.extracted ≥ st.total then
        ({ m with downloading := false,
                  status := Status.downloadedExtracted st.total (m.elapsedNow now) }, Cmd.nil)
      else (m, Cmd.tick)
    else if st.completed ≥ st.total then
      if m.autoExtract then
        ({ m with downloadStats := some { st with extracting := true } }, Cmd.tick)
      else
        ({ m with downloading := false,
                  status := Status.downloaded st.total (m.elapsedNow now) st.bytesDownload },
          Cmd.nil)
    else (m, Cmd.tick)

/-- The handler of a key in filter mode; `typed` is the value of the text
input after `m.filterInput.Update(msg)`. -/
def Model.keyFiltering (m : Model) (typed : String → String → String) (key : String) :
    Model × Cmd :=
  if key = "esc" then
    (({ m with filtering := false, filterInput := "" }).updateFilter, Cmd.nil)
  else if key = "enter" then ({ m with filtering := false }, Cmd.nil)
  else (({ m with filterInput := typed m.filterInput key }).updateFilter, Cmd.input)

/-- The handler of `right` and `enter` in browse mode. -/
def Model.keyEnter (m : Model) (now : Int) : Option (Model × Cmd) :=
  if m.cursor ≥ m.filtered.length then some (m, Cmd.nil)
  else
    match index? m.filtered m.cursor with
    | none => none
    | some idx =>
      match m.entries.get? idx with
      | none => none
      | some entry =>
        if hasSuffixStr entry.Path "/" then
          if entry.Path = "../" then
            match m.pathStack.getLast? with
            | some top =>
              some ({ m with currentPath := top, pathStack := m.pathStack.dropLast },
                Cmd.loadDirectory top)
            | none => some ({ m with currentPath := "" }, Cmd.loadDirectory "")
          else
            let path := if m.currentPath = "" then entry.Path else m.currentPath ++ entry.Path
            some ({ m with pathStack := m.pathStack ++ [m.currentPath], currentPath := path },
              Cmd.loadDirectory path)
        else some (m.startBatch now [entry] (Status.downloadingFile entry.Name))

/-- The handler of `d` in browse mode. -/
def Model.keyDownloadAll (m : Model) (now : Int) : Option (Model × Cmd) :=
  match m.filtered.mapM (fun idx => m.entries.get? idx) with
  | none => none
  | some shown =>
    let files := shown.filter isFileEntry
    if files.length = 0 then
      some ({ m with status := Status.text "No files to download in current view" }, Cmd.nil)
    else
      some (m.startBatch now files
        (if m.skipScan then Status.startingDownload files.length
         else Status.scanning files.length))

/-- The handler of a key in browse mode. -/
def Model.keyBrowse (m : Model) (now : Int) (key : String) : Option (Model × Cmd) :=
  if key = "ctrl+c" ∨ key = "q" then some (m, Cmd.Quit)
  else if key = "s" then
    some ({ m with skipScan := !m.skipScan, status := Status.text (
       if !m.skipScan then "Scan disabled - downloads will start immediately"
       else "Scan enabled - will check file sizes before downloading") }, Cmd.nil)
  else if key = "x" then
    some ({ m with autoExtract := !m.autoExtract, status := Status.text (
       if !m.autoExtract then "Auto-extract enabled - will unzip files after download"
       else "Auto-extract disabled") }, Cmd.nil)
  else if key = "f" then
    some ({ m with extractToFolder := !m.extractToFolder, status := Status.text (
       if !m.extractToFolder then "Extract to folder: ON - creates folder per zip file"
       else "Extract to folder: OFF - extracts directly to current directory") }, Cmd.nil)
  else if key = "z" then
    some ({ m with deleteZip := !m.deleteZip, status := Status.text (
       if !m.deleteZip then "Delete zip: ON - will delete zip files after extraction"
       else "Delete zip: OFF - keeps zip files after extraction") }, Cmd.nil)
  else if key = "/" then some ({ m with filtering := true }, Cmd.Blink)
  else if key = "up" then
    if m.cursor > 0 then
      let cursor := m.cursor - 1
      some ({ m with cursor := cursor, viewport :=
        if cursor < m.viewport.offset then { m.viewport with offset := cursor }
        else m.viewport }, Cmd.nil)
    else some (m, Cmd.nil)
  else if key = "down" then
    if m.cursor < (m.filtered.length : Int) - 1 then
      let cursor := m.cursor + 1
      some ({ m with cursor := cursor, viewport :=
        if cursor ≥ m.viewport.offset + m.viewport.height then
          { m.viewport with offset := cursor - m.viewport.height + 1 }
        else m.viewport }, Cmd.nil)
    else some (m, Cmd.nil)
  else if key = "pgup" then
    let cursor := m.cursor - m.viewport.height
    let cursor := if cursor < 0 then 0 else cursor
    some ({ m with cursor := cursor, viewport := { m.viewport with offset := cursor } }, Cmd.nil)
  else if key = "pgdown" then
    let cursor := m.cursor + m.viewport.height
    let cursor := if cursor ≥ m.filtered.length then (m.filtered.length : Int) - 1 else cursor
    some ({ m with cursor := cursor, viewport :=
      if cursor ≥ m.viewport.offset + m.viewport.height then
        { m.viewport with offset := cursor - m.viewport.height + 1 }
      else m.viewport }, Cmd.nil)
  else if key = "home" then
    some ({ m with cursor := 0, viewport := { m.viewport with offset := 0 } }, Cmd.nil)
  else if key = "end" then
    let cursor := (m.filtered.length : Int) - 1
    some ({ m with cursor := cursor, viewport :=
      if cursor ≥ m.viewport.height then
        { m.viewport with offset := cursor - m.viewport.height + 1 }
      else m.viewport }, Cmd.nil)
  else if key = "d" then m.keyDownloadAll now
  else if key = "right" ∨ key = "enter" then m.keyEnter now
  else if key = "left" then
    match m.pathStack.getLast? with
    | some top =>
      some ({ m with currentPath := top, pathStack := m.pathStack.dropLast,
                     status := Status.text "" }, Cmd.loadDirectory top)
    | none =>
      if m.currentPath ≠ "" then
        some ({ m with currentPath := "", status := Status.text "" }, Cmd.loadDirectory "")
      else some (m, Cmd.nil)
  else some (m, Cmd.nil)

/-- The method `Update` of `update.go`.  The argument `now` is the reading of
the clock during the call, `typed` the behaviour of the text input; the
result `none` is a run-time panic (index out of range, nil dereference). -/
def Model.Update (m : Model) (now : Int) (typed : String → String → String) :
    Msg → Option (Model × Cmd)
  | Msg.WindowSizeMsg _ Height =>
    some ({ m with viewport := { m.viewport with height := Height - 12 } }, Cmd.nil)
  | Msg.errMsg err =>
    some ({ m with lastError := err, downloading := false, status := Status.text "" }, Cmd.nil)
  | Msg.dirLoadedMsg entries =>
    let m1 := { m with entries := entries, cursor := 0,
                       viewport := { m.viewport with offset := 0 },
                       filtering := false, filterInput := "" }
    let m2 := m1.updateFilter
    some ({ m2 with status := Status.text "" }, Cmd.nil)
  | Msg.scanCompleteMsg totalBytes files =>
    match m.downloadStats with
    | some st =>
      some ({ m with downloadStats := some { st with scanning := false, bytesTotal := totalBytes } },
        Cmd.Batch (Cmd.startDownloadWithFiles files m.autoExtract m.extractToFolder m.deleteZip)
          Cmd.tick)
    | none => some (m, Cmd.nil)
  | Msg.tickMsg => some (m.tick now)
  | Msg.downloadCompleteMsg =>
    match m.downloadStats with
    | some st =>
      some ({ m with downloading := false,
                     status := Status.downloaded st.total (m.elapsedNow now) st.bytesDownload },
        Cmd.nil)
    | none => some ({ m with downloading := false }, Cmd.nil)
  | Msg.KeyMsg key =>
    if m.lastError ≠ "" then some ({ m with lastError := "" }, Cmd.nil)
    else if m.downloading then m.keyDownloading now key
    else if m.filtering then some (m.keyFiltering typed key)
    else m.keyBrowse now key
  | Msg.other => some (m, Cmd.nil)

/-- The elapsed time shown by `View`, as computed in its progress branch:
`none` when `View` renders another screen (error, extraction, scan, browser). -/
def Model.viewElapsed (m : Model) (now : Int) : Option Int :=
  if m.lastError ≠ "" then none
  else
    match m.downloadStats with
    | none => none
    | some st =>
      if !m.downloading then none
      else if st.extracting then none
      else if st.scanning then none
      else if m.paused then some (m.pausedTime + (now - m.pauseStart))
      else some (m.pausedTime + (now - m.startTime))

/-- The model after a sequence of messages, each handled by `Update` at the
given clock reading; `none` when a handler panics. -/
def Model.after (m : Model) (typed : String → String → String) :
    List (Int × Msg) → Option Model
  | [] => some m
  | (now, msg) :: rest =>
    match m.Update now typed msg with
    | none => none
    | some r => Model.after r.1 typed rest

/-! ## The batch seen from the byte counter (`progressReader.Read`) -/

/-- The method `Read` of `progressReader`, for a read of `n` bytes from the
response body: `atomic.AddInt64(&pr.stats.bytesDownload, int64(n))`.  The
method looks at nothing else, in particular not at `stats.paused`. -/
def progressReader.Read (stats : downloadStats) (n : Nat) : downloadStats :=
  { stats with bytesDownload := stats.bytesDownload + n }

/-- The sizes of the reads that the loop of `io.Copy` performs, in order: one
per chunk until the chunks are exhausted or a write comes up short. -/
def ioCopyReads (cap : Option Nat) : List Bytes → Bytes → List Nat
  | [], _ => []
  | c :: cs, w =>
    if c.length = 0 then 0 :: ioCopyReads cap cs w
    else
      let room := match cap with
        | none => c.length
        | some m => min c.length (m - w.length)
      if room < c.length then [c.length]
      else c.length :: ioCopyReads cap cs (w ++ c.take room)

/-- The sizes of the reads that one call of `downloadFileWithResume` makes
through its `progressReader`: none when the call returns before `io.Copy`. -/
def transferReads (env : Env) (fs : FS) (file : fileInfo) : List Nat :=
  let partFile := file.path ++ ".part"
  if alreadyComplete fs file then []
  else
    let existingSize : Nat := match fs partFile with
      | some b => b.length
      | none => 0
    if env.badURL file.url then []
    else
      let req : Request :=
        { method := "GET", url := file.url,
          Range := if existingSize > 0 && file.resumable
                   then some (rangeHeader existingSize) else none }
      match env.Do req with
      | none => []
      | some resp =>
        if env.openErr then [] else ioCopyReads env.writeCap resp.Body.chunks []

/-- Where a worker goroutine stands in its loop, the call of
`downloadFileWithResume` being unfolded into its reads. -/
inductive Stage
  /-- At `range jobs`, about to receive. -/
  | idle
  /-- Holding a job, before the first `select` on `ctx.Done()`. -/
  | dequeued (job : fileInfo)
  /-- Before the test `atomic.LoadInt32(&stats.paused) == 1`. -/
  | pauseCheck (job : fileInfo)
  /-- After `time.Sleep`, before the `select` inside the pause loop. -/
  | slept (job : fileInfo)
  /-- Past the pause loop, about to call `downloadFileWithResume`. -/
  | passed (job : fileInfo)
  /-- Inside `downloadFileWithResume`; `todo` are the reads still to come. -/
  | copying (job : fileInfo) (todo : List Nat)
  /-- Returned; `wg.Done()` has run. -/
  | exited
deriving DecidableEq, Repr

/-- Whether the worker has left the pause loop for a transfer that has not
returned yet. -/
def Stage.committed : Stage → Bool
  | Stage.passed _ => true
  | Stage.copying _ _ => true
  | _ => false

/-- The counters and the goroutines of one batch. -/
structure Progress where
  /-- The closed, pre-filled channel `jobs`. -/
  jobs : List fileInfo
  /-- The `numWorkers` goroutines. -/
  workers : List Stage
  /-- Whether the context has been cancelled. -/
  cancelled : Bool
  /-- The shared counters. -/
  stats : downloadStats
deriving DecidableEq, Repr

/-- What can happen next in a batch, read by read. -/
inductive Beat
  /-- Worker `w` runs up to its next test, or makes its next read; when it
  enters `downloadFileWithResume`, `reads` are the reads that call will make. -/
  | step (w : Nat) (reads : List Nat)
  /-- The UI calls `m.cancel()`. -/
  | cancel
  /-- The UI stores `1` in `stats.paused`. -/
  | pause
  /-- The UI stores `0` in `stats.paused`. -/
  | resume
deriving DecidableEq, Repr

/-- The batch just after the jobs were queued and the channel closed. -/
def Progress.init (files : List fileInfo) (stats : downloadStats) (cancelled : Bool) :
    Progress :=
  { jobs := files, workers := List.replicate numWorkers Stage.idle,
    cancelled := cancelled, stats := stats }

/-- One step of worker `w`: the loop of `startDownloadWithFiles` up to the
call of `downloadFileWithResume`, then one `progressReader.Read` per step,
then the return and `atomic.AddInt32(&stats.completed, 1)`. -/
def Progress.stepWorker (p : Progress) (w : Nat) (reads : List Nat) : Progress :=
  match p.workers.get? w with
  | none => p
  | some Stage.exited => p
  | some Stage.idle =>
    match p.jobs with
    | [] => { p with workers := p.workers.set w Stage.exited }
    | job :: rest => { p with jobs := rest, workers := p.workers.set w (Stage.dequeued job) }
  | some (Stage.dequeued job) =>
    if p.cancelled then { p with workers := p.workers.set w Stage.exited }
    else { p with workers := p.workers.set w (Stage.pauseCheck job) }
  | some (Stage.pauseCheck job) =>
    if p.stats.paused = 1 then { p with workers := p.workers.set w (Stage.slept job) }
    else { p with workers := p.workers.set w (Stage.passed job) }
  | some (Stage.slept job) =>
    if p.cancelled then { p with workers := p.workers.set w Stage.exited }
    else { p with workers := p.workers.set w (Stage.pauseCheck job) }
  | some (Stage.passed job) =>
    { p with workers := p.workers.set w (Stage.copying job reads) }
  | some (Stage.copying job (n :: todo)) =>
    { p with workers := p.workers.set w (Stage.copying job todo),
             stats := progressReader.Read p.stats n }
  | some (Stage.copying _ []) =>
    { p with workers := p.workers.set w Stage.idle,
             stats := { p.stats with completed := p.stats.completed + 1 } }

/-- One event of a batch. -/
def Progress.step (p : Progress) : Beat → Progress
  | Beat.step w reads => p.stepWorker w reads
  | Beat.cancel => { p with cancelled := true }
  | Beat.pause => { p with stats := { p.stats with paused := 1 } }
  | Beat.resume => { p with stats := { p.stats with paused := 0 } }

/-- The batch after a sequence of events. -/
def Progress.run (p : Progress) (sched : List Beat) : Progress :=
  sched.foldl Progress.step p

/-- The number of workers that have left the pause loop for a transfer that
has not returned yet. -/
def Progress.committed (p : Progress) : Nat := p.workers.countP Stage.committed

/-- The browse state of the model: the listing, the visible entries, the
cursor, the scroll offset, the path and its history, and the option flags
`skipScan`, `autoExtract`, `extractToFolder`, `deleteZip`. -/
def Model.nav (m : Model) :
    List fileEntry × List Nat × Int × Int × String × List String ×
      Bool × Bool × Bool × Bool :=
  (m.entries, m.filtered, m.cursor, m.viewport.offset, m.currentPath, m.pathStack,
    m.skipScan, m.autoExtract, m.extractToFolder, m.deleteZip)

/-! ## Invariants -/

/-- The number of workers holding a job. -/
def holdingCount (ws : List Worker) : Nat := ws.countP Worker.holding

/-- The accounting invariant of a batch of `n` files whose pool started with
the counter `completed` at `c0`: the counter is `c0` plus the number of calls
of `downloadFileWithResume` made; every file is queued, held by a worker,
transferred or dropped; and as long as the context is not cancelled no job is
dropped and no worker returns before the queue is empty. -/
def PoolInv (c0 : Int) (n : Nat) (p : Pool) : Prop :=
  p.stats.completed = c0 + (p.outcomes.length : Int) ∧
  p.outcomes.length + p.jobs.length + holdingCount p.workers + p.abandoned.length = n ∧
  p.workers.length = numWorkers ∧
  (p.cancelled = false → p.abandoned = [] ∧ (Worker.exited ∈ p.workers → p.jobs = []))

/-- The error, if any, that the loop body of `unzipFile` returns for the entry `f`. -/
def entryError (env : ZipEnv) (dest : String) (f : ZipEntry) : Option UnzipError :=
  let fpath := filepathJoin dest f.Name
  if !hasPrefixStr fpath (filepathClean dest ++ "/") then some (UnzipError.invalidPath fpath)
  else if f.isDir then
    if env.mkdirAllErr fpath then some (UnzipError.mkdirEntry fpath) else none
  else if env.mkdirAllErr (filepathDir fpath) then some (UnzipError.mkdirParent fpath)
  else if env.openFileErr fpath then some (UnzipError.openFile fpath)
  else if f.openErr then some (UnzipError.entryOpen fpath)
  else if f.copyStop.isSome then some (UnzipError.copy fpath)
  else none

/-- Modelled from the spec: what "the entry was extracted" means on the disk.
A directory entry is extracted when its directory was made; a file entry when
its parent directory was made and the file was created with the mode of the
entry and received the whole contents of the entry.  These are the
operations, in that order. -/
def extractedOps (dest : String) (f : ZipEntry) : List FsOp :=
  if f.isDir then [FsOp.mkdirAll (filepathJoin dest f.Name)]
  else
    [FsOp.mkdirAll (filepathDir (filepathJoin dest f.Name)),
     FsOp.create (filepathJoin dest f.Name) f.mode,
     FsOp.write (filepathJoin dest f.Name) f.data]

/-- Whether an operation removes something. -/
def FsOp.isRemove : FsOp → Bool
  | FsOp.remove _ => true
  | _ => false

/-- A schedule that drains a batch of `n` files when nobody pauses or
cancels: worker 0 takes the jobs one after the other, then every worker finds
the queue empty and returns. -/
def schedAll (env : Env) (n : Nat) : List Event :=
  (List.replicate n [Event.step 0 env, Event.step 0 env, Event.step 0 env]).flatten ++
    (List.range numWorkers).map (fun w => Event.step w env)

/-- The state of a pool whose workers all wait for a job, nobody having
paused or cancelled. -/
def Pool.quiet (p : Pool) : Prop :=
  p.workers = List.replicate numWorkers Worker.idle ∧ p.cancelled = false ∧ p.stats.paused ≠ 1

/-- A path element kept by `filepath.Clean`: not empty, not `.`, without slash. -/
def validComp (c : List Char) : Prop := c ≠ [] ∧ c ≠ ['.'] ∧ '/' ∉ c

/-- The shape of the element stack of `filepath.Clean`: ordinary elements on
top of `k` elements `..`, none of them on a rooted path. -/
def CleanStack (rooted : Bool) (stack : List (List Char)) : Prop :=
  ∃ (k : Nat) (ns : List (List Char)),
    stack = ns ++ List.replicate k ['.', '.'] ∧
    (∀ c ∈ ns, validComp c ∧ c ≠ ['.', '.']) ∧ (rooted = true → k = 0)

/-- The shape of a cleaned element list: some `..`, none on a rooted path,
followed by ordinary elements. -/
def Shaped (rooted : Bool) (l : List (List Char)) : Prop :=
  ∃ (k : Nat) (ms : List (List Char)),
    l = List.replicate k ['.', '.'] ++ ms ∧
    (∀ c ∈ ms, validComp c ∧ c ≠ ['.', '.']) ∧ (rooted = true → k = 0)

/-- The path a call creates or writes; `none` for a removal. -/
def FsOp.creates : FsOp → Option String
  | FsOp.mkdirAll p => some p
  | FsOp.create p _ => some p
  | FsOp.write p _ => some p
  | FsOp.remove _ => none

/-- Whether everything the call creates lies inside `root`. -/
def FsOp.within (root : String) (op : FsOp) : Bool :=
  match op.creates with
  | some p => insideRoot root p
  | none => true

/-! ## The browse invariant -/

/-- The index invariant of the browser: every element of `filtered` is an
index into `entries`; the cursor points into `filtered` when that list is not
empty and is never below `-1`; the viewport height is not negative; and a
model that is downloading has its counters. -/
def Model.browseOK (m : Model) : Prop :=
  (∀ i ∈ m.filtered, i < m.entries.length) ∧
  (m.filtered ≠ [] → 0 ≤ m.cursor ∧ m.cursor < m.filtered.length) ∧
  -1 ≤ m.cursor ∧ 0 ≤ m.viewport.height ∧
  (m.downloading = true → m.downloadStats ≠ none)

/-- The messages of a terminal of at least twelve rows. -/
def Msg.roomy : Msg → Bool
  | Msg.WindowSizeMsg _ Height => decide (12 ≤ Height)
  | _ => true

/-! ## Batch commands run for a model -/

/-- Everything a batch command asks of the outside world. -/
structure World where
  /-- The answers to the probes of a scan. -/
  penv : ProbeEnv
  /-- The function `url.QueryUnescape`. -/
  unescape : Unescape
  /-- Whether `os.MkdirAll(outputDir)` fails. -/
  mkdirErr : Bool
  /-- The download directory when the command starts. -/
  fs : FS
  /-- The archives met by the extraction phase. -/
  zenv : ZipEnv
  /-- The answers of the cancellation checks under way. -/
  cancelAt : List Bool

/-- The run of the transfer command inside a command returned by `Update`.
At each call site in `update.go` the arguments `stats` and `ctx` are
`m.downloadStats` and `m.ctx` of the model that `Update` returns, so they are
read off the model here.  The result is `none` when the command contains no
transfer command or when the schedule ends before the command returns. -/
def Model.runTransfers (m : Model) (w : World) (sched : List Event) : Cmd → Option BatchResult
  | Cmd.startDownloadWithFiles files autoExtract extractToFolder deleteZip =>
    match m.downloadStats with
    | some st =>
      startDownloadWithFiles files st m.cancelled autoExtract extractToFolder deleteZip
        w.fs sched w.zenv w.cancelAt
    | none => none
  | Cmd.downloadAllFiles basePath files autoExtract extractToFolder deleteZip =>
    match m.downloadStats with
    | some st =>
      downloadAllFiles w.unescape w.mkdirErr basePath files st m.cancelled autoExtract
        extractToFolder deleteZip w.fs sched w.zenv w.cancelAt
    | none => none
  | Cmd.Batch a b =>
    match m.runTransfers w sched a with
    | some r => some r
    | none => m.runTransfers w sched b
  | _ => none

/-- A server that needs no special case: every URL is well formed, every
request is answered by `resp`, the disk works and nobody cancels. -/
def quietEnv (resp : Option Response) : Env :=
  { badURL := fun _ => false, Do := fun _ => resp, openErr := false, writeCap := none,
    renameErr := false, cancelled := false }

/-- A disk holding a two-byte partial artifact `a.part` and nothing else. -/
def fsPartial : FS := fun q => if q = "a.part" then some [1, 2] else none

/-- A disk holding a final artifact `a` of three bytes and nothing else. -/
def fsFinal : FS := fun q => if q = "a" then some [4, 5, 6] else none

/-- The empty disk. -/
def fsEmpty : FS := fun _ => none

/-- The file `a` of unknown size on a server that announced no range support. -/
def fileNonResumable : fileInfo :=
  { url := "u", filename := "a", path := "a", size := 0, resumable := false }

/-- The file `a` of three bytes. -/
def fileSized : fileInfo :=
  { url := "u", filename := "a", path := "a", size := 3, resumable := true }

/-- A server that honours `Range: bytes=2-` with the last three of the five
bytes `1 2 7 8 9` and answers an un-ranged request with all five. -/
def envRange : Env :=
  { badURL := fun _ => false,
    Do := fun req =>
      if req.Range = some "bytes=2-" then some ⟨206, ⟨[[7], [8, 9]], false⟩⟩
      else if req.Range = none then some ⟨200, ⟨[[1, 2, 7], [8, 9]], false⟩⟩
      else none,
    openErr := false, writeCap := none, renameErr := false, cancelled := false }

/-- A schedule for a batch of one file: worker 0 receives the job, passes the
cancellation and pause tests and transfers it under `env`; then every worker
finds the queue empty and returns. -/
def schedOne (env : Env) : List Event :=
  [Event.step 0 env, Event.step 0 env, Event.step 0 env] ++
    (List.range numWorkers).map (fun w => Event.step w env)

/-- An archive whose single entry is named `../evil`, on a disk that works. -/
def zipEnvEscape : ZipEnv :=
  { OpenReader := fun _ => some [⟨"../evil", false, 420, [1], false, none⟩],
    mkdirAllErr := fun _ => false, openFileErr := fun _ => false, removeErr := fun _ => false }

/-- An archive with the entries `d/` and `d/f`, on a disk that works. -/
def zipEnvPlain : ZipEnv :=
  { OpenReader := fun _ =>
      some [⟨"d/", true, 493, [], false, none⟩, ⟨"d/f", false, 420, [1, 2], false, none⟩],
    mkdirAllErr := fun _ => false, openFileErr := fun _ => false, removeErr := fun _ => false }

/-- A server whose `HEAD` answer announces three bytes and range support,
and whose response body fails to close. -/
def probeCloseErr : ProbeEnv :=
  { badURL := fun _ => false, Do := fun _ => some ⟨3, "bytes", true⟩ }

/-- A disk holding the three-byte final artifact `downloads/a`. -/
def fsScanned : FS := fun q => if q = "downloads/a" then some [4, 5, 6] else none

/-- The text input of the scenarios: a typed key is appended to the value. -/
def typedAppend (value key : String) : String := value ++ key

/-- The browser showing one file, after `InitialModel` received the directory
listing and the key `s` (skip the scan). -/
def mBrowsing : Model :=
  { InitialModel with
    entries := [⟨"a.zip", "a.zip"⟩], filtered := [0], skipScan := true,
    status := Status.text "Scan disabled - downloads will start immediately" }

/-- The model after the key `d` at time 100 started a batch of one file. -/
def mStarted : Model :=
  { mBrowsing with
    downloading := true, downloadStats := some { total := 1 }, startTime := 100,
    status := Status.startingDownload 1 }

/-- A schedule for a batch of one file: worker 0 receives the job, passes the
cancellation and pause tests, enters `downloadFileWithResume` for a transfer of
two reads (2 bytes, then 1 byte) and makes the first read; then the UI pauses. -/
def schedInFlight : List Beat :=
  [Beat.step 0 [], Beat.step 0 [], Beat.step 0 [], Beat.step 0 [2, 1], Beat.step 0 [],
   Beat.pause]

/-- A schedule in a paused batch: worker 0 receives a job and waits in the
pause loop, worker 1 receives nothing and returns, the UI cancels. -/
def schedWaiting : List Beat :=
  [Beat.step 0 [], Beat.step 0 [], Beat.step 0 [7], Beat.step 0 [7], Beat.step 0 [7],
   Beat.step 1 [7], Beat.cancel, Beat.step 0 [7]]

/-- A batch of two files of which one is an archive. -/
def filesMixed : List fileInfo :=
  [⟨"u/a.zip", "a.zip", "downloads/a.zip", 0, true⟩,
   ⟨"u/b.txt", "b.txt", "downloads/b.txt", 0, true⟩]

/-- The model during the batch `filesMixed` with auto-extract on, once both
files are transferred and the only archive is extracted. -/
def mMixed : Model :=
  { mBrowsing with
    autoExtract := true, downloading := true, startTime := 100,
    downloadStats := some { total := 2, completed := 2, extracted := 1, extracting := true } }

/-- The browser showing an error after a directory failed to load. -/
def mError : Model :=
  { mBrowsing with cursor := 0, currentPath := "x/", pathStack := [""],
                   lastError := "failed to load directory" }

/-- A listing of one file and one directory. -/
def entriesTwo : List fileEntry := [⟨"alpha.bin", "alpha.bin"⟩, ⟨"beta/", "beta/"⟩]

/-- The messages of a session: the listing `entriesTwo` arrives, the user opens
the filter with `/`, types `z` (no entry matches) and leaves the filter with
`enter`. -/
def msgsNoMatch : List (Int × Msg) :=
  [(0, Msg.dirLoadedMsg entriesTwo), (1, Msg.KeyMsg "/"), (2, Msg.KeyMsg "z"),
   (3, Msg.KeyMsg "enter")]

/-- The browser after `msgsNoMatch`: the filter `z` shows no entry. -/
def mNoMatch : Model :=
  { InitialModel with entries := entriesTwo, filtered := [], filterInput := "z" }

/-- The messages of a session in a terminal of seven rows: the window size
arrives, then the listing `entriesTwo`, then the user presses `pgdown`. -/
def msgsSmallWindow : List (Int × Msg) :=
  [(0, Msg.WindowSizeMsg 80 7), (1, Msg.dirLoadedMsg entriesTwo), (2, Msg.KeyMsg "pgdown")]

/-- A world in which everything works: the server of `envRange` behind the
probe of `probeCloseErr`, names that decode to themselves, an empty disk. -/
def worldPlain : World :=
  { penv := probeCloseErr, unescape := fun s => some s, mkdirErr := false, fs := fsEmpty,
    zenv := zipEnvPlain, cancelAt := [] }

/-- Counters that a batch of three files has already run on: `total = 3`,
`completed = 3`. -/
def statsStale : downloadStats := { total := 3, completed := 3 }

/-- The browser after a batch of three files ended: the model still holds the
counters of that batch, which stand at `completed = 3`. -/
def mStale : Model := { mBrowsing with downloadStats := some statsStale }

/-! # Theorems -/

/-! ## Helper lemmas -/

theorem part_ne (p : String) : p ++ ".part" ≠ p := by
  intro h
  have h1 := congrArg String.length h
  rw [String.length_append] at h1
  have h2 : ".part".length = 5 := by decide
  omega

theorem ioCopy_none_written (e : Bool) (chunks : List Bytes) :
    ∀ (w : Bytes) (r : Nat), (ioCopy none e chunks w r).written = w ++ chunks.flatten := by
  induction chunks with
  | nil => intro w r; simp [ioCopy]
  | cons c cs ih =>
    intro w r
    by_cases hc : c.length = 0
    · have hnil : c = [] := List.length_eq_zero.mp hc
      subst hnil
      simp [ioCopy, ih]
    · simp [ioCopy, hc, ih]

theorem ioCopy_none_err (e : Bool) (chunks : List Bytes) :
    ∀ (w : Bytes) (r : Nat), (ioCopy none e chunks w r).err = e := by
  induction chunks with
  | nil => intro w r; simp [ioCopy]
  | cons c cs ih =>
    intro w r
    by_cases hc : c.length = 0
    · simp [ioCopy, hc, ih]
    · simp [ioCopy, hc, ih]

/-! ## The transfer of one file -/

/-- Claim C1, as the code behaves: for a file marked non-resumable with a
`.part` of `k > 0` bytes, when the server answers the un-ranged GET with
status 200 and a full body of `n` bytes and nothing fails or cancels, the
code opens the `.part` with `O_APPEND`: the final artifact is the old partial
followed by the body, `k + n` bytes, where the claim requires the `n` body
bytes alone. -/
theorem downloadFileWithResume_nonresumable_appends
    (env : Env) (fs : FS) (file : fileInfo) (stats : downloadStats)
    (old : Bytes) (chunks : List Bytes)
    (hpart : fs (file.path ++ ".part") = some old) (hk : 0 < old.length)
    (hres : file.resumable = false)
    (hskip : alreadyComplete fs file = false)
    (hurl : env.badURL file.url = false)
    (hdo : env.Do ⟨"GET", file.url, none⟩ = some ⟨200, ⟨chunks, false⟩⟩)
    (hopen : env.openErr = false) (hcap : env.writeCap = none)
    (hren : env.renameErr = false) (hctx : env.cancelled = false) :
    (downloadFileWithResume env fs file stats).requests = [⟨"GET", file.url, none⟩] ∧
    (downloadFileWithResume env fs file stats).fs file.path = some (old ++ chunks.flatten) ∧
    ((downloadFileWithResume env fs file stats).fs file.path).map List.length
      = some (old.length + chunks.flatten.length) := by
  unfold downloadFileWithResume
  simp only [hskip, hurl, hpart, hres, hopen, hcap, hren, hctx]
  simp [hdo, hk, FS.rename, FS.set, FS.openCreate, fileAfterWrites, ioCopy_none_written]

/-- Claim C1 at a concrete input: partial `1 2`, body `7 8 9` with status 200,
file not resumable; the final artifact is `1 2 7 8 9`, five bytes instead of three. -/
theorem downloadFileWithResume_nonresumable_appends_witness :
    (downloadFileWithResume (quietEnv (some ⟨200, ⟨[[7, 8], [9]], false⟩⟩)) fsPartial
        fileNonResumable {}).requests = [⟨"GET", "u", none⟩] ∧
    (downloadFileWithResume (quietEnv (some ⟨200, ⟨[[7, 8], [9]], false⟩⟩)) fsPartial
        fileNonResumable {}).fs "a" = some [1, 2, 7, 8, 9] ∧
    ((downloadFileWithResume (quietEnv (some ⟨200, ⟨[[7, 8], [9]], false⟩⟩)) fsPartial
        fileNonResumable {}).fs "a").map List.length = some 5 :=
  downloadFileWithResume_nonresumable_appends
    (quietEnv (some ⟨200, ⟨[[7, 8], [9]], false⟩⟩)) fsPartial fileNonResumable {}
    [1, 2] [[7, 8], [9]] (by decide) (by decide) rfl (by decide) rfl rfl rfl rfl rfl rfl

/-- Claim C3, as the code behaves: the status code and the error of `io.Copy`
are never consulted before the rename.  Whenever a response arrives, the
`.part` opens, the context is not cancelled and `os.Rename` works, the `.part`
is renamed to the final destination: the final artifact exists afterwards and
the `.part` is gone, also when the transfer failed (status outside `2xx`, or
the copy stopped with an error). -/
theorem downloadFileWithResume_renames_after_failure
    (env : Env) (fs : FS) (file : fileInfo) (stats : downloadStats) (resp : Response)
    (hskip : alreadyComplete fs file = false)
    (hurl : env.badURL file.url = false)
    (hdo : ∀ req, env.Do req = some resp)
    (hopen : env.openErr = false)
    (hren : env.renameErr = false) (hctx : env.cancelled = false) :
    (downloadFileWithResume env fs file stats).exit = Exit.renamed ∧
    (downloadFileWithResume env fs file stats).fs file.path ≠ none ∧
    (downloadFileWithResume env fs file stats).fs (file.path ++ ".part") = none ∧
    (downloadFileWithResume env fs file stats).transferFailed
      = ((ioCopy env.writeCap resp.Body.err resp.Body.chunks [] 0).err
          || !statusOK resp.StatusCode) := by
  have hne := part_ne file.path
  unfold Outcome.transferFailed downloadFileWithResume
  simp only [hskip, hurl, hdo, hopen, hren, hctx]
  simp [hne, FS.rename, FS.set, FS.openCreate]

/-- Claim C3 at a concrete input: empty disk, the server answers 404 with a
two-byte error page.  The transfer failed, yet `a` exists with the error page
as contents and `a.part` is gone. -/
theorem downloadFileWithResume_renames_after_failure_witness :
    (downloadFileWithResume (quietEnv (some ⟨404, ⟨[[78, 70]], false⟩⟩)) fsEmpty
        fileNonResumable {}).transferFailed = true ∧
    (downloadFileWithResume (quietEnv (some ⟨404, ⟨[[78, 70]], false⟩⟩)) fsEmpty
        fileNonResumable {}).fs "a" = some [78, 70] ∧
    (downloadFileWithResume (quietEnv (some ⟨404, ⟨[[78, 70]], false⟩⟩)) fsEmpty
        fileNonResumable {}).fs "a.part" = none :=
  ⟨(downloadFileWithResume_renames_after_failure
      (quietEnv (some ⟨404, ⟨[[78, 70]], false⟩⟩)) fsEmpty fileNonResumable {}
      ⟨404, ⟨[[78, 70]], false⟩⟩ (by decide) rfl (fun _ => rfl) rfl rfl rfl).2.2.2.trans
      (by decide),
    by decide, by decide⟩

theorem getLast?_cons_cons_concat {α : Type} (a b x : α) (l : List α) :
    (a :: b :: (l ++ [x])).getLast? = some x := by
  have h : a :: b :: (l ++ [x]) = (a :: b :: l) ++ [x] := by simp
  rw [h, List.getLast?_concat]

/-- The trace of a call starts with the initial file system and ends with the
file system the call leaves behind. -/
theorem trace_ends (env : Env) (fs : FS) (file : fileInfo) (stats : downloadStats) :
    (downloadFileWithResume env fs file stats).trace.head? = some fs ∧
    (downloadFileWithResume env fs file stats).trace.getLast?
      = some (downloadFileWithResume env fs file stats).fs := by
  unfold downloadFileWithResume
  dsimp only
  repeat' split
  all_goals first
    | exact ⟨rfl, rfl⟩
    | exact ⟨rfl, getLast?_cons_cons_concat _ _ _ _⟩

/-- Every state of the trace of a call that starts without a final artifact
has no final artifact, except the last one after a rename, which has no `.part`. -/
theorem trace_never_both (env : Env) (fs : FS) (file : fileInfo) (stats : downloadStats)
    (hfinal : fs file.path = none) :
    ∀ s ∈ (downloadFileWithResume env fs file stats).trace,
      s file.path = none ∨ s (file.path ++ ".part") = none := by
  have hne := part_ne file.path
  have hne2 : file.path ≠ file.path ++ ".part" := fun h => hne h.symm
  intro s hs
  unfold downloadFileWithResume at hs
  have hskip : alreadyComplete fs file = false := by simp [alreadyComplete, hfinal]
  simp only [hskip] at hs
  split at hs
  · rename_i hc; exact absurd hc (by decide)
  · split at hs
    · simp at hs; subst hs; exact Or.inl hfinal
    · split at hs
      · simp at hs; subst hs; exact Or.inl hfinal
      · split at hs
        · simp at hs; subst hs; exact Or.inl hfinal
        · split at hs
          · simp at hs
            rcases hs with hs | hs | ⟨w, _, hs⟩ | hs
            · subst hs; exact Or.inl hfinal
            · subst hs; left; simp [FS.openCreate, FS.set, hne2, hfinal]
            · subst hs; left; simp [FS.openCreate, FS.set, hne2, hfinal]
            · subst hs; left; simp [FS.openCreate, FS.set, hne2, hfinal]
          · simp at hs
            rcases hs with hs | hs | ⟨w, _, hs⟩ | hs
            · subst hs; exact Or.inl hfinal
            · subst hs; left; simp [FS.openCreate, FS.set, hne2, hfinal]
            · subst hs; left; simp [FS.openCreate, FS.set, hne2, hfinal]
            · subst hs
              by_cases hren : env.renameErr = true
              · left; simp [hren, FS.openCreate, FS.set, hne2, hfinal]
              · right; simp [hren, FS.rename, FS.openCreate, FS.set, hne]

/-- Claim C5 fails as stated: the disk holds only the final artifact `a`
(three bytes, expected size unknown), so the final artifact and its `.part` do
not both exist; the re-download creates `a.part` next to `a`, and a state of
the call has both. -/
theorem disk_state_counterexample :
    ¬ (fsFinal "a" ≠ none ∧ fsFinal "a.part" ≠ none) ∧
    ∃ s ∈ (downloadFileWithResume (quietEnv (some ⟨200, ⟨[[7, 8], [9]], false⟩⟩)) fsFinal
        fileNonResumable {}).trace, s "a" ≠ none ∧ s "a.part" ≠ none := by
  refine ⟨by decide, fsFinal.openCreate "a.part", ?_, by decide, by decide⟩
  simp [downloadFileWithResume, alreadyComplete, fsFinal, fileNonResumable, quietEnv]

/-- Claim C5, amended: for every destination path and every initial state in
which the final artifact is absent, or is present with the known expected size
while no `.part` exists, at every point during and after the call (cancelled,
failed or not) the final artifact and the `.part` never exist together. -/
theorem downloadFileWithResume_never_both
    (env : Env) (fs : FS) (file : fileInfo) (stats : downloadStats)
    (h : fs file.path = none ∨
      (alreadyComplete fs file = true ∧ fs (file.path ++ ".part") = none)) :
    ∀ s ∈ (downloadFileWithResume env fs file stats).trace,
      ¬ (s file.path ≠ none ∧ s (file.path ++ ".part") ≠ none) := by
  intro s hs hboth
  rcases h with h | ⟨hskip, hpart⟩
  · rcases trace_never_both env fs file stats h s hs with h1 | h1
    · exact hboth.1 h1
    · exact hboth.2 h1
  · unfold downloadFileWithResume at hs
    simp [hskip] at hs
    subst hs
    exact hboth.2 hpart

/-- Claim C5, amended, at concrete inputs: a fresh download cancelled in
mid-stream, and a file already complete. -/
theorem downloadFileWithResume_never_both_witness :
    (∀ s ∈ (downloadFileWithResume
        { quietEnv (some ⟨200, ⟨[[7, 8]], true⟩⟩) with cancelled := true } fsEmpty
        fileSized {}).trace, ¬ (s "a" ≠ none ∧ s "a.part" ≠ none)) ∧
    (∀ s ∈ (downloadFileWithResume (quietEnv none) fsFinal fileSized {}).trace,
        ¬ (s "a" ≠ none ∧ s "a.part" ≠ none)) :=
  ⟨downloadFileWithResume_never_both
      { quietEnv (some ⟨200, ⟨[[7, 8]], true⟩⟩) with cancelled := true } fsEmpty fileSized {}
      (Or.inl rfl),
    downloadFileWithResume_never_both (quietEnv none) fsFinal fileSized {}
      (Or.inr ⟨by decide, by decide⟩)⟩

/-- Claim C7: when the expected size is known (`size > 0`) and the final
artifact exists with exactly that size, the call returns 0, issues no HTTP
request, changes no file at any point, and leaves `bytesDownload` (and every
other counter) unchanged. -/
theorem downloadFileWithResume_skips_complete
    (env : Env) (fs : FS) (file : fileInfo) (stats : downloadStats) (b : Bytes)
    (hsize : file.size > 0) (hfinal : fs file.path = some b)
    (hlen : (b.length : Int) = file.size) :
    (downloadFileWithResume env fs file stats).n = 0 ∧
    (downloadFileWithResume env fs file stats).requests = [] ∧
    (downloadFileWithResume env fs file stats).fs = fs ∧
    (downloadFileWithResume env fs file stats).trace = [fs] ∧
    (downloadFileWithResume env fs file stats).stats.bytesDownload = stats.bytesDownload ∧
    (downloadFileWithResume env fs file stats).stats = stats := by
  have hskip : alreadyComplete fs file = true := by
    simp [alreadyComplete, hfinal, hsize, hlen]
  unfold downloadFileWithResume
  simp [hskip]

/-- Claim C7 at a concrete input: `a` holds three bytes and three are expected. -/
theorem downloadFileWithResume_skips_complete_witness :
    (downloadFileWithResume envRange fsFinal fileSized {}).n = 0 ∧
    (downloadFileWithResume envRange fsFinal fileSized {}).requests = [] ∧
    (downloadFileWithResume envRange fsFinal fileSized {}).fs = fsFinal ∧
    (downloadFileWithResume envRange fsFinal fileSized {}).trace = [fsFinal] ∧
    (downloadFileWithResume envRange fsFinal fileSized {}).stats.bytesDownload = 0 ∧
    (downloadFileWithResume envRange fsFinal fileSized {}).stats = {} :=
  downloadFileWithResume_skips_complete envRange fsFinal fileSized {} [4, 5, 6]
    (by decide) rfl (by decide)

/-! ## The worker pool -/

theorem holdingCount_set (ws : List Worker) (w : Nat) (old new : Worker)
    (h : ws.get? w = some old) :
    holdingCount (ws.set w new) + (if old.holding then 1 else 0)
      = holdingCount ws + (if new.holding then 1 else 0) := by
  induction ws generalizing w with
  | nil => simp at h
  | cons x xs ih =>
    cases w with
    | zero =>
      simp at h
      subst h
      simp only [holdingCount, List.set_cons_zero, List.countP_cons]
      omega
    | succ w =>
      simp at h
      have := ih w (by simpa using h)
      simp only [holdingCount, List.set_cons_succ, List.countP_cons] at this ⊢
      omega

theorem downloadFileWithResume_completed (env : Env) (fs : FS) (file : fileInfo)
    (stats : downloadStats) :
    (downloadFileWithResume env fs file stats).stats.completed = stats.completed := by
  unfold downloadFileWithResume
  dsimp only
  repeat' split
  all_goals rfl

theorem PoolInv_init (files : List fileInfo) (fs : FS) (stats : downloadStats) (c : Bool) :
    PoolInv stats.completed files.length (Pool.init files fs stats c) := by
  refine ⟨by simp [Pool.init], ?_, by simp [Pool.init], ?_⟩
  · simp [Pool.init, holdingCount, List.countP_replicate, Worker.holding]
  · intro _
    refine ⟨rfl, ?_⟩
    intro h
    simp [Pool.init, List.mem_replicate] at h

theorem PoolInv_stepWorker (c0 : Int) (n : Nat) (ae : Bool) (p : Pool) (w : Nat) (env : Env)
    (h : PoolInv c0 n p) : PoolInv c0 n (p.stepWorker ae w env) := by
  obtain ⟨hc, hn, hl, hlive⟩ := h
  unfold Pool.stepWorker
  cases hw : p.workers.get? w with
  | none => exact ⟨hc, hn, hl, hlive⟩
  | some st =>
    cases st with
    | exited => exact ⟨hc, hn, hl, hlive⟩
    | idle =>
      cases hj : p.jobs with
      | nil =>
        have hs := holdingCount_set p.workers w _ Worker.exited hw
        simp only [Worker.holding] at hs
        refine ⟨hc, ?_, by simpa using hl, ?_⟩
        · simp only [hj] at hn ⊢; simp at hs; omega
        · intro hcan
          exact ⟨(hlive hcan).1, fun _ => rfl⟩
      | cons job rest =>
        have hs := holdingCount_set p.workers w _ (Worker.dequeued job) hw
        simp only [Worker.holding] at hs
        refine ⟨hc, ?_, by simpa using hl, ?_⟩
        · simp only [hj] at hn ⊢; simp at hs hn ⊢; omega
        · intro hcan
          refine ⟨(hlive hcan).1, ?_⟩
          intro hmem
          rcases List.mem_or_eq_of_mem_set hmem with h1 | h1
          · have := (hlive hcan).2 h1
            rw [hj] at this
            cases this
          · cases h1
    | dequeued job =>
      by_cases hcan : p.cancelled = true
      · have hs := holdingCount_set p.workers w _ Worker.exited hw
        simp only [Worker.holding] at hs
        dsimp only
        rw [if_pos hcan]
        refine ⟨hc, ?_, by simpa using hl, ?_⟩
        · simp at hs ⊢; omega
        · intro hcf; simp [hcan] at hcf
      · have hs := holdingCount_set p.workers w _ (Worker.pauseCheck job) hw
        simp only [Worker.holding] at hs
        have hcf : p.cancelled = false := by simpa using hcan
        dsimp only
        rw [if_neg hcan]
        refine ⟨hc, ?_, by simpa using hl, ?_⟩
        · simp at hs ⊢; omega
        · intro _
          refine ⟨(hlive hcf).1, ?_⟩
          intro hmem
          rcases List.mem_or_eq_of_mem_set hmem with h1 | h1
          · exact (hlive hcf).2 h1
          · cases h1
    | slept job =>
      by_cases hcan : p.cancelled = true
      · have hs := holdingCount_set p.workers w _ Worker.exited hw
        simp only [Worker.holding] at hs
        dsimp only
        rw [if_pos hcan]
        refine ⟨hc, ?_, by simpa using hl, ?_⟩
        · simp at hs ⊢; omega
        · intro hcf; simp [hcan] at hcf
      · have hs := holdingCount_set p.workers w _ (Worker.pauseCheck job) hw
        simp only [Worker.holding] at hs
        have hcf : p.cancelled = false := by simpa using hcan
        dsimp only
        rw [if_neg hcan]
        refine ⟨hc, ?_, by simpa using hl, ?_⟩
        · simp at hs ⊢; omega
        · intro _
          refine ⟨(hlive hcf).1, ?_⟩
          intro hmem
          rcases List.mem_or_eq_of_mem_set hmem with h1 | h1
          · exact (hlive hcf).2 h1
          · cases h1
    | pauseCheck job =>
      by_cases hp : p.stats.paused = 1
      · have hs := holdingCount_set p.workers w _ (Worker.slept job) hw
        simp only [Worker.holding] at hs
        dsimp only
        rw [if_pos hp]
        refine ⟨hc, ?_, by simpa using hl, ?_⟩
        · simp at hs ⊢; omega
        · intro hcf
          refine ⟨(hlive hcf).1, ?_⟩
          intro hmem
          rcases List.mem_or_eq_of_mem_set hmem with h1 | h1
          · exact (hlive hcf).2 h1
          · cases h1
      · have hs := holdingCount_set p.workers w _ Worker.idle hw
        simp only [Worker.holding] at hs
        dsimp only
        rw [if_neg hp]
        refine ⟨?_, ?_, by simpa using hl, ?_⟩
        · simp only [downloadFileWithResume_completed, hc, List.length_append,
            List.length_singleton, Nat.cast_add, Nat.cast_one]
          omega
        · simp at hs ⊢; omega
        · intro hcf
          simp at hcf
          refine ⟨(hlive hcf.1).1, ?_⟩
          intro hmem
          rcases List.mem_or_eq_of_mem_set hmem with h1 | h1
          · exact (hlive hcf.1).2 h1
          · cases h1

theorem PoolInv_step (c0 : Int) (n : Nat) (ae : Bool) (p : Pool) (ev : Event)
    (h : PoolInv c0 n p) : PoolInv c0 n (p.step ae ev) := by
  cases ev with
  | step w env => exact PoolInv_stepWorker c0 n ae p w env h
  | cancel =>
    obtain ⟨hc, hn, hl, _⟩ := h
    exact ⟨hc, hn, hl, fun hcf => by simp [Pool.step] at hcf⟩
  | pause =>
    obtain ⟨hc, hn, hl, hlive⟩ := h
    exact ⟨hc, hn, hl, hlive⟩
  | resume =>
    obtain ⟨hc, hn, hl, hlive⟩ := h
    exact ⟨hc, hn, hl, hlive⟩

theorem PoolInv_run (c0 : Int) (n : Nat) (ae : Bool) (sched : List Event) :
    ∀ p : Pool, PoolInv c0 n p → PoolInv c0 n (p.run ae sched) := by
  induction sched with
  | nil => intro p h; exact h
  | cons ev rest ih =>
    intro p h
    exact ih (p.step ae ev) (PoolInv_step c0 n ae p ev h)

theorem holdingCount_drained (ws : List Worker)
    (h : ws.all (fun w => w == Worker.exited) = true) : holdingCount ws = 0 := by
  induction ws with
  | nil => rfl
  | cons x xs ih =>
    simp only [List.all_cons, Bool.and_eq_true, beq_iff_eq] at h
    obtain ⟨hx, hxs⟩ := h
    subst hx
    simp only [holdingCount, List.countP_cons, Worker.holding]
    have := ih hxs
    simp only [holdingCount] at this
    simp [this]

theorem exited_mem_of_drained (ws : List Worker) (hlen : ws.length = numWorkers)
    (h : ws.all (fun w => w == Worker.exited) = true) : Worker.exited ∈ ws := by
  cases ws with
  | nil => simp [numWorkers] at hlen
  | cons x xs =>
    simp only [List.all_cons, Bool.and_eq_true, beq_iff_eq] at h
    rw [h.1]
    exact List.mem_cons_self _ _

/-- The pool that `startDownloadWithFiles` hands on is a drained state of the run. -/
theorem startDownloadWithFiles_pool (files : List fileInfo) (stats : downloadStats)
    (cancelled ae ef dz : Bool) (fs : FS) (sched : List Event) (zenv : ZipEnv)
    (cancelAt : List Bool) (r : BatchResult)
    (h : startDownloadWithFiles files stats cancelled ae ef dz fs sched zenv cancelAt = some r) :
    r.pool = (Pool.init files fs stats cancelled).run ae sched ∧ r.pool.drained = true := by
  unfold startDownloadWithFiles at h
  dsimp only at h
  split at h
  · rename_i hd
    split at h
    · cases h; exact ⟨rfl, hd⟩
    · cases h; exact ⟨rfl, hd⟩
  · cases h

theorem downloadFileWithResume_paused (env : Env) (fs : FS) (file : fileInfo)
    (stats : downloadStats) :
    (downloadFileWithResume env fs file stats).stats.paused = stats.paused := by
  unfold downloadFileWithResume
  dsimp only
  repeat' split
  all_goals rfl

theorem Pool.run_append (ae : Bool) (p : Pool) (s1 s2 : List Event) :
    p.run ae (s1 ++ s2) = (p.run ae s1).run ae s2 := by
  simp [Pool.run, List.foldl_append]

theorem Pool.quiet_job (ae : Bool) (env : Env) (henv : env.cancelled = false) (p : Pool)
    (job : fileInfo) (rest : List fileInfo) (hq : p.quiet) (hj : p.jobs = job :: rest) :
    (p.run ae [Event.step 0 env, Event.step 0 env, Event.step 0 env]).quiet ∧
    (p.run ae [Event.step 0 env, Event.step 0 env, Event.step 0 env]).jobs = rest := by
  obtain ⟨hw, hc, hp⟩ := hq
  simp only [Pool.run, List.foldl_cons, List.foldl_nil, Pool.step]
  have h1 : p.stepWorker ae 0 env
      = { p with jobs := rest, workers := p.workers.set 0 (Worker.dequeued job) } := by
    simp [Pool.stepWorker, hw, hj, numWorkers, List.replicate]
  rw [h1]
  have h2 : ({ p with jobs := rest, workers := p.workers.set 0 (Worker.dequeued job) } : Pool).stepWorker ae 0 env
      = { p with jobs := rest, workers := p.workers.set 0 (Worker.pauseCheck job) } := by
    simp [Pool.stepWorker, hw, hc, numWorkers, List.replicate]
  rw [h2]
  simp [Pool.stepWorker, Pool.quiet, hw, hc, hp, henv, numWorkers, List.replicate,
    downloadFileWithResume_paused]

theorem Pool.quiet_all (ae : Bool) (env : Env) (henv : env.cancelled = false) :
    ∀ (jobs : List fileInfo) (p : Pool), p.quiet → p.jobs = jobs →
      (p.run ae (List.replicate jobs.length
          [Event.step 0 env, Event.step 0 env, Event.step 0 env]).flatten).quiet ∧
      (p.run ae (List.replicate jobs.length
          [Event.step 0 env, Event.step 0 env, Event.step 0 env]).flatten).jobs = [] := by
  intro jobs
  induction jobs with
  | nil => intro p hq hj; exact ⟨by simpa [Pool.run] using hq, by simpa [Pool.run] using hj⟩
  | cons job rest ih =>
    intro p hq hj
    have h := Pool.quiet_job ae env henv p job rest hq hj
    have h2 := ih _ h.1 h.2
    simp only [List.length_cons, List.replicate_succ, List.flatten_cons, Pool.run_append]
    exact h2

theorem Pool.quiet_drains (ae : Bool) (env : Env) (p : Pool) (hq : p.quiet) (hj : p.jobs = []) :
    (p.run ae ((List.range numWorkers).map (fun w => Event.step w env))).drained = true ∧
    (p.run ae ((List.range numWorkers).map (fun w => Event.step w env))).cancelled = false := by
  obtain ⟨hw, hc, _⟩ := hq
  simp [Pool.run, Pool.step, Pool.stepWorker, Pool.drained, hw, hj, hc, numWorkers,
    List.range, List.range.loop, List.replicate]

/-- A batch that nobody pauses or cancels can always run to completion: the
schedule `schedAll` drains the pool, and every file is then counted. -/
theorem pool_drains (files : List fileInfo) (fs : FS) (stats : downloadStats) (ae : Bool)
    (env : Env) (henv : env.cancelled = false) (hp : stats.paused ≠ 1) :
    ((Pool.init files fs stats false).run ae (schedAll env files.length)).drained = true ∧
    ((Pool.init files fs stats false).run ae (schedAll env files.length)).stats.completed
      = stats.completed + (files.length : Int) := by
  have hq : (Pool.init files fs stats false).quiet := ⟨rfl, rfl, hp⟩
  have h1 := Pool.quiet_all ae env henv files _ hq rfl
  have h2 := Pool.quiet_drains ae env _ h1.1 h1.2
  have hinv := PoolInv_run stats.completed files.length ae (schedAll env files.length) _
    (PoolInv_init files fs stats false)
  unfold schedAll at hinv ⊢
  rw [Pool.run_append] at hinv ⊢
  refine ⟨h2.1, ?_⟩
  generalize ((Pool.init files fs stats false).run ae (List.replicate files.length
    [Event.step 0 env, Event.step 0 env, Event.step 0 env]).flatten).run ae
    ((List.range numWorkers).map (fun w => Event.step w env)) = p at hinv h2
  obtain ⟨hc, hn, hl, hlive⟩ := hinv
  have hz := holdingCount_drained p.workers h2.1
  have hmem := exited_mem_of_drained p.workers hl h2.1
  obtain ⟨ha, hj⟩ := hlive h2.2
  have hj := hj hmem
  rw [ha, hj] at hn
  simp at hn
  omega

/-- Claim C4 fails as stated: a batch of one file whose request meets a
transport error.  The pool drains with `completed = 1`, the number of files,
although the only file was neither skipped nor transferred without error. -/
theorem pool_counts_failed_transfer :
    ((Pool.init [fileNonResumable] fsEmpty {} false).run false
        (schedOne (quietEnv none))).drained = true ∧
    ((Pool.init [fileNonResumable] fsEmpty {} false).run false
        (schedOne (quietEnv none))).stats.completed = ([fileNonResumable].length : Int) ∧
    ((Pool.init [fileNonResumable] fsEmpty {} false).run false
        (schedOne (quietEnv none))).outcomes.map (fun o => (o.2.exit, o.2.transferFailed))
      = [(Exit.transportError, true)] := by
  decide

/-- Claim C4, amended: in every state of a batch run by the worker pool, the
counter `completed` is its value when the pool started plus the number of
calls of `downloadFileWithResume` the pool has made so far, whatever their
outcome, and is at most that value plus the number of files.  When the pool
has drained, `completed` plus the jobs dropped at a cancellation check plus
the jobs left in the queue is the start value plus the number of files; so
the counter has grown by the number of files exactly when no job was lost to
cancellation, and always when the context was never cancelled, transfer
errors or not. -/
theorem pool_completed_accounting
    (files : List fileInfo) (fs : FS) (stats : downloadStats) (cancelled ae : Bool)
    (sched : List Event) :
    ((Pool.init files fs stats cancelled).run ae sched).stats.completed
      = stats.completed
        + (((Pool.init files fs stats cancelled).run ae sched).outcomes.length : Int) ∧
    ((Pool.init files fs stats cancelled).run ae sched).stats.completed
      ≤ stats.completed + (files.length : Int) ∧
    (((Pool.init files fs stats cancelled).run ae sched).drained = true →
      ((Pool.init files fs stats cancelled).run ae sched).stats.completed
        + ((Pool.init files fs stats cancelled).run ae sched).abandoned.length
        + ((Pool.init files fs stats cancelled).run ae sched).jobs.length
        = stats.completed + (files.length : Int)) ∧
    (((Pool.init files fs stats cancelled).run ae sched).drained = true →
      ((Pool.init files fs stats cancelled).run ae sched).cancelled = false →
      ((Pool.init files fs stats cancelled).run ae sched).stats.completed
        = stats.completed + (files.length : Int)) := by
  have hinv := PoolInv_run stats.completed files.length ae sched _
    (PoolInv_init files fs stats cancelled)
  generalize (Pool.init files fs stats cancelled).run ae sched = p at hinv
  obtain ⟨hc, hn, hl, hlive⟩ := hinv
  refine ⟨hc, by omega, ?_, ?_⟩
  · intro hd
    have hz := holdingCount_drained p.workers hd
    omega
  · intro hd hcf
    have hz := holdingCount_drained p.workers hd
    have hmem := exited_mem_of_drained p.workers hl hd
    obtain ⟨ha, hj⟩ := hlive hcf
    have hj := hj hmem
    rw [ha, hj] at hn
    simp at hn
    omega

/-- Claim C4, amended, at a concrete batch: one file, never cancelled, the
request fails, and the pool starts on counters that already stand at
`completed = 3`; the pool drains and `completed` is 4. -/
theorem pool_completed_accounting_witness :
    ((Pool.init [fileNonResumable] fsEmpty statsStale false).run false
        (schedOne (quietEnv none))).drained = true ∧
    ((Pool.init [fileNonResumable] fsEmpty statsStale false).run false
        (schedOne (quietEnv none))).cancelled = false ∧
    ((Pool.init [fileNonResumable] fsEmpty statsStale false).run false
        (schedOne (quietEnv none))).outcomes.length = 1 ∧
    ((Pool.init [fileNonResumable] fsEmpty statsStale false).run false
        (schedOne (quietEnv none))).stats.completed = 4 :=
  have h := pool_completed_accounting [fileNonResumable] fsEmpty statsStale false false
    (schedOne (quietEnv none))
  have hd : ((Pool.init [fileNonResumable] fsEmpty statsStale false).run false
      (schedOne (quietEnv none))).drained = true := by decide
  have hc : ((Pool.init [fileNonResumable] fsEmpty statsStale false).run false
      (schedOne (quietEnv none))).cancelled = false := by decide
  ⟨hd, hc, by decide, h.2.2.2 hd hc⟩

/-! ## Path cleaning and the traversal guard -/

theorem splitSlash_ne_nil (p : List Char) : splitSlash p ≠ [] := by
  induction p with
  | nil => simp [splitSlash]
  | cons c cs ih =>
    unfold splitSlash
    split
    · simp
    · split <;> simp

theorem splitSlash_noslash (p : List Char) : ∀ c ∈ splitSlash p, '/' ∉ c := by
  induction p with
  | nil => simp [splitSlash]
  | cons a as ih =>
    unfold splitSlash
    split
    · rename_i h; exact absurd h (splitSlash_ne_nil as)
    · rename_i x xs h
      rw [h] at ih
      split
      · rename_i ha
        intro c hc
        simp only [List.mem_cons] at hc
        rcases hc with hc | hc | hc
        · subst hc; simp
        · subst hc; exact ih _ (List.mem_cons_self _ _)
        · exact ih _ (List.mem_cons_of_mem _ hc)
      · rename_i ha
        intro c hc
        simp only [List.mem_cons] at hc
        rcases hc with hc | hc
        · subst hc
          have := ih x (List.mem_cons_self _ _)
          simp only [List.mem_cons, not_or]
          exact ⟨fun h => ha h.symm, this⟩
        · exact ih _ (List.mem_cons_of_mem _ hc)

theorem cleanStep_stack (rooted : Bool) (stack : List (List Char)) (comp : List Char)
    (hs : CleanStack rooted stack) (hc : '/' ∉ comp) :
    CleanStack rooted (cleanStep rooted stack comp) := by
  obtain ⟨k, ns, hst, hns, hr⟩ := hs
  unfold cleanStep
  split
  · exact ⟨k, ns, hst, hns, hr⟩
  · rename_i h1
    simp only [not_or] at h1
    split
    · rename_i h2
      subst h2
      cases ns with
      | nil =>
        cases k with
        | zero =>
          simp only [List.nil_append, List.replicate_zero] at hst
          subst hst
          cases rooted with
          | true => exact ⟨0, [], by simp, by simp, by simp⟩
          | false => exact ⟨1, [], by simp, by simp, by simp⟩
        | succ k =>
          simp only [List.nil_append, List.replicate_succ] at hst
          subst hst
          refine ⟨k + 2, [], by simp [List.replicate_succ], by simp, ?_⟩
          intro h; have := hr h; omega
      | cons n ns' =>
        simp only [List.cons_append] at hst
        subst hst
        have hn := (hns n (List.mem_cons_self _ _)).2
        simp only [hn, if_false]
        exact ⟨k, ns', rfl, fun c hc => hns c (List.mem_cons_of_mem _ hc), hr⟩
    · rename_i h2
      subst hst
      refine ⟨k, comp :: ns, by simp, ?_, hr⟩
      intro c hcm
      simp only [List.mem_cons] at hcm
      rcases hcm with hcm | hcm
      · subst hcm; exact ⟨⟨h1.1, h1.2, hc⟩, h2⟩
      · exact hns c hcm

theorem foldl_cleanStep_stack (rooted : Bool) (comps : List (List Char)) :
    ∀ stack, CleanStack rooted stack → (∀ c ∈ comps, '/' ∉ c) →
      CleanStack rooted (comps.foldl (cleanStep rooted) stack) := by
  induction comps with
  | nil => intro stack hs _; exact hs
  | cons c cs ih =>
    intro stack hs hc
    exact ih _ (cleanStep_stack rooted stack c hs (hc c (List.mem_cons_self _ _)))
      (fun x hx => hc x (List.mem_cons_of_mem _ hx))

/-- The cleaned elements are some `..` followed by ordinary elements. -/
theorem cleanComps_shape (p : List Char) :
    ∃ (k : Nat) (ms : List (List Char)),
      cleanComps p = List.replicate k ['.', '.'] ++ ms ∧
      (∀ c ∈ ms, validComp c ∧ c ≠ ['.', '.']) ∧ (p.head? = some '/' → k = 0) := by
  have h := foldl_cleanStep_stack (decide (p.head? = some '/')) (splitSlash p) []
    ⟨0, [], by simp, by simp, by simp⟩ (splitSlash_noslash p)
  obtain ⟨k, ns, hst, hns, hr⟩ := h
  refine ⟨k, ns.reverse, ?_, ?_, ?_⟩
  · unfold cleanComps
    rw [hst]
    simp
  · intro c hc; exact hns c (List.mem_reverse.mp hc)
  · intro hp; exact hr (by simp [hp])

theorem splitSlash_cons_slash (cs : List Char) :
    splitSlash ('/' :: cs) = [] :: splitSlash cs := by
  rw [splitSlash]
  cases hs : splitSlash cs with
  | nil => exact absurd hs (splitSlash_ne_nil cs)
  | cons x xs => simp

theorem splitSlash_cons_other (a : Char) (cs x : List Char) (xs : List (List Char))
    (ha : a ≠ '/') (hs : splitSlash cs = x :: xs) :
    splitSlash (a :: cs) = (a :: x) :: xs := by
  rw [splitSlash, hs]
  simp [ha]

theorem splitSlash_noslash_self (c : List Char) (h : '/' ∉ c) : splitSlash c = [c] := by
  induction c with
  | nil => rfl
  | cons a as ih =>
    simp only [List.mem_cons, not_or] at h
    exact splitSlash_cons_other a as as [] (fun e => h.1 e.symm) (ih h.2)

theorem splitSlash_append_slash (c s : List Char) (h : '/' ∉ c) :
    splitSlash (c ++ '/' :: s) = c :: splitSlash s := by
  induction c with
  | nil => exact splitSlash_cons_slash s
  | cons a as ih =>
    simp only [List.mem_cons, not_or] at h
    exact splitSlash_cons_other a _ as _ (fun e => h.1 e.symm) (ih h.2)

theorem splitSlash_joinSlash (q : List (List Char)) (hq : q ≠ [])
    (hns : ∀ c ∈ q, '/' ∉ c) : splitSlash (joinSlash q) = q := by
  induction q with
  | nil => exact absurd rfl hq
  | cons c rest ih =>
    cases rest with
    | nil => exact splitSlash_noslash_self c (hns c (List.mem_cons_self _ _))
    | cons c2 rest2 =>
      simp only [joinSlash]
      rw [splitSlash_append_slash _ _ (hns c (List.mem_cons_self _ _))]
      rw [ih (by simp) (fun x hx => hns x (List.mem_cons_of_mem _ hx))]

theorem foldl_cleanStep_push (rooted : Bool) (ms : List (List Char))
    (hms : ∀ c ∈ ms, validComp c ∧ c ≠ ['.', '.']) :
    ∀ acc, ms.foldl (cleanStep rooted) acc = ms.reverse ++ acc := by
  induction ms with
  | nil => intro acc; rfl
  | cons c cs ih =>
    intro acc
    have hc := hms c (List.mem_cons_self _ _)
    have h1 : cleanStep rooted acc c = c :: acc := by
      unfold cleanStep
      simp [hc.1.1, hc.1.2.1, hc.2]
    simp only [List.foldl_cons, h1]
    rw [ih (fun x hx => hms x (List.mem_cons_of_mem _ hx))]
    simp

theorem foldl_cleanStep_dots (k : Nat) :
    ∀ j, (List.replicate k ['.', '.']).foldl (cleanStep false) (List.replicate j ['.', '.'])
      = List.replicate (j + k) ['.', '.'] := by
  induction k with
  | zero => intro j; rfl
  | succ k ih =>
    intro j
    have h1 : cleanStep false (List.replicate j ['.', '.']) ['.', '.']
        = List.replicate (j + 1) ['.', '.'] := by
      unfold cleanStep
      cases j with
      | zero => simp
      | succ j => simp [List.replicate_succ]
    simp only [List.replicate_succ, List.foldl_cons]
    have h2 : cleanStep false (List.replicate j ['.', '.']) ['.', '.']
        = List.replicate (j + 1) ['.', '.'] := h1
    simp only [List.replicate_succ] at h2
    rw [h2]
    have := ih (j + 1)
    simp only [List.replicate_succ] at this
    rw [this]
    congr 1
    omega

theorem joinSlash_eq_nil (q : List (List Char)) (hq : ∀ c ∈ q, c ≠ []) :
    joinSlash q = [] ↔ q = [] := by
  cases q with
  | nil => simp [joinSlash]
  | cons c rest =>
    have hc := hq c (List.mem_cons_self _ _)
    cases rest with
    | nil => simp [joinSlash, hc]
    | cons c2 rest2 => simp [joinSlash]

theorem joinSlash_head (q : List (List Char)) (hq : ∀ c ∈ q, c ≠ [] ∧ '/' ∉ c) :
    (joinSlash q).head? ≠ some '/' := by
  cases q with
  | nil => simp [joinSlash]
  | cons c rest =>
    have hc := hq c (List.mem_cons_self _ _)
    cases c with
    | nil => exact absurd rfl hc.1
    | cons a as =>
      have ha : a ≠ '/' := by
        intro e; apply hc.2; simp [e]
      cases rest with
      | nil => simp [joinSlash, ha]
      | cons c2 rest2 => simp [joinSlash, ha]

theorem cleanComps_valid (p : List Char) : ∀ c ∈ cleanComps p, c ≠ [] ∧ '/' ∉ c := by
  obtain ⟨k, ms, hq, hms, _⟩ := cleanComps_shape p
  intro c hc
  rw [hq] at hc
  simp only [List.mem_append, List.mem_replicate] at hc
  rcases hc with ⟨_, hc⟩ | hc
  · subst hc; exact ⟨by simp, by decide⟩
  · exact ⟨(hms c hc).1.1, (hms c hc).1.2.2⟩

theorem cleanChars_head (p : List Char) :
    (cleanChars p).head? = some '/' ↔ p.head? = some '/' := by
  unfold cleanChars
  dsimp only
  by_cases hr : p.head? = some '/'
  · simp [hr]
  · simp only [hr, if_false, iff_false]
    split
    · simp
    · exact joinSlash_head _ (cleanComps_valid p)

/-- Cleaning is idempotent on the elements. -/
theorem cleanComps_cleanChars (p : List Char) :
    cleanComps (cleanChars p) = cleanComps p := by
  obtain ⟨k, ms, hq, hms, hk⟩ := cleanComps_shape p
  have hvalid := cleanComps_valid p
  have hhead := cleanChars_head p
  have hpush := foldl_cleanStep_push
  by_cases hr : p.head? = some '/'
  · have hk0 := hk hr
    subst hk0
    simp only [List.replicate_zero, List.nil_append] at hq
    have hc : cleanChars p = '/' :: joinSlash ms := by
      unfold cleanChars; simp [hr, hq]
    have hh : (cleanChars p).head? = some '/' := hhead.mpr hr
    conv_lhs => unfold cleanComps
    rw [hh, hc, splitSlash_cons_slash]
    rw [hq]
    by_cases hm : ms = []
    · subst hm
      simp [joinSlash, splitSlash, cleanStep]
    · rw [splitSlash_joinSlash ms hm (fun c hc => (hms c hc).1.2.2)]
      simp only [List.foldl_cons]
      have h0 : ∀ b, cleanStep b [] [] = [] := by intro b; simp [cleanStep]
      rw [h0, hpush _ ms hms]
      simp
  · have hh : ¬ (cleanChars p).head? = some '/' := fun h => hr (hhead.mp h)
    by_cases hqn : cleanComps p = []
    · have hc : cleanChars p = ['.'] := by
        unfold cleanChars; simp [hr, hqn, joinSlash]
      rw [hc, hqn]
      decide
    · have hj : joinSlash (cleanComps p) ≠ [] := by
        intro h
        exact hqn ((joinSlash_eq_nil _ (fun c hc => (hvalid c hc).1)).mp h)
      have hc : cleanChars p = joinSlash (cleanComps p) := by
        unfold cleanChars; simp [hr, hj]
      conv_lhs => unfold cleanComps
      have hd : decide ((cleanChars p).head? = some '/') = false := by simp [hh]
      rw [hd, hc, splitSlash_joinSlash _ hqn (fun c hc => (hvalid c hc).2), hq,
        List.foldl_append]
      have := foldl_cleanStep_dots k 0
      simp only [List.replicate_zero, Nat.zero_add] at this
      rw [this, hpush _ ms hms]
      simp

theorem joinSlash_cons (c : List Char) (rest : List (List Char)) :
    joinSlash (c :: rest) = c ++ (if rest = [] then [] else '/' :: joinSlash rest) := by
  cases rest with
  | nil => simp [joinSlash]
  | cons c2 rest2 => simp [joinSlash]

theorem prefix_comp (c : List Char) :
    ∀ (c2 x t : List Char), '/' ∉ c → '/' ∉ c2 → (t = [] ∨ ∃ y, t = '/' :: y) →
      (c ++ '/' :: x) <+: (c2 ++ t) → c = c2 ∧ ('/' :: x) <+: t := by
  induction c with
  | nil =>
    intro c2 x t _ h2 _ hp
    cases c2 with
    | nil => exact ⟨rfl, by simpa using hp⟩
    | cons a as =>
      simp only [List.nil_append, List.cons_append, List.cons_prefix_cons] at hp
      exact absurd (by rw [← hp.1]; exact List.mem_cons_self _ _) h2
  | cons a as ih =>
    intro c2 x t h1 h2 ht hp
    simp only [List.mem_cons, not_or] at h1
    cases c2 with
    | nil =>
      rcases ht with ht | ⟨y, ht⟩
      · subst ht; simp at hp
      · subst ht
        simp only [List.nil_append, List.cons_append, List.cons_prefix_cons] at hp
        exact absurd hp.1.symm h1.1
    | cons b bs =>
      simp only [List.mem_cons, not_or] at h2
      simp only [List.cons_append, List.cons_prefix_cons] at hp
      obtain ⟨hab, hp⟩ := hp
      obtain ⟨he, hr⟩ := ih bs x t h1.2 h2.2 ht hp
      exact ⟨by rw [hab, he], hr⟩

/-- A joined path followed by a slash is a prefix of another joined path only
when its elements are the first elements of the other. -/
theorem joinSlash_prefix (d : List (List Char)) :
    ∀ q : List (List Char), d ≠ [] → (∀ c ∈ d, '/' ∉ c) → (∀ c ∈ q, '/' ∉ c) →
      (joinSlash d ++ ['/']) <+: joinSlash q → ∃ r, q = d ++ r := by
  induction d with
  | nil => intro q h; exact absurd rfl h
  | cons c ds ih =>
    intro q _ hd hq hp
    cases q with
    | nil =>
      simp only [joinSlash, List.prefix_nil] at hp
      simp at hp
    | cons c2 rest =>
      rw [joinSlash_cons c2 rest] at hp
      have hc := hd c (List.mem_cons_self _ _)
      have hc2 := hq c2 (List.mem_cons_self _ _)
      have ht : (if rest = [] then [] else '/' :: joinSlash rest) = [] ∨
          ∃ y, (if rest = [] then [] else '/' :: joinSlash rest) = '/' :: y := by
        by_cases hr : rest = []
        · left; simp [hr]
        · right; exact ⟨joinSlash rest, by simp [hr]⟩
      cases ds with
      | nil =>
        simp only [joinSlash] at hp
        obtain ⟨he, _⟩ := prefix_comp c c2 [] _ hc hc2 ht hp
        exact ⟨rest, by rw [he]; rfl⟩
      | cons c3 ds2 =>
        simp only [joinSlash, List.append_assoc, List.cons_append] at hp
        obtain ⟨he, hr⟩ := prefix_comp c c2 _ _ hc hc2 ht hp
        by_cases hrest : rest = []
        · simp [hrest] at hr
        · simp only [hrest, if_false, List.cons_prefix_cons, true_and] at hr
          obtain ⟨r, hr2⟩ := ih rest (by simp)
            (fun x hx => hd x (List.mem_cons_of_mem _ hx))
            (fun x hx => hq x (List.mem_cons_of_mem _ hx)) hr
          exact ⟨r, by rw [he, hr2]; rfl⟩

/-- A cleaned path never starts with `./`. -/
theorem cleanChars_not_dot_slash (p : List Char) : ¬ ['.', '/'] <+: cleanChars p := by
  intro hp
  have hvalid := cleanComps_shape p
  obtain ⟨k, ms, hq, hms, _⟩ := hvalid
  unfold cleanChars at hp
  dsimp only at hp
  split at hp
  · simp at hp
  · split at hp
    · simp at hp
    · cases hqq : cleanComps p with
      | nil => rw [hqq] at hp; simp [joinSlash] at hp
      | cons c rest =>
        rw [hqq, joinSlash_cons] at hp
        have hc : c ≠ ['.'] ∧ '/' ∉ c := by
          have hmem : c ∈ List.replicate k ['.', '.'] ++ ms := by
            rw [← hq, hqq]; exact List.mem_cons_self _ _
          simp only [List.mem_append, List.mem_replicate] at hmem
          rcases hmem with ⟨_, h⟩ | h
          · subst h; exact ⟨by decide, by decide⟩
          · exact ⟨(hms c h).1.2.1, (hms c h).1.2.2⟩
        cases c with
        | nil =>
          by_cases hr : rest = []
          · simp [hr] at hp
          · simp [hr] at hp
        | cons a as =>
          simp only [List.cons_append, List.cons_prefix_cons] at hp
          obtain ⟨ha, hp⟩ := hp
          cases as with
          | nil => exact hc.1 (by rw [← ha])
          | cons b bs =>
            simp only [List.cons_append, List.cons_prefix_cons] at hp
            exact hc.2 (by simp [← hp.1])

theorem cleanChars_guard (X D : List Char) (hhead : X.head? = D.head?)
    (hlast : (cleanComps D).getLast? ≠ some ['.', '.'])
    (hp : (cleanChars D ++ ['/']) <+: cleanChars X) :
    cleanComps D ≠ [] ∧
    ∃ r, r ≠ [] ∧ cleanComps X = cleanComps D ++ r ∧ ∀ c ∈ r, c ≠ ['.', '.'] := by
  have hvD := cleanComps_valid D
  have hvX := cleanComps_valid X
  -- a destination that cleans to `.` or `/` lets nothing through
  have hd : cleanComps D ≠ [] := by
    intro hd
    by_cases hr : D.head? = some '/'
    · have hrX : X.head? = some '/' := by rw [hhead]; exact hr
      have hD : cleanChars D = ['/'] := by
        unfold cleanChars; simp [hr, hd, joinSlash]
      have hX : cleanChars X = '/' :: joinSlash (cleanComps X) := by
        unfold cleanChars; simp [hrX]
      rw [hD, hX] at hp
      simp only [List.cons_append, List.nil_append, List.cons_prefix_cons, true_and] at hp
      apply joinSlash_head (cleanComps X) hvX
      obtain ⟨t, ht⟩ := hp
      rw [← ht]; rfl
    · have hD : cleanChars D = ['.'] := by
        unfold cleanChars; simp [hr, hd, joinSlash]
      rw [hD] at hp
      exact absurd hp (cleanChars_not_dot_slash X)
  have hjd : joinSlash (cleanComps D) ≠ [] := fun h =>
    hd ((joinSlash_eq_nil _ (fun c hc => (hvD c hc).1)).mp h)
  -- the elements of the cleaned destination start the elements of the cleaned path
  have hpre : ∃ r, cleanComps X = cleanComps D ++ r := by
    by_cases hr : D.head? = some '/'
    · have hrX : X.head? = some '/' := by rw [hhead]; exact hr
      have hD : cleanChars D = '/' :: joinSlash (cleanComps D) := by
        unfold cleanChars; simp [hr]
      have hX : cleanChars X = '/' :: joinSlash (cleanComps X) := by
        unfold cleanChars; simp [hrX]
      rw [hD, hX] at hp
      simp only [List.cons_append, List.cons_prefix_cons, true_and] at hp
      exact joinSlash_prefix _ _ hd (fun c hc => (hvD c hc).2) (fun c hc => (hvX c hc).2) hp
    · have hrX : ¬ X.head? = some '/' := by rw [hhead]; exact hr
      have hD : cleanChars D = joinSlash (cleanComps D) := by
        unfold cleanChars; simp [hr, hjd]
      by_cases hx : cleanComps X = []
      · have hX : cleanChars X = ['.'] := by
          unfold cleanChars; simp [hrX, hx, joinSlash]
        rw [hD, hX] at hp
        have hl := hp.length_le
        simp only [List.length_append, List.length_singleton] at hl
        have : (joinSlash (cleanComps D)).length = 0 := by omega
        exact absurd (List.length_eq_zero.mp this) hjd
      · have hjx : joinSlash (cleanComps X) ≠ [] := fun h =>
          hx ((joinSlash_eq_nil _ (fun c hc => (hvX c hc).1)).mp h)
        have hX : cleanChars X = joinSlash (cleanComps X) := by
          unfold cleanChars; simp [hrX, hjx]
        rw [hD, hX] at hp
        exact joinSlash_prefix _ _ hd (fun c hc => (hvD c hc).2)
          (fun c hc => (hvX c hc).2) hp
  obtain ⟨r, hr⟩ := hpre
  have hrne : r ≠ [] := by
    intro h
    subst h
    rw [List.append_nil] at hr
    have heq : cleanChars X = cleanChars D := by
      unfold cleanChars
      rw [hr, hhead]
    rw [heq] at hp
    have hl := hp.length_le
    simp only [List.length_append, List.length_singleton] at hl
    omega
  refine ⟨hd, r, hrne, hr, ?_⟩
  obtain ⟨k, ms, hq, hms, _⟩ := cleanComps_shape X
  rw [hq] at hr
  intro c hc hcd
  rcases List.append_eq_append_iff.mp hr with ⟨a, ha, hr2⟩ | ⟨b, hb, hms2⟩
  · -- the destination elements reach beyond the leading `..`: the rest is ordinary
    rw [hr2] at hms
    exact (hms c (List.mem_append_right _ hc)).2 hcd
  · -- the destination elements are all `..`, so is the last one
    have hall : ∀ x ∈ cleanComps D, x = ['.', '.'] := by
      intro x hx
      have : x ∈ List.replicate k ['.', '.'] := by
        rw [hb]; exact List.mem_append_left _ hx
      exact (List.mem_replicate.mp this).2
    cases hD : (cleanComps D).getLast? with
    | none => exact hd (List.getLast?_eq_none_iff.mp hD)
    | some l =>
      have hl := List.mem_of_getLast?_eq_some hD
      have := hall l hl
      rw [this] at hD
      exact hlast hD

/-- The traversal guard of `unzipFile` is sound for every destination whose
cleaned form does not end in `..`: a joined path that passes the guard lies
inside the destination root. -/
theorem guard_sound (dest name : String)
    (hlast : (cleanComps dest.data).getLast? ≠ some ['.', '.'])
    (hg : hasPrefixStr (filepathJoin dest name) (filepathClean dest ++ "/") = true) :
    insideRoot dest (filepathJoin dest name) = true := by
  unfold hasPrefixStr at hg
  rw [List.isPrefixOf_iff_prefix] at hg
  have hpre : (filepathClean dest ++ "/").data = cleanChars dest.data ++ ['/'] := by
    rw [String.data_append]; rfl
  rw [hpre] at hg
  by_cases hdest : dest = ""
  · subst hdest
    unfold filepathJoin at hg
    simp only [if_true] at hg
    split at hg
    · simp [cleanChars, cleanComps, splitSlash, cleanStep, joinSlash] at hg
    · have h1 : cleanChars ("" : String).data = ['.'] := by decide
      rw [h1] at hg
      exact absurd hg (cleanChars_not_dot_slash _)
  · have hj : filepathJoin dest name = filepathClean (dest ++ "/" ++ name) := by
      unfold filepathJoin; simp [hdest]
    rw [hj] at hg ⊢
    have hX : (filepathClean (dest ++ "/" ++ name)).data
        = cleanChars (dest.data ++ '/' :: name.data) := by
      unfold filepathClean
      simp [String.data_append]
    rw [hX] at hg
    have hne : dest.data ≠ [] := by
      intro h; apply hdest
      cases dest with
      | mk data => simp only at h; subst h; rfl
    have hhead : (dest.data ++ '/' :: name.data).head? = dest.data.head? := by
      cases hd : dest.data with
      | nil => exact absurd hd hne
      | cons a as => rfl
    obtain ⟨_, r, _, hr, hnd⟩ := cleanChars_guard _ _ hhead hlast hg
    unfold insideRoot
    dsimp only
    rw [hX, cleanComps_cleanChars, hr]
    have hh := cleanChars_head (dest.data ++ '/' :: name.data)
    rw [hhead] at hh
    simp only [Bool.and_eq_true, beq_iff_eq, List.all_eq_true, decide_eq_decide,
      bne_iff_ne, ne_eq]
    refine ⟨⟨hh.symm, ?_⟩, ?_⟩
    · rw [List.isPrefixOf_iff_prefix]; exact List.prefix_append _ _
    · intro c hc
      rw [List.drop_left] at hc
      exact hnd c hc

theorem Shaped.dropLast (rooted : Bool) (l : List (List Char)) (h : Shaped rooted l) :
    Shaped rooted l.dropLast := by
  obtain ⟨k, ms, hl, hms, hk⟩ := h
  subst hl
  by_cases hm : ms = []
  · subst hm
    refine ⟨k - 1, [], ?_, by simp, fun hr => by have := hk hr; omega⟩
    cases k with
    | zero => simp
    | succ k =>
      simp only [List.append_nil, Nat.add_sub_cancel]
      have : List.replicate (k + 1) ['.', '.'] = List.replicate k ['.', '.'] ++ [['.', '.']] := by
        rw [List.replicate_succ']
      rw [this, List.dropLast_concat]
  · refine ⟨k, ms.dropLast, ?_, fun c hc => hms c (List.dropLast_subset ms hc), hk⟩
    rw [List.dropLast_append_of_ne_nil _ hm]

theorem Shaped.foldl (rooted : Bool) (l : List (List Char)) (h : Shaped rooted l) :
    (l.foldl (cleanStep rooted) []).reverse = l := by
  obtain ⟨k, ms, hl, hms, hk⟩ := h
  subst hl
  cases rooted with
  | true =>
    have := hk rfl
    subst this
    simp only [List.replicate_zero, List.nil_append]
    rw [foldl_cleanStep_push _ ms hms]
    simp
  | false =>
    rw [List.foldl_append]
    have := foldl_cleanStep_dots k 0
    simp only [List.replicate_zero, Nat.zero_add] at this
    rw [this, foldl_cleanStep_push _ ms hms]
    simp

theorem Shaped.valid (rooted : Bool) (l : List (List Char)) (h : Shaped rooted l) :
    ∀ c ∈ l, c ≠ [] ∧ '/' ∉ c := by
  obtain ⟨k, ms, hl, hms, _⟩ := h
  subst hl
  intro c hc
  simp only [List.mem_append, List.mem_replicate] at hc
  rcases hc with ⟨_, hc⟩ | hc
  · subst hc; exact ⟨by simp, by decide⟩
  · exact ⟨(hms c hc).1.1, (hms c hc).1.2.2⟩

theorem cleanComps_shaped (p : List Char) :
    Shaped (decide (p.head? = some '/')) (cleanComps p) := by
  obtain ⟨k, ms, hq, hms, hk⟩ := cleanComps_shape p
  exact ⟨k, ms, hq, hms, fun h => hk (by simpa using h)⟩

theorem uptoLastSlash_append (s l : List Char) (hl : '/' ∉ l) :
    uptoLastSlash (s ++ '/' :: l) = s ++ ['/'] := by
  unfold uptoLastSlash
  have h1 : (s ++ '/' :: l).reverse = l.reverse ++ '/' :: s.reverse := by simp
  rw [h1]
  have h2 : ∀ (a b : List Char), (∀ x ∈ a, x ≠ '/') →
      (a ++ '/' :: b).dropWhile (fun c => c != '/') = '/' :: b := by
    intro a b ha
    induction a with
    | nil => simp [List.dropWhile]
    | cons x xs ih =>
      have hx := ha x (List.mem_cons_self _ _)
      simp only [List.cons_append, List.dropWhile_cons, bne_iff_ne, ne_eq, hx, not_false_eq_true,
        if_true]
      exact ih (fun y hy => ha y (List.mem_cons_of_mem _ hy))
  rw [h2 l.reverse s.reverse (fun x hx => by
    intro e; subst e; exact hl (List.mem_reverse.mp hx))]
  simp

theorem joinSlash_concat (init : List (List Char)) (last : List Char) (h : init ≠ []) :
    joinSlash (init ++ [last]) = joinSlash init ++ '/' :: last := by
  induction init with
  | nil => exact absurd rfl h
  | cons c rest ih =>
    cases rest with
    | nil => simp [joinSlash]
    | cons c2 rest2 =>
      have h2 := ih (by simp)
      have h3 : joinSlash (c :: c2 :: rest2 ++ [last])
          = c ++ '/' :: joinSlash (c2 :: rest2 ++ [last]) := rfl
      rw [h3, h2]
      simp [joinSlash]

theorem splitSlash_concat_slash (s : List Char) :
    splitSlash (s ++ ['/']) = splitSlash s ++ [[]] := by
  induction s with
  | nil => decide
  | cons a as ih =>
    by_cases ha : a = '/'
    · subst ha
      simp only [List.cons_append]
      rw [splitSlash_cons_slash, splitSlash_cons_slash, ih]
      rfl
    · cases hs : splitSlash as with
      | nil => exact absurd hs (splitSlash_ne_nil as)
      | cons x xs =>
        rw [hs] at ih
        simp only [List.cons_append] at ih ⊢
        rw [splitSlash_cons_other a _ x (xs ++ [[]]) ha ih,
          splitSlash_cons_other a _ x xs ha hs]
        rfl

theorem foldl_cleanStep_concat_nil (rooted : Bool) (l acc : List (List Char)) :
    (l ++ [[]]).foldl (cleanStep rooted) acc = l.foldl (cleanStep rooted) acc := by
  rw [List.foldl_append]
  simp [cleanStep]

/-- The elements of the directory part of a cleaned path with at least two
elements are all but the last one. -/
theorem cleanComps_dir (X : List Char) (init : List (List Char)) (last : List Char)
    (hq : cleanComps X = init ++ [last]) (hinit : init ≠ []) :
    cleanComps (uptoLastSlash (cleanChars X)) = init ∧
    ((uptoLastSlash (cleanChars X)).head? = some '/' ↔ X.head? = some '/') := by
  have hsh := cleanComps_shaped X
  have hv := Shaped.valid _ _ hsh
  have hshi : Shaped (decide (X.head? = some '/')) init := by
    have := Shaped.dropLast _ _ hsh
    rw [hq, List.dropLast_concat] at this
    exact this
  have hvi := Shaped.valid _ _ hshi
  have hlast : '/' ∉ last := (hv last (by rw [hq]; simp)).2
  have hji : joinSlash init ≠ [] := fun h =>
    hinit ((joinSlash_eq_nil _ (fun c hc => (hvi c hc).1)).mp h)
  have hjq : joinSlash (cleanComps X) = joinSlash init ++ '/' :: last := by
    rw [hq, joinSlash_concat init last hinit]
  by_cases hr : X.head? = some '/'
  · have hX : cleanChars X = ('/' :: joinSlash init) ++ '/' :: last := by
      unfold cleanChars; simp [hr, hjq]
    rw [hX, uptoLastSlash_append _ _ hlast]
    refine ⟨?_, by simp [hr]⟩
    unfold cleanComps
    simp only [List.cons_append, List.head?_cons, decide_True]
    rw [splitSlash_cons_slash, splitSlash_concat_slash,
      splitSlash_joinSlash init hinit (fun c hc => (hvi c hc).2)]
    simp only [List.foldl_cons]
    have h0 : cleanStep true [] [] = [] := by simp [cleanStep]
    rw [h0, foldl_cleanStep_concat_nil]
    have := Shaped.foldl _ _ hshi
    simp only [hr, decide_True] at this
    exact this
  · have hjx : joinSlash (cleanComps X) ≠ [] := by rw [hjq]; simp
    have hX : cleanChars X = joinSlash init ++ '/' :: last := by
      unfold cleanChars; simp [hr, hjx, hjq]
    rw [hX, uptoLastSlash_append _ _ hlast]
    have hh : (joinSlash init ++ ['/']).head? ≠ some '/' := by
      have := joinSlash_head init hvi
      cases hj : joinSlash init with
      | nil => exact absurd hj hji
      | cons a as => rw [hj] at this; simpa using this
    refine ⟨?_, ⟨fun h => absurd h hh, fun h => absurd h hr⟩⟩
    unfold cleanComps
    have hd : decide ((joinSlash init ++ ['/']).head? = some '/') = false :=
      decide_eq_false hh
    rw [hd, splitSlash_concat_slash, splitSlash_joinSlash init hinit (fun c hc => (hvi c hc).2),
      foldl_cleanStep_concat_nil]
    have := Shaped.foldl _ _ hshi
    simp only [hr, decide_False] at this
    exact this

/-- The directory of a joined path that passes the traversal guard lies
inside the destination root too, for every destination whose cleaned form
does not end in `..`. -/
theorem guard_sound_dir (dest name : String)
    (hlast : (cleanComps dest.data).getLast? ≠ some ['.', '.'])
    (hg : hasPrefixStr (filepathJoin dest name) (filepathClean dest ++ "/") = true) :
    insideRoot dest (filepathDir (filepathJoin dest name)) = true := by
  unfold hasPrefixStr at hg
  rw [List.isPrefixOf_iff_prefix] at hg
  have hpre : (filepathClean dest ++ "/").data = cleanChars dest.data ++ ['/'] := by
    rw [String.data_append]; rfl
  rw [hpre] at hg
  by_cases hdest : dest = ""
  · subst hdest
    unfold filepathJoin at hg
    simp only [if_true] at hg
    split at hg
    · simp [cleanChars, cleanComps, splitSlash, cleanStep, joinSlash] at hg
    · have h1 : cleanChars ("" : String).data = ['.'] := by decide
      rw [h1] at hg
      exact absurd hg (cleanChars_not_dot_slash _)
  · have hj : filepathJoin dest name = filepathClean (dest ++ "/" ++ name) := by
      unfold filepathJoin; simp [hdest]
    rw [hj] at hg ⊢
    have hX : (filepathClean (dest ++ "/" ++ name)).data
        = cleanChars (dest.data ++ '/' :: name.data) := by
      unfold filepathClean
      simp [String.data_append]
    rw [hX] at hg
    have hne : dest.data ≠ [] := by
      intro h; apply hdest
      cases dest with
      | mk data => simp only at h; subst h; rfl
    have hhead : (dest.data ++ '/' :: name.data).head? = dest.data.head? := by
      cases hd : dest.data with
      | nil => exact absurd hd hne
      | cons a as => rfl
    obtain ⟨hdne, r, hrne, hr, hnd⟩ := cleanChars_guard _ _ hhead hlast hg
    have hsplit : cleanComps (dest.data ++ '/' :: name.data)
        = (cleanComps dest.data ++ r.dropLast) ++ [r.getLast hrne] := by
      rw [hr, List.append_assoc, List.dropLast_append_getLast]
    obtain ⟨hc, hh⟩ := cleanComps_dir _ _ _ hsplit (by simp [hdne])
    unfold insideRoot filepathDir
    dsimp only
    rw [hX, cleanComps_cleanChars, hc]
    have hh2 := cleanChars_head (uptoLastSlash (cleanChars (dest.data ++ '/' :: name.data)))
    rw [hh, hhead] at hh2
    simp only [Bool.and_eq_true, beq_iff_eq, List.all_eq_true, decide_eq_decide,
      bne_iff_ne, ne_eq]
    refine ⟨⟨hh2.symm, ?_⟩, ?_⟩
    · rw [List.isPrefixOf_iff_prefix]; exact List.prefix_append _ _
    · intro c hc2
      rw [List.drop_left] at hc2
      exact hnd c (List.dropLast_subset r hc2)

/-! ## Extraction -/

theorem unzipEntries_no_remove (env : ZipEnv) (dest : String) (files : List ZipEntry) :
    ∀ log : List FsOp, log.all (fun op => !op.isRemove) = true →
      (unzipEntries env dest files log).2.all (fun op => !op.isRemove) = true := by
  induction files with
  | nil => intro log h; simpa [unzipEntries] using h
  | cons f fs ih =>
    intro log h
    simp only [unzipEntries]
    split
    · exact h
    · split
      · split
        · exact h
        · exact ih _ (by simp [List.all_append, FsOp.isRemove]; simpa using h)
      · split
        · exact h
        · split
          · simp [List.all_append, FsOp.isRemove]; simpa using h
          · split
            · simp [List.all_append, FsOp.isRemove]; simpa using h
            · split
              · simp [List.all_append, FsOp.isRemove]; simpa using h
              · exact ih _ (by simp [List.all_append, FsOp.isRemove]; simpa using h)

theorem unzipEntries_cons_ok (env : ZipEnv) (dest : String) (f : ZipEntry)
    (fs : List ZipEntry) (log : List FsOp) (h : entryError env dest f = none) :
    ∃ log1, unzipEntries env dest (f :: fs) log = unzipEntries env dest fs log1 := by
  unfold entryError at h
  simp only [unzipEntries]
  dsimp only at h
  split
  · rename_i h1; simp [h1] at h
  · rename_i h1
    rw [if_neg h1] at h
    split
    · rename_i h2
      rw [if_pos h2] at h
      split
      · rename_i h3; simp [h3] at h
      · exact ⟨_, rfl⟩
    · rename_i h2
      rw [if_neg h2] at h
      split
      · rename_i h3; simp [h3] at h
      · rename_i h3
        rw [if_neg h3] at h
        split
        · rename_i h4; simp [h4] at h
        · rename_i h4
          rw [if_neg h4] at h
          split
          · rename_i h5; simp [h5] at h
          · rename_i h5
            rw [if_neg h5] at h
            split
            · rename_i k h6; simp [h6] at h
            · exact ⟨_, rfl⟩

theorem unzipEntries_cons_err (env : ZipEnv) (dest : String) (f : ZipEntry)
    (fs : List ZipEntry) (log : List FsOp) (e : UnzipError)
    (h : entryError env dest f = some e) :
    (unzipEntries env dest (f :: fs) log).1 = some e := by
  unfold entryError at h
  simp only [unzipEntries]
  dsimp only at h
  split
  · rename_i h1; rw [if_pos h1] at h; exact h
  · rename_i h1
    rw [if_neg h1] at h
    split
    · rename_i h2
      rw [if_pos h2] at h
      split
      · rename_i h3; rw [if_pos h3] at h; exact h
      · rename_i h3; simp [h3] at h
    · rename_i h2
      rw [if_neg h2] at h
      split
      · rename_i h3; rw [if_pos h3] at h; exact h
      · rename_i h3
        rw [if_neg h3] at h
        split
        · rename_i h4; rw [if_pos h4] at h; exact h
        · rename_i h4
          rw [if_neg h4] at h
          split
          · rename_i h5; rw [if_pos h5] at h; exact h
          · rename_i h5
            rw [if_neg h5] at h
            split
            · rename_i k h6; simp [h6] at h; simp [h]
            · rename_i h6; simp [h6] at h

theorem unzipEntries_error (env : ZipEnv) (dest : String) (files : List ZipEntry) :
    ∀ log : List FsOp, (unzipEntries env dest files log).1 = none ↔
      ∀ f ∈ files, entryError env dest f = none := by
  induction files with
  | nil => intro log; simp [unzipEntries]
  | cons f fs ih =>
    intro log
    simp only [List.mem_cons, forall_eq_or_imp]
    cases hf : entryError env dest f with
    | none =>
      obtain ⟨log1, h1⟩ := unzipEntries_cons_ok env dest f fs log hf
      rw [h1, ih log1]
      simp
    | some e =>
      rw [unzipEntries_cons_err env dest f fs log e hf]
      simp

theorem insideRoot_self (root : String) : insideRoot root root = true := by
  unfold insideRoot
  simp

theorem unzipEntries_within (env : ZipEnv) (dest : String)
    (hlast : (cleanComps dest.data).getLast? ≠ some ['.', '.']) (files : List ZipEntry) :
    ∀ log : List FsOp, log.all (FsOp.within dest) = true →
      (unzipEntries env dest files log).2.all (FsOp.within dest) = true := by
  induction files with
  | nil => intro log h; simpa [unzipEntries] using h
  | cons f fs ih =>
    intro log h
    simp only [unzipEntries]
    split
    · exact h
    · rename_i hg
      have hg : hasPrefixStr (filepathJoin dest f.Name) (filepathClean dest ++ "/") = true := by
        simpa using hg
      have h1 := guard_sound dest f.Name hlast hg
      have h2 := guard_sound_dir dest f.Name hlast hg
      have hlog : ∀ ops : List FsOp, ops.all (FsOp.within dest) = true →
          (log ++ ops).all (FsOp.within dest) = true := by
        intro ops hops
        rw [List.all_append, h, hops]; rfl
      split
      · split
        · exact h
        · exact ih _ (hlog _ (by simp [FsOp.within, FsOp.creates, h1]))
      · split
        · exact h
        · split
          · exact hlog _ (by simp [FsOp.within, FsOp.creates, h2])
          · split
            · simp only [List.append_assoc]
              exact hlog _ (by simp [FsOp.within, FsOp.creates, h1, h2])
            · split
              · simp only [List.append_assoc]
                exact hlog _ (by simp [FsOp.within, FsOp.creates, h1, h2])
              · simp only [List.append_assoc]
                exact ih _ (hlog _ (by simp [FsOp.within, FsOp.creates, h1, h2]))

/-- Traversal rejection holds for every destination whose cleaned form does
not end in `..` (so for every destination below the working directory and for
every absolute one): if some entry of the archive joins to a path outside the
destination root, `unzipFile` returns an error, and whatever the outcome every
directory and file it creates or writes lies inside the destination root. -/
theorem unzipFile_traversal_rejected (env : ZipEnv) (src dest : String) (deleteAfter : Bool)
    (hlast : (cleanComps dest.data).getLast? ≠ some ['.', '.']) :
    (∀ files, env.OpenReader src = some files →
      (∃ f ∈ files, insideRoot dest (filepathJoin dest f.Name) = false) →
      (unzipFile env src dest deleteAfter).1 ≠ none) ∧
    (unzipFile env src dest deleteAfter).2.all (FsOp.within dest) = true := by
  have hw : ∀ files, (unzipEntries env dest files [FsOp.mkdirAll dest]).2.all
      (FsOp.within dest) = true := fun files =>
    unzipEntries_within env dest hlast files _
      (by simp [FsOp.within, FsOp.creates, insideRoot_self])
  constructor
  · intro files hopen ⟨f, hf, hout⟩
    have hferr : entryError env dest f ≠ none := by
      unfold entryError
      dsimp only
      have hg : hasPrefixStr (filepathJoin dest f.Name) (filepathClean dest ++ "/") = false := by
        cases hgv : hasPrefixStr (filepathJoin dest f.Name) (filepathClean dest ++ "/") with
        | false => rfl
        | true =>
          have := guard_sound dest f.Name hlast hgv
          rw [hout] at this
          cases this
      simp [hg]
    have herr : (unzipEntries env dest files [FsOp.mkdirAll dest]).1 ≠ none := by
      intro h
      exact hferr ((unzipEntries_error env dest files _).mp h f hf)
    unfold unzipFile
    rw [hopen]
    dsimp only
    split
    · simp
    · cases hres : unzipEntries env dest files [FsOp.mkdirAll dest] with
      | mk e log =>
        rw [hres] at herr
        cases e with
        | none => exact absurd rfl herr
        | some e => simp
  · unfold unzipFile
    cases hopen : env.OpenReader src with
    | none => rfl
    | some files =>
      dsimp only
      split
      · rfl
      · have hwf := hw files
        cases hres : unzipEntries env dest files [FsOp.mkdirAll dest] with
        | mk e log =>
          rw [hres] at hwf
          cases e with
          | some e => exact hwf
          | none =>
            dsimp only
            split
            · split
              · exact hwf
              · rw [List.all_append, hwf]; rfl
            · exact hwf

/-- Claim C6 fails on the code: with the destination `..` the entry `../evil`
joins to `../../evil`, which is outside the destination root, yet it passes
the test `strings.HasPrefix(fpath, filepath.Clean(dest)+"/")` because the
cleaned destination is itself a prefix of every path that climbs further.
The call returns no error and creates `../../evil`.  With the destination `d`
the same archive is rejected before anything is written.  The destination
`..` is what a batch computes for an archive downloaded from the base path
`../../`. -/
theorem unzipFile_traversal_escapes :
    filepathDir (filepathJoin (outputDirOf some "../../") "x.zip") = ".." ∧
    filepathJoin ".." "../evil" = "../../evil" ∧
    insideRoot ".." "../../evil" = false ∧
    hasPrefixStr "../../evil" (filepathClean ".." ++ "/") = true ∧
    unzipFile zipEnvEscape "../x.zip" ".." false
      = (none, [FsOp.mkdirAll "..", FsOp.mkdirAll "../..", FsOp.create "../../evil" 420,
                FsOp.write "../../evil" [1]]) ∧
    unzipFile zipEnvEscape "d/x.zip" "d" false
      = (some (UnzipError.invalidPath "evil"), [FsOp.mkdirAll "d"]) := by
  decide

/-- The two early returns of the probe: when the request cannot be built or
sent, `getFileInfo` returns size 0 and not resumable with the error, the scan
worker emits a `fileInfo` of size 0 that is not resumable, and the byte total
is unchanged. -/
theorem getFileInfo_early_error
    (env : ProbeEnv) (unescape : Unescape) (fs : FS) (basePath outputDir : String)
    (file : fileEntry) (totalBytes scanProgress : Int)
    (h : env.badURL (baseURL ++ basePath ++ file.Path) = true ∨
      env.Do (baseURL ++ basePath ++ file.Path) = none) :
    (getFileInfo env (baseURL ++ basePath ++ file.Path)).1 = 0 ∧
    (getFileInfo env (baseURL ++ basePath ++ file.Path)).2.1 = false ∧
    (getFileInfo env (baseURL ++ basePath ++ file.Path)).2.2 ≠ none ∧
    (scanJob env unescape fs basePath outputDir file totalBytes scanProgress).info.size = 0 ∧
    (scanJob env unescape fs basePath outputDir file totalBytes scanProgress).info.resumable
      = false ∧
    (scanJob env unescape fs basePath outputDir file totalBytes scanProgress).totalBytes
      = totalBytes := by
  by_cases hb : env.badURL (baseURL ++ basePath ++ file.Path) = true
  · simp [scanJob, getFileInfo, hb]
  · rcases h with h | h
    · exact absurd h hb
    · simp [scanJob, getFileInfo, hb, h]

/-- Claim C8 fails on the code: when the only failure of the probe is the
error of `resp.Body.Close()`, `getFileInfo` returns that error together with
the size and the range support read from the headers, not `0` and `false`;
the scan worker emits a `fileInfo` carrying that size and that flag, and adds
nothing to the byte total. -/
theorem getFileInfo_close_error_keeps_size
    (env : ProbeEnv) (unescape : Unescape) (fs : FS) (basePath outputDir : String)
    (file : fileEntry) (totalBytes scanProgress : Int) (resp : HeadResponse)
    (hurl : ∀ u, env.badURL u = false) (hdo : ∀ u, env.Do u = some resp)
    (hclose : resp.closeErr = true) :
    getFileInfo env (baseURL ++ basePath ++ file.Path)
      = (resp.ContentLength, resp.AcceptRanges == "bytes", some ProbeError.close) ∧
    (scanJob env unescape fs basePath outputDir file totalBytes scanProgress).err
      = some ProbeError.close ∧
    (scanJob env unescape fs basePath outputDir file totalBytes scanProgress).info.size
      = resp.ContentLength ∧
    (scanJob env unescape fs basePath outputDir file totalBytes scanProgress).info.resumable
      = (resp.AcceptRanges == "bytes") ∧
    (scanJob env unescape fs basePath outputDir file totalBytes scanProgress).totalBytes
      = totalBytes := by
  simp [scanJob, getFileInfo, hurl, hdo, hclose]

/-- Claim C8 at a concrete input: the probe of `a` fails at `Close`, the
emitted `fileInfo` has size 3 and is resumable, and the transfer that follows
compares that size with the file on disk and skips the download. -/
theorem getFileInfo_close_error_keeps_size_witness :
    (getFileInfo probeCloseErr (baseURL ++ "" ++ "a") = (3, true, some ProbeError.close) ∧
    (scanJob probeCloseErr some fsScanned "" "downloads" ⟨"a", "a"⟩ 0 0).err
      = some ProbeError.close ∧
    (scanJob probeCloseErr some fsScanned "" "downloads" ⟨"a", "a"⟩ 0 0).info.size = 3 ∧
    (scanJob probeCloseErr some fsScanned "" "downloads" ⟨"a", "a"⟩ 0 0).info.resumable
      = true ∧
    (scanJob probeCloseErr some fsScanned "" "downloads" ⟨"a", "a"⟩ 0 0).totalBytes = 0) ∧
    (scanAndDownload probeCloseErr some false fsScanned "" [⟨"a", "a"⟩] {} false []).files
      = [⟨baseURL ++ "a", "a", "downloads/a", 3, true⟩] ∧
    (downloadFileWithResume (quietEnv none) fsScanned
      (scanJob probeCloseErr some fsScanned "" "downloads" ⟨"a", "a"⟩ 0 0).info {}).exit
      = Exit.skipped :=
  ⟨getFileInfo_close_error_keeps_size probeCloseErr some fsScanned "" "downloads" ⟨"a", "a"⟩
      0 0 ⟨3, "bytes", true⟩ (fun _ => rfl) (fun _ => rfl) rfl,
    by decide, by decide⟩

/-- A pass of the entry loop that returns no error has appended, for every
entry in order, exactly the operations that extract it. -/
theorem unzipEntries_ok_log (env : ZipEnv) (dest : String) (files : List ZipEntry) :
    ∀ log : List FsOp, (unzipEntries env dest files log).1 = none →
      (unzipEntries env dest files log).2 = log ++ files.flatMap (extractedOps dest) := by
  induction files with
  | nil => intro log _; simp [unzipEntries]
  | cons f fs ih =>
    intro log h
    simp only [unzipEntries] at h ⊢
    split at h
    · cases h
    · rename_i h1
      rw [if_neg h1]
      split at h
      · rename_i h2
        rw [if_pos h2]
        split at h
        · cases h
        · rename_i h3
          rw [if_neg h3, ih _ h]
          simp [extractedOps, h2]
      · rename_i h2
        rw [if_neg h2]
        split at h
        · cases h
        · rename_i h3
          rw [if_neg h3]
          split at h
          · cases h
          · rename_i h4
            rw [if_neg h4]
            split at h
            · cases h
            · rename_i h5
              rw [if_neg h5]
              split at h
              · cases h
              · rename_i h6
                rw [ih _ h]
                simp [extractedOps, h2]

/-- Claim C9: whenever `unzipFile` returns an error (at any step: opening the
archive, creating the destination, the traversal check, creating or writing an
entry), nothing was removed; the only path it ever removes is the source
archive; the archive is removed exactly when `deleteAfter` is set and the
archive opened, the destination was created and every entry went through the
loop without error, the removal being the call `os.Remove(src)`, which has to
succeed; and when the archive is removed, the removal is the last operation
and comes after the complete extraction of every entry of the archive, in
order: each directory made, each file created with its mode and written with
its whole contents. -/
theorem unzipFile_removes_only_after_success
    (env : ZipEnv) (src dest : String) (deleteAfter : Bool) :
    (∀ e, (unzipFile env src dest deleteAfter).1 = some e →
      (unzipFile env src dest deleteAfter).2.all (fun op => !op.isRemove) = true) ∧
    (∀ p, FsOp.remove p ∈ (unzipFile env src dest deleteAfter).2 → p = src) ∧
    (FsOp.remove src ∈ (unzipFile env src dest deleteAfter).2 ↔
      deleteAfter = true ∧
      (∃ files, env.OpenReader src = some files ∧ env.mkdirAllErr dest = false ∧
        ∀ f ∈ files, entryError env dest f = none) ∧
      env.removeErr src = false) ∧
    (FsOp.remove src ∈ (unzipFile env src dest deleteAfter).2 →
      ∃ files, env.OpenReader src = some files ∧
        (unzipFile env src dest deleteAfter).2
          = FsOp.mkdirAll dest :: files.flatMap (extractedOps dest) ++ [FsOp.remove src]) := by
  have hnr : ∀ (files : List ZipEntry) (p : String),
      FsOp.remove p ∉ (unzipEntries env dest files [FsOp.mkdirAll dest]).2 := by
    intro files p hmem
    have h := unzipEntries_no_remove env dest files [FsOp.mkdirAll dest] (by simp [FsOp.isRemove])
    rw [List.all_eq_true] at h
    have := h _ hmem
    simp [FsOp.isRemove] at this
  have hall : ∀ (files : List ZipEntry),
      (unzipEntries env dest files [FsOp.mkdirAll dest]).2.all (fun op => !op.isRemove) = true :=
    fun files => unzipEntries_no_remove env dest files _ (by simp [FsOp.isRemove])
  unfold unzipFile
  cases hopen : env.OpenReader src with
  | none => simp
  | some files =>
    by_cases hmk : env.mkdirAllErr dest = true
    · simp [hmk]
    · have herr := unzipEntries_error env dest files [FsOp.mkdirAll dest]
      have hlog := unzipEntries_ok_log env dest files [FsOp.mkdirAll dest]
      have hnr1 := hnr files
      have hall1 := hall files
      simp only [hmk]
      cases hres : unzipEntries env dest files [FsOp.mkdirAll dest] with
      | mk e log =>
        rw [hres] at herr hnr1 hall1 hlog
        cases e with
        | some e =>
          have hne : ¬ ∀ f ∈ files, entryError env dest f = none := by
            rw [← herr]; simp
          simp only [Bool.false_eq_true, if_false]
          refine ⟨fun _ _ => hall1, fun p hp => absurd hp (hnr1 p), ?_,
            fun hp => absurd hp (hnr1 src)⟩
          constructor
          · intro hp; exact absurd hp (hnr1 src)
          · rintro ⟨_, ⟨fl, hfl, _, hok⟩, _⟩
            cases hfl
            exact absurd hok hne
        | none =>
          have hok : ∀ f ∈ files, entryError env dest f = none := herr.mp rfl
          have hlog1 : log = [FsOp.mkdirAll dest] ++ files.flatMap (extractedOps dest) :=
            hlog rfl
          simp only [Bool.false_eq_true, if_false]
          by_cases hd : deleteAfter = true
          · by_cases hr : env.removeErr src = true
            · simp only [hd, hr, if_true]
              refine ⟨fun _ _ => hall1, fun p hp => absurd hp (hnr1 p), ?_,
                fun hp => absurd hp (hnr1 src)⟩
              constructor
              · intro hp; exact absurd hp (hnr1 src)
              · rintro ⟨_, _, h3⟩; simp at h3
            · simp only [hd, hr, if_true]
              refine ⟨by simp, ?_, ?_, ?_⟩
              · intro p hp
                simp only [Bool.false_eq_true, if_false, List.mem_append,
                  List.mem_singleton] at hp
                rcases hp with hp | hp
                · exact absurd hp (hnr1 p)
                · cases hp; rfl
              · simp only [Bool.false_eq_true, if_false]
                constructor
                · intro _
                  exact ⟨trivial, ⟨files, rfl, by simp [hmk], hok⟩, by simp [hr]⟩
                · intro _; simp
              · intro _
                refine ⟨files, rfl, ?_⟩
                simp only [Bool.false_eq_true, if_false]
                rw [hlog1]
                rfl
          · simp only [hd]
            refine ⟨by simp, fun p hp => absurd hp (hnr1 p), ?_,
              fun hp => absurd hp (hnr1 src)⟩
            constructor
            · intro hp; exact absurd hp (hnr1 src)
            · rintro ⟨h1, _, _⟩; exact absurd h1 (by decide)

/-- Claim C9 at a concrete archive: the entries `d/` and `d/f` of `zipEnvPlain`
are extracted into `out` and the archive `x.zip` is then removed. -/
theorem unzipFile_removes_only_after_success_witness :
    unzipFile zipEnvPlain "x.zip" "out" true
      = (none, [FsOp.mkdirAll "out", FsOp.mkdirAll "out/d", FsOp.mkdirAll "out/d",
          FsOp.create "out/d/f" 420, FsOp.write "out/d/f" [1, 2], FsOp.remove "x.zip"]) ∧
    ∃ files, zipEnvPlain.OpenReader "x.zip" = some files ∧
      (unzipFile zipEnvPlain "x.zip" "out" true).2
        = FsOp.mkdirAll "out" :: files.flatMap (extractedOps "out") ++ [FsOp.remove "x.zip"] :=
  ⟨by decide,
   (unzipFile_removes_only_after_success zipEnvPlain "x.zip" "out" true).2.2.2 (by decide)⟩

/-! ## Elapsed time -/

/-- The scenario models are reached from `InitialModel` by `Update`. -/
theorem mStarted_reached :
    InitialModel.after typedAppend
      [(0, Msg.dirLoadedMsg [⟨"a.zip", "a.zip"⟩]), (50, Msg.KeyMsg "s")] = some mBrowsing ∧
    mBrowsing.Update 100 typedAppend (Msg.KeyMsg "d")
      = some (mStarted, Cmd.Batch
          (Cmd.downloadAllFiles "" [⟨"a.zip", "a.zip"⟩] false false false) Cmd.tick) := by
  decide

/-- Claim C10 fails on the code: for a running batch started at `t0` (so
`startTime = t0`, `pausedTime = 0`), paused by `p` at `t1` and resumed by `r`
at `t2`, the progress view shows `t - t1` while paused at `t`, which starts at
zero and grows, and after the resume both the progress view and the completion
status at `t3` report `(t2 - t1) + (t3 - t2)`: the pause is what gets
accumulated, the running time `t1 - t0` before it is dropped. -/
theorem elapsed_accumulates_pause
    (m : Model) (st : downloadStats) (typed : String → String → String)
    (t0 t1 t2 t3 t : Int)
    (herr : m.lastError = "") (hdl : m.downloading = true)
    (hst : m.downloadStats = some st) (hscan : st.scanning = false)
    (hext : st.extracting = false) (hp : m.paused = false)
    (hstart : m.startTime = t0) (hacc : m.pausedTime = 0) :
    m.viewElapsed t = some (t - t0) ∧
    (m.after typed [(t1, Msg.KeyMsg "p")]).bind (fun m1 => m1.viewElapsed t)
      = some (t - t1) ∧
    (m.after typed [(t1, Msg.KeyMsg "p"), (t2, Msg.KeyMsg "r")]).bind
      (fun m2 => m2.viewElapsed t3) = some ((t2 - t1) + (t3 - t2)) ∧
    (m.after typed [(t1, Msg.KeyMsg "p"), (t2, Msg.KeyMsg "r"),
      (t3, Msg.downloadCompleteMsg)]).map (fun m3 => m3.status)
      = some (Status.downloaded st.total ((t2 - t1) + (t3 - t2)) st.bytesDownload) := by
  refine ⟨?_, ?_, ?_, ?_⟩
  · simp [Model.viewElapsed, herr, hdl, hst, hscan, hext, hp, hstart, hacc]
  · simp [Model.after, Model.Update, Model.keyDownloading, Model.viewElapsed, herr, hdl, hst,
      hscan, hext, hp, hacc]
  · simp [Model.after, Model.Update, Model.keyDownloading, Model.viewElapsed, herr, hdl, hst,
      hscan, hext, hp, hacc]
  · simp [Model.after, Model.Update, Model.keyDownloading, Model.elapsedNow, herr, hdl, hst,
      hscan, hp, hacc]

/-- Claim C10 at a concrete run: batch started at 100, paused at 110, resumed
at 112.  Paused at 111 the view shows 1 (the claim: 10); at 120 the view and
the completion status report 10, where the active time is 18. -/
theorem elapsed_accumulates_pause_witness :
    (110 - 100 : Int) + (120 - 112) = 18 ∧
    (mStarted.viewElapsed 111 = some 11 ∧
    (mStarted.after typedAppend [(110, Msg.KeyMsg "p")]).bind
      (fun m1 => m1.viewElapsed 111) = some 1 ∧
    (mStarted.after typedAppend [(110, Msg.KeyMsg "p"), (112, Msg.KeyMsg "r")]).bind
      (fun m2 => m2.viewElapsed 120) = some 10 ∧
    (mStarted.after typedAppend [(110, Msg.KeyMsg "p"), (112, Msg.KeyMsg "r"),
      (120, Msg.downloadCompleteMsg)]).map (fun m3 => m3.status)
      = some (Status.downloaded 1 10 0)) :=
  ⟨by decide,
    elapsed_accumulates_pause mStarted { total := 1 } typedAppend 100 110 112 120 111
      rfl rfl rfl rfl rfl rfl rfl rfl⟩

/-! ## Pause and the byte counter -/

theorem ioCopy_read_sum (cap : Option Nat) (e : Bool) (chunks : List Bytes) :
    ∀ (w : Bytes) (r : Nat),
      (ioCopy cap e chunks w r).read = r + (ioCopyReads cap chunks w).sum := by
  induction chunks with
  | nil => intro w r; simp [ioCopy, ioCopyReads]
  | cons c cs ih =>
    intro w r
    by_cases hc : c.length = 0
    · simp [ioCopy, ioCopyReads, hc, ih]
    · simp only [ioCopy, ioCopyReads, hc, if_false]
      split
      · simp
      · simp [ih]; omega

/-- The byte counter after a call of `downloadFileWithResume` is the counter
before plus the sizes of the reads of the call. -/
theorem transferReads_sum (env : Env) (fs : FS) (file : fileInfo) (stats : downloadStats) :
    (downloadFileWithResume env fs file stats).stats.bytesDownload
      = stats.bytesDownload + ((transferReads env fs file).sum : Nat) := by
  unfold downloadFileWithResume transferReads
  dsimp only
  split
  · simp
  · split
    · simp
    · split
      · simp
      · split
        · simp
        · split <;> simp [ioCopy_read_sum]

theorem countP_set_of_get? {α : Type} (q : α → Bool) (l : List α) (i : Nat) (old new : α)
    (h : l.get? i = some old) :
    (l.set i new).countP q + (if q old then 1 else 0)
      = l.countP q + (if q new then 1 else 0) := by
  induction l generalizing i with
  | nil => simp at h
  | cons x xs ih =>
    cases i with
    | zero =>
      simp at h
      subst h
      simp only [List.set_cons_zero, List.countP_cons]
      omega
    | succ i =>
      have := ih i (by simpa using h)
      simp only [List.set_cons_succ, List.countP_cons] at this ⊢
      omega

theorem not_committed_of_zero (l : List Stage) (i : Nat) (s : Stage)
    (h0 : l.countP Stage.committed = 0) (h : l.get? i = some s) : s.committed = false := by
  have hmem : s ∈ l := List.get?_mem h
  have := List.countP_eq_zero.mp h0 s hmem
  simpa using this

/-- One event other than a resume, in a paused batch: the flag stays set, no
worker leaves the pause loop, the byte counter does not decrease, and it does
not move at all when no worker was past the pause loop. -/
theorem Progress.step_paused (p : Progress) (ev : Beat) (hp : p.stats.paused = 1)
    (hev : ev ≠ Beat.resume) :
    (p.step ev).stats.paused = 1 ∧
    (p.step ev).committed ≤ p.committed ∧
    p.stats.bytesDownload ≤ (p.step ev).stats.bytesDownload ∧
    (p.committed = 0 → (p.step ev).stats.bytesDownload = p.stats.bytesDownload) := by
  cases ev with
  | resume => exact absurd rfl hev
  | cancel => exact ⟨hp, Nat.le_refl _, Int.le_refl _, fun _ => rfl⟩
  | pause => exact ⟨rfl, Nat.le_refl _, Int.le_refl _, fun _ => rfl⟩
  | step w reads =>
    simp only [Progress.step]
    unfold Progress.stepWorker
    cases hw : p.workers.get? w with
    | none => exact ⟨hp, Nat.le_refl _, Int.le_refl _, fun _ => rfl⟩
    | some st =>
      have hs : ∀ new : Stage, (p.workers.set w new).countP Stage.committed
          + (if st.committed then 1 else 0)
          = p.workers.countP Stage.committed + (if new.committed then 1 else 0) :=
        fun new => countP_set_of_get? _ _ _ _ _ hw
      cases st with
      | exited => exact ⟨hp, Nat.le_refl _, Int.le_refl _, fun _ => rfl⟩
      | idle =>
        cases hj : p.jobs with
        | nil =>
          have := hs Stage.exited
          simp only [Stage.committed] at this
          refine ⟨hp, ?_, Int.le_refl _, fun _ => rfl⟩
          simp only [Progress.committed]; simp at this; omega
        | cons job rest =>
          have := hs (Stage.dequeued job)
          simp only [Stage.committed] at this
          refine ⟨hp, ?_, Int.le_refl _, fun _ => rfl⟩
          simp only [Progress.committed]; simp at this; omega
      | dequeued job =>
        dsimp only
        split
        · have := hs Stage.exited
          simp only [Stage.committed] at this
          refine ⟨hp, ?_, Int.le_refl _, fun _ => rfl⟩
          simp only [Progress.committed]; simp at this; omega
        · have := hs (Stage.pauseCheck job)
          simp only [Stage.committed] at this
          refine ⟨hp, ?_, Int.le_refl _, fun _ => rfl⟩
          simp only [Progress.committed]; simp at this; omega
      | slept job =>
        dsimp only
        split
        · have := hs Stage.exited
          simp only [Stage.committed] at this
          refine ⟨hp, ?_, Int.le_refl _, fun _ => rfl⟩
          simp only [Progress.committed]; simp at this; omega
        · have := hs (Stage.pauseCheck job)
          simp only [Stage.committed] at this
          refine ⟨hp, ?_, Int.le_refl _, fun _ => rfl⟩
          simp only [Progress.committed]; simp at this; omega
      | pauseCheck job =>
        dsimp only
        rw [if_pos hp]
        have := hs (Stage.slept job)
        simp only [Stage.committed] at this
        refine ⟨hp, ?_, Int.le_refl _, fun _ => rfl⟩
        simp only [Progress.committed]; simp at this; omega
      | passed job =>
        have := hs (Stage.copying job reads)
        simp only [Stage.committed] at this
        refine ⟨hp, ?_, Int.le_refl _, fun _ => rfl⟩
        simp only [Progress.committed]; simp at this; omega
      | copying job todo =>
        cases todo with
        | nil =>
          have := hs Stage.idle
          simp only [Stage.committed] at this
          refine ⟨hp, ?_, Int.le_refl _, fun _ => rfl⟩
          simp only [Progress.committed]; simp at this; omega
        | cons n rest =>
          have := hs (Stage.copying job rest)
          simp only [Stage.committed] at this
          refine ⟨hp, ?_, ?_, ?_⟩
          · simp only [Progress.committed]; simp at this; omega
          · simp only [progressReader.Read]; omega
          · intro h0
            have := not_committed_of_zero p.workers w _ h0 hw
            simp [Stage.committed] at this

/-- Claim C11 fails as stated: worker 0 is inside `downloadFileWithResume`
(the transfer of the scenario, whose reads are 2 bytes and 1 byte) and has
read 2 bytes when the UI sets the paused flag; its next read raises
`bytesDownload` from 2 to 3 while the flag is still set. -/
theorem pause_does_not_stop_inflight :
    transferReads (quietEnv (some ⟨200, ⟨[[1, 2], [3]], false⟩⟩)) fsEmpty fileNonResumable
      = [2, 1] ∧
    ((Progress.init [fileNonResumable] {} false).run schedInFlight).stats.paused = 1 ∧
    ((Progress.init [fileNonResumable] {} false).run schedInFlight).stats.bytesDownload = 2 ∧
    ((Progress.init [fileNonResumable] {} false).run
      (schedInFlight ++ [Beat.step 0 []])).stats.paused = 1 ∧
    ((Progress.init [fileNonResumable] {} false).run
      (schedInFlight ++ [Beat.step 0 []])).stats.bytesDownload = 3 := by
  decide

/-- Claim C11, amended: in every execution of a batch, from the moment the
paused flag is set until it is cleared, the flag stays set, no worker leaves
the pause loop to start a transfer (the number of workers past the pause loop
never grows), and the byte counter never decreases; it is raised only by the
reads of transfers whose worker was already past the pause loop, so it does
not change at all when there was no such worker when the pause was requested. -/
theorem pause_holds_back_new_transfers (p : Progress) (sched : List Beat)
    (hp : p.stats.paused = 1) (hs : ∀ ev ∈ sched, ev ≠ Beat.resume) :
    (p.run sched).stats.paused = 1 ∧
    (p.run sched).committed ≤ p.committed ∧
    p.stats.bytesDownload ≤ (p.run sched).stats.bytesDownload ∧
    (p.committed = 0 → (p.run sched).stats.bytesDownload = p.stats.bytesDownload) := by
  induction sched generalizing p with
  | nil => exact ⟨hp, Nat.le_refl _, Int.le_refl _, fun _ => rfl⟩
  | cons ev rest ih =>
    obtain ⟨h1, h2, h3, h4⟩ := Progress.step_paused p ev hp (hs ev (List.mem_cons_self _ _))
    obtain ⟨k1, k2, k3, k4⟩ := ih (p.step ev) h1
      (fun e he => hs e (List.mem_cons_of_mem _ he))
    refine ⟨k1, Nat.le_trans k2 h2, Int.le_trans h3 k3, ?_⟩
    intro h0
    have hc0 : (p.step ev).committed = 0 := by omega
    have e1 := k4 hc0
    have e2 := h4 h0
    show ((p.step ev).run rest).stats.bytesDownload = p.stats.bytesDownload
    rw [e1, e2]

/-- Claim C11, amended, at a concrete batch: paused before any worker took a
job; worker 0 then waits in the pause loop until the cancellation, and the
byte counter stays 0. -/
theorem pause_holds_back_new_transfers_witness :
    (((Progress.init [fileNonResumable] {} false).step Beat.pause).run
        schedWaiting).stats.paused = 1 ∧
    (((Progress.init [fileNonResumable] {} false).step Beat.pause).run
        schedWaiting).committed ≤ 0 ∧
    (0 : Int) ≤ (((Progress.init [fileNonResumable] {} false).step Beat.pause).run
        schedWaiting).stats.bytesDownload ∧
    (((Progress.init [fileNonResumable] {} false).step Beat.pause).committed = 0 →
      (((Progress.init [fileNonResumable] {} false).step Beat.pause).run
        schedWaiting).stats.bytesDownload = 0) :=
  pause_holds_back_new_transfers ((Progress.init [fileNonResumable] {} false).step Beat.pause)
    schedWaiting rfl (by decide)

/-! ## The tick handler and the end of a batch -/

/-- Claim C12 fails on the code: with auto-extract on, the tick handler sets
`downloading` to false exactly when the batch is not paused, the extraction
phase has been entered (the flag `extracting`, which a tick sets once
`completed` reaches the file count) and `extracted` has reached `total`, the
number of files of the batch, not the number of its archives.  As long as
`extracted` is below the file count a tick changes nothing, so no number of
ticks ends a batch with fewer archives than files. -/
theorem tick_finishes_iff (m : Model) (st : downloadStats) (now : Int)
    (typed : String → String → String)
    (hdl : m.downloading = true) (hst : m.downloadStats = some st)
    (hae : m.autoExtract = true) :
    ((m.Update now typed Msg.tickMsg).map (fun r => r.1.downloading) = some false ↔
      m.paused = false ∧ st.extracting = true ∧ st.extracted ≥ st.total) ∧
    (m.paused = false → st.extracting = true → st.extracted < st.total →
      m.Update now typed Msg.tickMsg = some (m, Cmd.tick)) := by
  constructor
  · simp only [Model.Update, Model.tick, hst, hdl, hae]
    by_cases hp : m.paused = true
    · simp [hp, hdl]
    · by_cases he : st.extracting = true
      · by_cases hx : st.extracted ≥ st.total
        · simp [hp, he, hx]
        · simp [hp, he, hx, hdl]
      · by_cases hcpl : st.completed ≥ st.total
        · simp [hp, he, hcpl, hdl]
        · simp [hp, he, hcpl, hdl]
  · intro hp he hx
    have hx2 : ¬ st.extracted ≥ st.total := by omega
    simp [Model.Update, Model.tick, hst, hdl, hp, he, hx2]

/-- Claim C12 at a concrete batch: `a.zip` and `b.txt` with auto-extract on.
The batch transfers both files and extracts its one archive, so `completed` is
the file count 2 and `extracted` is the number of archives 1; the tick handler
leaves `downloading` set, now and at every later tick. -/
theorem tick_finishes_iff_witness :
    (filesMixed.filter (fun f => isZipPath f.path)).length = 1 ∧
    (startDownloadWithFiles filesMixed { total := 2 } false true false false fsEmpty
      (schedAll (quietEnv (some ⟨200, ⟨[[1]], false⟩⟩)) 2) zipEnvPlain []).map
      (fun r => (r.pool.stats.completed, r.extracted, r.pool.extractFiles, r.msg))
      = some (2, 1, ["downloads/a.zip"], BatchMsg.downloadCompleteMsg) ∧
    ¬ ((mMixed.Update 500 typedAppend Msg.tickMsg).map (fun r => r.1.downloading)
      = some false) ∧
    mMixed.Update 500 typedAppend Msg.tickMsg = some (mMixed, Cmd.tick) :=
  ⟨by decide, by decide,
    fun h => absurd ((tick_finishes_iff mMixed
      { total := 2, completed := 2, extracted := 1, extracting := true } 500 typedAppend
      rfl rfl rfl).1.mp h).2.2 (by decide),
    (tick_finishes_iff mMixed
      { total := 2, completed := 2, extracted := 1, extracting := true } 500 typedAppend
      rfl rfl rfl).2 rfl rfl (by decide)⟩

/-! ## Error dismissal -/

/-- Claim C13: in a model whose `lastError` is not empty, every key message
only clears `lastError` and returns no command, so the entries, the filtered
list, the cursor, the scroll offset, the current path, the path stack and the
four option flags are unchanged; and in every model, showing an error or not,
an `errMsg` only sets `lastError`, clears `downloading` and the status, and
returns no command, so it changes none of those fields either. -/
theorem error_dismissal_preserves_nav (m : Model) (now : Int)
    (typed : String → String → String) (key err : String) :
    (m.lastError ≠ "" →
      m.Update now typed (Msg.KeyMsg key) = some ({ m with lastError := "" }, Cmd.nil) ∧
      (m.Update now typed (Msg.KeyMsg key)).map (fun r => (r.1.lastError, r.1.nav, r.2))
        = some ("", m.nav, Cmd.nil)) ∧
    m.Update now typed (Msg.errMsg err)
      = some ({ m with lastError := err, downloading := false, status := Status.text "" },
          Cmd.nil) ∧
    (m.Update now typed (Msg.errMsg err)).map (fun r => (r.1.nav, r.2))
      = some (m.nav, Cmd.nil) := by
  refine ⟨fun h => ⟨?_, ?_⟩, ?_, ?_⟩
  · simp [Model.Update, h]
  · simp [Model.Update, h, Model.nav]
  · simp [Model.Update]
  · simp [Model.Update, Model.nav]

/-- Claim C13 at concrete models: the error shown after a failed directory
load is dismissed with the key `d`, which starts no download; and an `errMsg`
that arrives at the browser `mBrowsing`, which shows no error, leaves its
listing, cursor, path and flags as they are. -/
theorem error_dismissal_preserves_nav_witness :
    mError.lastError ≠ "" ∧
    mError.Update 7 typedAppend (Msg.KeyMsg "d")
      = some ({ mError with lastError := "" }, Cmd.nil) ∧
    (mError.Update 7 typedAppend (Msg.KeyMsg "d")).map (fun r => (r.1.lastError, r.1.nav, r.2))
      = some ("", mError.nav, Cmd.nil) ∧
    mBrowsing.lastError = "" ∧
    mBrowsing.Update 7 typedAppend (Msg.errMsg "failed")
      = some ({ mBrowsing with lastError := "failed", downloading := false,
                               status := Status.text "" }, Cmd.nil) ∧
    (mBrowsing.Update 7 typedAppend (Msg.errMsg "failed")).map (fun r => (r.1.nav, r.2))
      = some (mBrowsing.nav, Cmd.nil) :=
  ⟨by decide,
   ((error_dismissal_preserves_nav mError 7 typedAppend "d" "again").1 (by decide)).1,
   ((error_dismissal_preserves_nav mError 7 typedAppend "d" "again").1 (by decide)).2,
   rfl,
   (error_dismissal_preserves_nav mBrowsing 7 typedAppend "d" "failed").2.1,
   (error_dismissal_preserves_nav mBrowsing 7 typedAppend "d" "failed").2.2⟩

/-! ## The cursor and the lookup of `enter` -/

theorem updateFilter_eq (m : Model) :
    ∃ F : List Nat, (∀ i ∈ F, i < m.entries.length) ∧
      m.updateFilter =
        if F.length > 0 then
          { m with filtered := F, cursor := 0, viewport := { m.viewport with offset := 0 } }
        else { m with filtered := F } := by
  refine ⟨if toLowerStr m.filterInput = "" then List.range m.entries.length
    else (List.range m.entries.length).filter (fun i =>
      match m.entries.get? i with
      | some entry => containsStr (toLowerStr entry.Name) (toLowerStr m.filterInput)
      | none => false), ?_, rfl⟩
  intro i hi
  split at hi
  · exact List.mem_range.mp hi
  · exact List.mem_range.mp (List.mem_filter.mp hi).1

theorem updateFilter_ok (m : Model) (hc : -1 ≤ m.cursor) (hh : 0 ≤ m.viewport.height)
    (hd : m.downloading = true → m.downloadStats ≠ none) : m.updateFilter.browseOK := by
  obtain ⟨F, hF, he⟩ := updateFilter_eq m
  rw [he]
  split
  · rename_i hlen
    exact ⟨hF, fun _ => ⟨Int.le_refl _, by simpa using hlen⟩, by simp, hh, hd⟩
  · rename_i hlen
    refine ⟨hF, ?_, hc, hh, hd⟩
    intro hne
    exact absurd (List.length_pos.mpr hne) hlen

theorem browseOK_initial : InitialModel.browseOK := by
  refine ⟨?_, ?_, ?_, ?_, ?_⟩ <;> simp [InitialModel]

theorem startBatch_ok (m : Model) (now : Int) (files : List fileEntry) (status : Status)
    (h : m.browseOK) : (m.startBatch now files status).1.browseOK := by
  obtain ⟨h1, h2, h3, h4, _⟩ := h
  unfold Model.startBatch
  dsimp only
  split <;> exact ⟨h1, h2, h3, h4, fun _ => by simp⟩

theorem keyEnter_ok (m : Model) (now : Int) (r : Model × Cmd) (h : m.browseOK)
    (hr : m.keyEnter now = some r) : r.1.browseOK := by
  have hb := h
  obtain ⟨h1, h2, h3, h4, h5⟩ := h
  unfold Model.keyEnter at hr
  split at hr
  · cases hr; exact hb
  · split at hr
    · cases hr
    · split at hr
      · cases hr
      · split at hr
        · split at hr
          · split at hr
            · cases hr; exact ⟨h1, h2, h3, h4, h5⟩
            · cases hr; exact ⟨h1, h2, h3, h4, h5⟩
          · cases hr; exact ⟨h1, h2, h3, h4, h5⟩
        · cases hr; exact startBatch_ok m now _ _ hb

theorem keyDownloadAll_ok (m : Model) (now : Int) (r : Model × Cmd) (h : m.browseOK)
    (hr : m.keyDownloadAll now = some r) : r.1.browseOK := by
  have hb := h
  obtain ⟨h1, h2, h3, h4, h5⟩ := h
  unfold Model.keyDownloadAll at hr
  split at hr
  · cases hr
  · dsimp only at hr
    split at hr
    · cases hr; exact ⟨h1, h2, h3, h4, h5⟩
    · cases hr; exact startBatch_ok m now _ _ hb

theorem move_ok (m : Model) (c : Int) (vp : Viewport) (h : m.browseOK)
    (hv : vp.height = m.viewport.height) (hc1 : -1 ≤ c)
    (hc2 : m.filtered ≠ [] → 0 ≤ c ∧ c < m.filtered.length) :
    ({ m with cursor := c, viewport := vp }).browseOK := by
  obtain ⟨h1, _, _, h4, h5⟩ := h
  exact ⟨h1, hc2, hc1, by rw [hv]; exact h4, h5⟩

theorem vp_if_height (c : Prop) [Decidable c] (vp : Viewport) (o : Int) :
    (if c then { vp with offset := o } else vp).height = vp.height := by
  split <;> rfl

theorem keyBrowse_ok (m : Model) (now : Int) (key : String) (r : Model × Cmd)
    (h : m.browseOK) (hr : m.keyBrowse now key = some r) : r.1.browseOK := by
  have hb := h
  obtain ⟨h1, h2, h3, h4, h5⟩ := h
  have hl : m.filtered ≠ [] → 0 < m.filtered.length := fun hne => List.length_pos.mpr hne
  unfold Model.keyBrowse at hr
  by_cases k_q : key = "ctrl+c" ∨ key = "q"
  · rw [if_pos k_q] at hr; cases hr; exact hb
  rw [if_neg k_q] at hr
  by_cases k_s : key = "s"
  · rw [if_pos k_s] at hr; cases hr; exact ⟨h1, h2, h3, h4, h5⟩
  rw [if_neg k_s] at hr
  by_cases k_x : key = "x"
  · rw [if_pos k_x] at hr; cases hr; exact ⟨h1, h2, h3, h4, h5⟩
  rw [if_neg k_x] at hr
  by_cases k_f : key = "f"
  · rw [if_pos k_f] at hr; cases hr; exact ⟨h1, h2, h3, h4, h5⟩
  rw [if_neg k_f] at hr
  by_cases k_z : key = "z"
  · rw [if_pos k_z] at hr; cases hr; exact ⟨h1, h2, h3, h4, h5⟩
  rw [if_neg k_z] at hr
  by_cases k_slash : key = "/"
  · rw [if_pos k_slash] at hr; cases hr; exact ⟨h1, h2, h3, h4, h5⟩
  rw [if_neg k_slash] at hr
  by_cases k_up : key = "up"
  · rw [if_pos k_up] at hr
    by_cases hc : m.cursor > 0
    · rw [if_pos hc] at hr
      cases hr
      apply move_ok m _ _ hb
      · exact vp_if_height _ _ _
      · omega
      · intro hne
        have := h2 hne
        omega
    · rw [if_neg hc] at hr; cases hr; exact hb
  rw [if_neg k_up] at hr
  by_cases k_down : key = "down"
  · rw [if_pos k_down] at hr
    by_cases hc : m.cursor < (m.filtered.length : Int) - 1
    · rw [if_pos hc] at hr
      cases hr
      apply move_ok m _ _ hb
      · exact vp_if_height _ _ _
      · omega
      · intro hne
        have := h2 hne
        omega
    · rw [if_neg hc] at hr; cases hr; exact hb
  rw [if_neg k_down] at hr
  by_cases k_pgup : key = "pgup"
  · rw [if_pos k_pgup] at hr
    cases hr
    apply move_ok m _ _ hb
    · rfl
    · (try dsimp only); split <;> omega
    · intro hne
      have := h2 hne
      split <;> omega
  rw [if_neg k_pgup] at hr
  by_cases k_pgdown : key = "pgdown"
  · rw [if_pos k_pgdown] at hr
    cases hr
    apply move_ok m _ _ hb
    · exact vp_if_height _ _ _
    · (try dsimp only); split <;> omega
    · intro hne
      have := h2 hne
      have := hl hne
      split <;> omega
  rw [if_neg k_pgdown] at hr
  by_cases k_home : key = "home"
  · rw [if_pos k_home] at hr
    cases hr
    apply move_ok m _ _ hb
    · rfl
    · omega
    · intro hne
      have := hl hne
      omega
  rw [if_neg k_home] at hr
  by_cases k_end : key = "end"
  · rw [if_pos k_end] at hr
    cases hr
    apply move_ok m _ _ hb
    · exact vp_if_height _ _ _
    · omega
    · intro hne
      have := hl hne
      omega
  rw [if_neg k_end] at hr
  by_cases k_d : key = "d"
  · rw [if_pos k_d] at hr; exact keyDownloadAll_ok m now r hb hr
  rw [if_neg k_d] at hr
  by_cases k_e : key = "right" ∨ key = "enter"
  · rw [if_pos k_e] at hr; exact keyEnter_ok m now r hb hr
  rw [if_neg k_e] at hr
  by_cases k_left : key = "left"
  · rw [if_pos k_left] at hr
    split at hr
    · cases hr; exact ⟨h1, h2, h3, h4, h5⟩
    · split at hr
      · cases hr; exact ⟨h1, h2, h3, h4, h5⟩
      · cases hr; exact hb
  rw [if_neg k_left] at hr
  cases hr
  exact hb

theorem browseOK_status (m : Model) (s : Status) (h : m.browseOK) :
    ({ m with status := s }).browseOK := h

theorem keyDownloading_ok (m : Model) (now : Int) (key : String) (r : Model × Cmd)
    (h : m.browseOK) (hr : m.keyDownloading now key = some r) : r.1.browseOK := by
  have hb := h
  obtain ⟨h1, h2, h3, h4, h5⟩ := h
  unfold Model.keyDownloading at hr
  repeat' split at hr
  all_goals first
    | (cases hr; done)
    | (cases hr; exact hb)
    | (cases hr
       refine ⟨h1, h2, h3, h4, ?_⟩
       intro hd
       first
         | exact h5 hd
         | exact Bool.noConfusion hd
         | exact Option.some_ne_none _)

theorem keyDownloading_some (m : Model) (now : Int) (key : String)
    (hd : m.downloadStats ≠ none) : m.keyDownloading now key ≠ none := by
  unfold Model.keyDownloading
  repeat' split
  all_goals first
    | exact Option.some_ne_none _
    | contradiction

theorem tick_ok (m : Model) (now : Int) (h : m.browseOK) : (m.tick now).1.browseOK := by
  have hb := h
  obtain ⟨h1, h2, h3, h4, h5⟩ := h
  unfold Model.tick
  repeat' split
  all_goals first
    | exact hb
    | (refine ⟨h1, h2, h3, h4, ?_⟩
       intro hd
       first
         | exact h5 hd
         | exact Bool.noConfusion hd
         | exact Option.some_ne_none _)

theorem keyFiltering_ok (m : Model) (typed : String → String → String) (key : String)
    (h : m.browseOK) : (m.keyFiltering typed key).1.browseOK := by
  have hb := h
  obtain ⟨h1, h2, h3, h4, h5⟩ := h
  unfold Model.keyFiltering
  repeat' split
  · exact updateFilter_ok _ h3 h4 h5
  · exact ⟨h1, h2, h3, h4, h5⟩
  · exact updateFilter_ok _ h3 h4 h5

theorem Update_ok (m : Model) (now : Int) (typed : String → String → String) (msg : Msg)
    (r : Model × Cmd) (h : m.browseOK) (hm : msg.roomy = true)
    (hr : m.Update now typed msg = some r) : r.1.browseOK := by
  have hb := h
  obtain ⟨h1, h2, h3, h4, h5⟩ := h
  cases msg with
  | WindowSizeMsg w ht =>
    simp only [Model.Update] at hr
    cases hr
    have : 12 ≤ ht := by simpa [Msg.roomy] using hm
    exact ⟨h1, h2, h3, by dsimp only; omega, h5⟩
  | errMsg err =>
    simp only [Model.Update] at hr
    cases hr
    exact ⟨h1, h2, h3, h4, fun hd => Bool.noConfusion hd⟩
  | dirLoadedMsg entries =>
    simp only [Model.Update] at hr
    cases hr
    apply browseOK_status
    apply updateFilter_ok
    · dsimp only; omega
    · exact h4
    · exact h5
  | scanCompleteMsg totalBytes files =>
    simp only [Model.Update] at hr
    split at hr
    · cases hr; exact ⟨h1, h2, h3, h4, fun _ => Option.some_ne_none _⟩
    · cases hr; exact hb
  | tickMsg =>
    simp only [Model.Update] at hr
    cases hr
    exact tick_ok m now hb
  | downloadCompleteMsg =>
    simp only [Model.Update] at hr
    split at hr
    · cases hr; exact ⟨h1, h2, h3, h4, fun hd => Bool.noConfusion hd⟩
    · cases hr; exact ⟨h1, h2, h3, h4, fun hd => Bool.noConfusion hd⟩
  | KeyMsg key =>
    simp only [Model.Update] at hr
    split at hr
    · cases hr; exact ⟨h1, h2, h3, h4, h5⟩
    · split at hr
      · exact keyDownloading_ok m now key r hb hr
      · split at hr
        · cases hr; exact keyFiltering_ok m typed key hb
        · exact keyBrowse_ok m now key r hb hr
  | other =>
    simp only [Model.Update] at hr
    cases hr
    exact hb

theorem after_ok (typed : String → String → String) (msgs : List (Int × Msg)) :
    ∀ (m m2 : Model), m.browseOK → (∀ x ∈ msgs, x.2.roomy = true) →
      m.after typed msgs = some m2 → m2.browseOK := by
  induction msgs with
  | nil =>
    intro m m2 h _ hr
    simp only [Model.after] at hr
    cases hr
    exact h
  | cons x rest ih =>
    intro m m2 h hm hr
    obtain ⟨now, msg⟩ := x
    simp only [Model.after] at hr
    split at hr
    · cases hr
    · rename_i r hu
      exact ih r.1 m2 (Update_ok m now typed msg r h (hm _ (List.mem_cons_self _ _)) hu)
        (fun y hy => hm y (List.mem_cons_of_mem _ hy)) hr

theorem mapM_get?_some {α : Type} (es : List α) :
    ∀ (F : List Nat), (∀ i ∈ F, i < es.length) →
      ∃ out, F.mapM (fun idx => es.get? idx) = some out := by
  intro F
  induction F with
  | nil => intro _; exact ⟨[], rfl⟩
  | cons i rest ih =>
    intro h
    obtain ⟨out, ho⟩ := ih (fun j hj => h j (List.mem_cons_of_mem _ hj))
    have hi : i < es.length := h i (List.mem_cons_self _ _)
    refine ⟨es.get ⟨i, hi⟩ :: out, ?_⟩
    simp only [List.mapM_cons, ho, List.get?_eq_get hi]
    rfl

theorem keyDownloadAll_some (m : Model) (now : Int) (h : m.browseOK) :
    m.keyDownloadAll now ≠ none := by
  obtain ⟨out, ho⟩ := mapM_get?_some m.entries m.filtered h.1
  unfold Model.keyDownloadAll
  rw [ho]
  dsimp only
  split <;> exact Option.some_ne_none _

theorem keyEnter_none_iff (m : Model) (now : Int) (h : m.browseOK) :
    m.keyEnter now = none ↔ m.cursor = -1 := by
  obtain ⟨h1, h2, h3, h4, h5⟩ := h
  unfold Model.keyEnter
  constructor
  · intro hr
    by_cases hne : m.filtered = []
    · by_cases hc : m.cursor ≥ m.filtered.length
      · rw [if_pos hc] at hr; cases hr
      · rw [hne] at hc
        simp only [List.length_nil, Nat.cast_zero, ge_iff_le, not_le] at hc
        omega
    · exfalso
      obtain ⟨hc0, hc1⟩ := h2 hne
      rw [if_neg (by omega)] at hr
      have hlt : m.cursor.toNat < m.filtered.length := by omega
      have hi : index? m.filtered m.cursor = some (m.filtered.get ⟨m.cursor.toNat, hlt⟩) := by
        unfold index?
        rw [if_neg (by omega), List.get?_eq_get hlt]
      rw [hi] at hr
      dsimp only at hr
      have hlt2 := h1 _ (List.get_mem m.filtered m.cursor.toNat hlt)
      rw [List.get?_eq_get hlt2] at hr
      dsimp only at hr
      repeat' split at hr
      all_goals cases hr
  · intro hc
    have hne : m.filtered = [] := by
      by_contra hne
      have := h2 hne
      omega
    rw [if_neg (by rw [hc]; have : (0 : Int) ≤ m.filtered.length := Int.ofNat_nonneg _; omega)]
    have hi : index? m.filtered m.cursor = none := by
      unfold index?
      rw [if_pos (by omega)]
    rw [hi]

theorem keyBrowse_enter (m : Model) (now : Int) (key : String)
    (hk : key = "right" ∨ key = "enter") : m.keyBrowse now key = m.keyEnter now := by
  rcases hk with hk | hk <;> subst hk <;> unfold Model.keyBrowse <;> simp

theorem keyBrowse_none_iff (m : Model) (now : Int) (key : String) (h : m.browseOK) :
    m.keyBrowse now key = none ↔ (key = "right" ∨ key = "enter") ∧ m.cursor = -1 := by
  constructor
  · intro hr
    by_cases hk : key = "right" ∨ key = "enter"
    · rw [keyBrowse_enter m now key hk] at hr
      exact ⟨hk, (keyEnter_none_iff m now h).mp hr⟩
    · exfalso
      unfold Model.keyBrowse at hr
      have hd := keyDownloadAll_some m now h
      by_cases k_q : key = "ctrl+c" ∨ key = "q"
      · rw [if_pos k_q] at hr; cases hr
      rw [if_neg k_q] at hr
      by_cases k_s : key = "s"
      · rw [if_pos k_s] at hr; cases hr
      rw [if_neg k_s] at hr
      by_cases k_x : key = "x"
      · rw [if_pos k_x] at hr; cases hr
      rw [if_neg k_x] at hr
      by_cases k_f : key = "f"
      · rw [if_pos k_f] at hr; cases hr
      rw [if_neg k_f] at hr
      by_cases k_z : key = "z"
      · rw [if_pos k_z] at hr; cases hr
      rw [if_neg k_z] at hr
      by_cases k_slash : key = "/"
      · rw [if_pos k_slash] at hr; cases hr
      rw [if_neg k_slash] at hr
      by_cases k_up : key = "up"
      · rw [if_pos k_up] at hr; split at hr <;> cases hr
      rw [if_neg k_up] at hr
      by_cases k_down : key = "down"
      · rw [if_pos k_down] at hr; split at hr <;> cases hr
      rw [if_neg k_down] at hr
      by_cases k_pgup : key = "pgup"
      · rw [if_pos k_pgup] at hr; cases hr
      rw [if_neg k_pgup] at hr
      by_cases k_pgdown : key = "pgdown"
      · rw [if_pos k_pgdown] at hr; cases hr
      rw [if_neg k_pgdown] at hr
      by_cases k_home : key = "home"
      · rw [if_pos k_home] at hr; cases hr
      rw [if_neg k_home] at hr
      by_cases k_end : key = "end"
      · rw [if_pos k_end] at hr; cases hr
      rw [if_neg k_end] at hr
      by_cases k_d : key = "d"
      · rw [if_pos k_d] at hr; exact hd hr
      rw [if_neg k_d, if_neg hk] at hr
      by_cases k_left : key = "left"
      · rw [if_pos k_left] at hr
        split at hr
        · cases hr
        · split at hr <;> cases hr
      rw [if_neg k_left] at hr
      cases hr
  · rintro ⟨hk, hc⟩
    rw [keyBrowse_enter m now key hk]
    exact (keyEnter_none_iff m now h).mpr hc

theorem Update_none_iff (m : Model) (now : Int) (typed : String → String → String) (msg : Msg)
    (h : m.browseOK) :
    m.Update now typed msg = none ↔
      ∃ key, msg = Msg.KeyMsg key ∧ (key = "right" ∨ key = "enter") ∧ m.lastError = "" ∧
        m.downloading = false ∧ m.filtering = false ∧ m.cursor = -1 := by
  cases msg with
  | KeyMsg key =>
    simp only [Model.Update]
    by_cases he : m.lastError ≠ ""
    · rw [if_pos he]
      constructor
      · intro hr; cases hr
      · rintro ⟨k, _, _, he2, _⟩; exact absurd he2 he
    · rw [if_neg he]
      have he2 : m.lastError = "" := by
        by_contra hx
        exact he hx
      by_cases hdl : m.downloading = true
      · rw [if_pos hdl]
        constructor
        · intro hr; exact absurd hr (keyDownloading_some m now key (h.2.2.2.2 hdl))
        · rintro ⟨k, _, _, _, hd2, _⟩; rw [hd2] at hdl; cases hdl
      · rw [if_neg hdl]
        have hdl2 : m.downloading = false := by
          cases hx : m.downloading
          · rfl
          · exact absurd hx hdl
        by_cases hf : m.filtering = true
        · rw [if_pos hf]
          constructor
          · intro hr; cases hr
          · rintro ⟨k, _, _, _, _, hf2, _⟩; rw [hf2] at hf; cases hf
        · rw [if_neg hf]
          have hf2 : m.filtering = false := by
            cases hx : m.filtering
            · rfl
            · exact absurd hx hf
          rw [keyBrowse_none_iff m now key h]
          constructor
          · rintro ⟨hk, hc⟩; exact ⟨key, rfl, hk, he2, hdl2, hf2, hc⟩
          · rintro ⟨k, hk0, hk, _, _, _, hc⟩
            cases hk0
            exact ⟨hk, hc⟩
  | WindowSizeMsg w ht =>
    simp only [Model.Update]
    constructor
    · intro hr; cases hr
    · rintro ⟨k, hk, _⟩; cases hk
  | errMsg err =>
    simp only [Model.Update]
    constructor
    · intro hr; cases hr
    · rintro ⟨k, hk, _⟩; cases hk
  | dirLoadedMsg entries =>
    simp only [Model.Update]
    constructor
    · intro hr; cases hr
    · rintro ⟨k, hk, _⟩; cases hk
  | scanCompleteMsg totalBytes files =>
    simp only [Model.Update]
    constructor
    · intro hr; split at hr <;> cases hr
    · rintro ⟨k, hk, _⟩; cases hk
  | tickMsg =>
    simp only [Model.Update]
    constructor
    · intro hr; cases hr
    · rintro ⟨k, hk, _⟩; cases hk
  | downloadCompleteMsg =>
    simp only [Model.Update]
    constructor
    · intro hr; split at hr <;> cases hr
    · rintro ⟨k, hk, _⟩; cases hk
  | other =>
    simp only [Model.Update]
    constructor
    · intro hr; cases hr
    · rintro ⟨k, hk, _⟩; cases hk

theorem end_sets_cursor (m : Model) (now : Int) (typed : String → String → String)
    (he : m.lastError = "") (hd : m.downloading = false) (hf : m.filtering = false) :
    ∃ vp, m.Update now typed (Msg.KeyMsg "end") =
      some ({ m with cursor := (m.filtered.length : Int) - 1, viewport := vp }, Cmd.nil) ∧
      vp.height = m.viewport.height := by
  refine ⟨_, ?_, vp_if_height (((m.filtered.length : Int) - 1) ≥ m.viewport.height) m.viewport
    ((m.filtered.length : Int) - 1 - m.viewport.height + 1)⟩
  simp [Model.Update, Model.keyBrowse, he, hd, hf]

/-- Claim C14, cursor index safety, as far as the code goes.  For every model
reachable from `InitialModel` by messages of a terminal of at least twelve rows,
every element of `filtered` is a valid index into `entries`, the cursor lies in
`0 .. len(filtered) - 1` when `filtered` is non-empty, and it is never below
`-1`.  The value `-1` is reached: on an empty list in browse mode the key `end`
sets the cursor to `len(filtered) - 1 = -1`.  `Update` panics exactly on `right`
or `enter` in browse mode with cursor `-1`, where the guard
`m.cursor >= len(m.filtered)` lets the lookup `m.filtered[m.cursor]` through; so
`end` followed by `enter` on an empty list is an index out of range. -/
theorem enter_after_end_panics (typed : String → String → String)
    (msgs : List (Int × Msg)) (m : Model)
    (hroomy : ∀ x ∈ msgs, x.2.roomy = true)
    (hreach : InitialModel.after typed msgs = some m) :
    ((∀ i ∈ m.filtered, i < m.entries.length) ∧
      (m.filtered ≠ [] → 0 ≤ m.cursor ∧ m.cursor < m.filtered.length) ∧
      -1 ≤ m.cursor) ∧
    (∀ now msg, m.Update now typed msg = none ↔
      ∃ key, msg = Msg.KeyMsg key ∧ (key = "right" ∨ key = "enter") ∧ m.lastError = "" ∧
        m.downloading = false ∧ m.filtering = false ∧ m.cursor = -1) ∧
    (m.filtered = [] → m.lastError = "" → m.downloading = false → m.filtering = false →
      ∀ t0 t1 : Int,
        (m.Update t0 typed (Msg.KeyMsg "end")).map (fun r => r.1.cursor) = some (-1) ∧
        m.after typed [(t0, Msg.KeyMsg "end"), (t1, Msg.KeyMsg "enter")] = none) := by
  have hb : m.browseOK := after_ok typed msgs InitialModel m browseOK_initial hroomy hreach
  refine ⟨⟨hb.1, hb.2.1, hb.2.2.1⟩, fun now msg => Update_none_iff m now typed msg hb, ?_⟩
  intro hnil he hd hf t0 t1
  obtain ⟨vp, hu, hvp⟩ := end_sets_cursor m t0 typed he hd hf
  rw [hnil] at hu
  have hb2 := Update_ok m t0 typed (Msg.KeyMsg "end") _ hb rfl hu
  constructor
  · rw [hu]; rfl
  · simp only [Model.after, hu]
    have hn := (Update_none_iff _ t1 typed (Msg.KeyMsg "enter") hb2).mpr
      ⟨"enter", rfl, Or.inr rfl, he, hd, hf, rfl⟩
    rw [hn]

/-- Claim C14 at a concrete session: the messages `msgsNoMatch` lead to the
browser `mNoMatch` with an empty list, where `end` sets the cursor to `-1` and
`enter` then panics. -/
theorem enter_after_end_panics_witness :
    InitialModel.after typedAppend msgsNoMatch = some mNoMatch ∧
    (mNoMatch.Update 4 typedAppend (Msg.KeyMsg "end")).map (fun r => r.1.cursor) = some (-1) ∧
    mNoMatch.after typedAppend [(4, Msg.KeyMsg "end"), (5, Msg.KeyMsg "enter")] = none :=
  ⟨by decide,
   (enter_after_end_panics typedAppend msgsNoMatch mNoMatch (by decide) (by decide)).2.2
     rfl rfl rfl rfl 4 5⟩

/-- From `InitialModel` itself, before any listing arrived: `end` or `pgdown`
set the cursor to `-1`, and `enter` or `right` then panic. -/
theorem initial_end_enter_panics :
    (InitialModel.after typedAppend [(0, Msg.KeyMsg "end")]).map (fun m => m.cursor)
      = some (-1) ∧
    (InitialModel.after typedAppend [(0, Msg.KeyMsg "pgdown")]).map (fun m => m.cursor)
      = some (-1) ∧
    InitialModel.after typedAppend [(0, Msg.KeyMsg "end"), (1, Msg.KeyMsg "enter")] = none ∧
    InitialModel.after typedAppend [(0, Msg.KeyMsg "pgdown"), (1, Msg.KeyMsg "right")]
      = none := by
  decide

/-- In a terminal of fewer than twelve rows the viewport height is negative,
and `pgdown` on a non-empty list moves the cursor below `-1`; `enter` then
panics as well. -/
theorem small_window_pgdown_panics :
    (InitialModel.after typedAppend msgsSmallWindow).map
      (fun m => (m.filtered, m.cursor, m.viewport.height)) = some ([0, 1], -5, -5) ∧
    InitialModel.after typedAppend (msgsSmallWindow ++ [(3, Msg.KeyMsg "enter")]) = none := by
  decide

/-! ## Cancellation -/

/-- The handler of `scanCompleteMsg` starts `startDownloadWithFiles` on the
counters the model holds at that moment, new or not: a `scanCompleteMsg` for one
file that arrives at `mStale` runs a pool that starts at `completed = 3` and
drains at `completed = 4`, with `total = 3` and one call made. -/
theorem scanComplete_runs_on_held_counters :
    (mStale.Update 0 typedAppend (Msg.scanCompleteMsg 0 [fileNonResumable])).bind
      (fun r => (r.1.runTransfers worldPlain (schedOne (quietEnv none)) r.2).map
        (fun b => (b.pool.stats.total, b.pool.stats.completed, b.pool.outcomes.length)))
      = some (3, 4, 1) := by
  decide

end MyrientBrowser
